import Mathlib

set_option maxHeartbeats 1600000
set_option maxRecDepth 4000

/-!
Verification development for the IPTV_Editor repository.

This file gives a shallow embedding of the repository's core logic —
src/iptv_editor/m3u.py (bulk-line parsing, M3U parsing, M3U writing),
src/iptv_editor/project.py (the container file format) and
src/iptv_editor/checks.py (the stream probe) — and proves or refutes the
specification claims about them.

Modelling conventions:
* Python strings are modelled as `List Char` of Unicode scalar values.
* Unicode-aware Python predicates (`str.isdigit`, `str.upper`,
  whitespace classes) are modelled on their ASCII parts; every concrete
  input used in a theorem below is ASCII, where the models agree with
  Python exactly.
* Python code that can raise is modelled with `Except`; the exception
  kind records which Python exception escapes.
-/

abbrev Str := List Char

/-- Whitespace recognized by Python's `str.strip()` and the regex class
matched by a bare space in the source patterns (ASCII part). -/
def isPySpace (c : Char) : Bool :=
  c = ' ' || c = '\t' || c = '\n' || c = '\r' || c = '\x0b' || c = '\x0c'

/-- Strip characters satisfying `p` from both ends (model of
`str.strip(chars)` with `p` the membership test of `chars`). -/
def pyStripP (p : Char → Bool) (s : Str) : Str :=
  ((s.dropWhile p).reverse.dropWhile p).reverse

/-- Model of Python `str.strip()` (default whitespace). -/
def pyStrip (s : Str) : Str := pyStripP isPySpace s

/-- Model of Python `str.rstrip()`. -/
def pyRstrip (s : Str) : Str := (s.reverse.dropWhile isPySpace).reverse

/-- Model of Python `str.split(sep)` for a one-character separator and
no maxsplit: `"".split(sep) == [""]`, empty fields kept. -/
def splitOnChar (sep : Char) : Str → List Str
  | [] => [[]]
  | c :: cs =>
    match splitOnChar sep cs with
    | [] => [[]]
    | h :: t => if c = sep then [] :: h :: t else (c :: h) :: t

/-- Model of Python `str.split(sep, 1)`: `none` when the separator is
absent, otherwise the parts before and after its first occurrence. -/
def splitFirst (sep : Char) : Str → Option (Str × Str)
  | [] => none
  | c :: cs =>
    if c = sep then some ([], cs)
    else (splitFirst sep cs).map (fun p => (c :: p.1, p.2))

/-- Line-break characters recognized by Python `str.splitlines`. -/
def isLineBreak (c : Char) : Bool :=
  c = '\n' || c = '\r' || c = '\x0b' || c = '\x0c' ||
  c = '\x1c' || c = '\x1d' || c = '\x1e' ||
  c.toNat = 0x85 || c.toNat = 0x2028 || c.toNat = 0x2029

/-- Worker for `pySplitlines`; the first argument is the reversed
current line. -/
def pySplitlinesGo : Str → Str → List Str
  | cur, [] => if cur = [] then [] else [cur.reverse]
  | cur, '\r' :: '\n' :: cs => cur.reverse :: pySplitlinesGo [] cs
  | cur, c :: cs =>
    if isLineBreak c then cur.reverse :: pySplitlinesGo [] cs
    else pySplitlinesGo (c :: cur) cs

/-- Model of Python `str.splitlines()`: a trailing terminator adds no
empty line, and `"\r\n"` counts as a single break. -/
def pySplitlines (s : Str) : List Str := pySplitlinesGo [] s

/-- ASCII model of Python `str.upper()`. -/
def upperAscii (s : Str) : Str := s.map Char.toUpper

/-- ASCII model of Python `str.lower()`. -/
def lowerAscii (s : Str) : Str := s.map Char.toLower

/-- ASCII model of Python `str.isdigit()`: nonempty and all digits. -/
def isDigitStr (s : Str) : Bool := !s.isEmpty && s.all Char.isDigit

/-- Python truthiness-based `or` on strings: `a or b`. -/
def pyOr (a b : Str) : Str := if a = [] then b else a

/-- Python `x or y` where `x` is `dict.get`'s `Optional[str]` result:
both `None` and `""` fall through to `y`. -/
def pyOrOpt : Option Str → Str → Str
  | some v, b => if v = [] then b else v
  | none, b => b

/-- Channel record, the `(name, url, group, logo)` tuples produced by
the parsers in src/iptv_editor/m3u.py. -/
structure Row where
  name : Str
  url : Str
  group : Str
  logo : Str
deriving DecidableEq

/-- Scheme/netloc/path of a parsed URL (the fields of
`urllib.parse.urlparse` used by the source). -/
structure UrlParts where
  scheme : Str
  netloc : Str
  path : Str
deriving DecidableEq

/-- Characters allowed in a URL scheme by `urllib.parse`. -/
def schemeChar (c : Char) : Bool :=
  c.isAlpha || c.isDigit || c = '+' || c = '-' || c = '.'

/-- Model of `urllib.parse`'s removal of tab/CR/LF from a URL before
splitting. -/
def removeUnsafeUrlChars (s : Str) : Str :=
  s.filter (fun c => !(c = '\t' || c = '\r' || c = '\n'))

/-- Model of `urllib.parse.urlsplit`'s scheme extraction: a leading
alphabetic character followed by scheme characters up to the first
colon becomes the (lowercased) scheme. -/
def splitScheme (s : Str) : Str × Str :=
  match splitFirst ':' s with
  | none => ([], s)
  | some (pre, post) =>
    match pre with
    | [] => ([], s)
    | c :: _ =>
      if c.isAlpha && pre.all schemeChar then (lowerAscii (c :: pre.tail), post)
      else ([], s)

/-- Netloc/remainder split of `urllib.parse.urlsplit`: after `//`, the
netloc runs to the first `/`, `?` or `#`. -/
def urlNetlocRest (rest : Str) : Str × Str :=
  if (['/', '/']).isPrefixOf rest then
    ((rest.drop 2).takeWhile (fun c => !(c = '/' || c = '?' || c = '#')),
     (rest.drop 2).dropWhile (fun c => !(c = '/' || c = '?' || c = '#')))
  else ([], rest)

/-- Model of `urllib.parse.urlparse` restricted to the fields the
source reads (`scheme`, `netloc`, `path`, `hostname`): the error case
is the `ValueError` raised for mismatched IPv6 brackets in the netloc. -/
def urlsplitE (url0 : Str) : Except Unit UrlParts :=
  let url1 := removeUnsafeUrlChars url0
  let netloc := (urlNetlocRest (splitScheme url1).2).1
  if (netloc.contains '[' && !netloc.contains ']') ||
     (netloc.contains ']' && !netloc.contains '[') then
    .error ()
  else
    .ok ⟨(splitScheme url1).1, netloc,
      ((urlNetlocRest (splitScheme url1).2).2).takeWhile
        (fun c => !(c = '?' || c = '#'))⟩

/-- Model of `ParseResult.hostname` (without the final lowercasing,
which the caller applies): text after the last `@`, then either the
bracketed IPv6 body or the text before the first `:`. -/
def hostnameOf (netloc : Str) : Str :=
  let hostinfo := (netloc.reverse.takeWhile (fun c => c ≠ '@')).reverse
  if hostinfo.contains '[' then
    ((hostinfo.dropWhile (fun c => c ≠ '[')).drop 1).takeWhile (fun c => c ≠ ']')
  else
    hostinfo.takeWhile (fun c => c ≠ ':')

/-- CJK ideograph range `一-鿿` of the source regex. -/
def cjkChar (c : Char) : Bool := 0x4e00 ≤ c.toNat && c.toNat ≤ 0x9fff

/-- Characters kept by the cleanup regex in `_guess_name_from_url`:
`[A-Za-z0-9_\-一-鿿]`.  Note that a space is NOT kept. -/
def guessKeepChar (c : Char) : Bool :=
  c.isAlpha || c.isDigit || c = '_' || c = '-' || cjkChar c

/-- Model of `re.sub(r"[^A-Za-z0-9_\-一-鿿]+", " ", s)`: every
maximal run of non-kept characters becomes a single space.  The flag
records whether the previous character was part of such a run. -/
def collapseRuns : Bool → Str → Str
  | _, [] => []
  | inRun, c :: cs =>
    if guessKeepChar c then c :: collapseRuns false cs
    else if inRun then collapseRuns true cs
    else ' ' :: collapseRuns true cs

/-- Media extensions stripped by `_guess_name_from_url`. -/
def mediaExtsList : List Str :=
  [".m3u8".data, ".ts".data, ".mp4".data, ".mkv".data,
   ".flv".data, ".aac".data, ".mp3".data]

/-- Model of `re.sub(r"\.(m3u8|ts|mp4|mkv|flv|aac|mp3)$", "", leaf,
flags=re.I)`: remove one matching final extension, case-insensitively. -/
def stripMediaExt (leaf : Str) : Str :=
  match mediaExtsList.find? (fun e => e.isSuffixOf (lowerAscii leaf)) with
  | some e => leaf.take (leaf.length - e.length)
  | none => leaf

/-- Worker for `natDigits` with explicit fuel (the fuel `n + 1` always
suffices since a number has at most `n + 1` digits). -/
def natDigitsAux : Nat → Nat → Str
  | 0, _ => []
  | f + 1, n =>
    if n < 10 then [Char.ofNat (48 + n)]
    else natDigitsAux f (n / 10) ++ [Char.ofNat (48 + n % 10)]

/-- Decimal digits of a natural number, most significant first. -/
def natDigits (n : Nat) : Str := natDigitsAux (n + 1) n

/-- Model of the f-string `f"Channel {idx:03d}"` for a natural index. -/
def channelName (idx : Nat) : Str :=
  "Channel ".data ++ (List.replicate (3 - (natDigits idx).length) '0') ++ natDigits idx

/-- Leaf-derived name attempt of `_guess_name_from_url`: last segment
of the slash-stripped path, extension-stripped, run-collapsed and
trimmed; `[]` when the stripped path is empty. -/
def guessFromPath (p : UrlParts) : Str :=
  if pyStripP (fun c => c = '/') p.path ≠ [] then
    pyStrip (collapseRuns false
      (stripMediaExt ((splitOnChar '/'
        (pyStripP (fun c => c = '/') p.path)).getLastD [])))
  else []

/-- Body of the `try:` block of `_guess_name_from_url`
(src/iptv_editor/m3u.py lines 13-24); `.ok []` means the code fell
through both `return`s without an exception, and the wrapper turns it
into the `Channel NNN` fallback. -/
def guessCore (url : Str) : Except Unit Str :=
  match urlsplitE (pyStrip url) with
  | .error e => .error e
  | .ok p =>
    if guessFromPath p ≠ [] then .ok (guessFromPath p)
    else if lowerAscii (hostnameOf p.netloc) ≠ [] then
      .ok (lowerAscii (hostnameOf p.netloc))
    else .ok []

/-- Embedding of `_guess_name_from_url` (src/iptv_editor/m3u.py lines
12-27): any exception, or empty leaf and hostname, falls back to
`"Channel {idx:03d}"`. -/
def guess_name_from_url (url : Str) (idx : Nat) : Str :=
  match guessCore url with
  | .ok r => if r ≠ [] then r else channelName idx
  | .error _ => channelName idx

/-- Python exceptions that escape modelled code paths. -/
inductive PyExc where
  | indexError
  | unicodeEncodeError
  | binasciiError
  | zlibError
  | unicodeDecodeError
  | jsonDecodeError
deriving DecidableEq

/-- Loop body of `parse_bulk_text` (src/iptv_editor/m3u.py lines
40-71) for one raw input line; `.error .indexError` is the `parts[0]`
lookup on an empty `parts` list. -/
def parse_bulk_step (dg : Str) (st : List Row × Nat) (raw : Str) :
    Except PyExc (List Row × Nat) :=
  let rows := st.1
  let idx := st.2
  let s := pyStrip raw
  if s = [] || (['#']).isPrefixOf s then .ok (rows, idx)
  else
    let parts :=
      if s.contains '|' then (splitOnChar '|' s).map pyStrip
      else if s.contains ',' then (splitOnChar ',' s).map pyStrip
      else [s]
    let parts := parts.filter (fun p => p ≠ [])
    match parts with
    | [url] =>
      .ok (rows ++ [⟨guess_name_from_url url idx, url, dg, []⟩], idx + 1)
    | [] => .error .indexError
    | name0 :: rest =>
      let url := rest.headD []
      let group0 := rest.tail.headD dg
      let logo := rest.tail.tail.headD []
      let name := if name0 = [] then guess_name_from_url url idx else name0
      let group := if group0 = [] then dg else group0
      if url ≠ [] then .ok (rows ++ [⟨name, url, group, logo⟩], idx + 1)
      else .ok (rows, idx)

/-- Folds `parse_bulk_step` over the lines, propagating an exception. -/
def parse_bulk_go (dg : Str) : List Str → (List Row × Nat) →
    Except PyExc (List Row)
  | [], st => .ok st.1
  | l :: ls, st => do parse_bulk_go dg ls (← parse_bulk_step dg st l)

/-- Embedding of `parse_bulk_text` (src/iptv_editor/m3u.py lines
30-73).  The result is `.error .indexError` when some line raises. -/
def parse_bulk_textE (text dg : Str) : Except PyExc (List Row) :=
  parse_bulk_go dg (pySplitlines text) ([], 1)

/-- Characters matched by `[A-Za-z0-9_-]` in the attribute regexes. -/
def keyChar (c : Char) : Bool := c.isAlpha || c.isDigit || c = '_' || c = '-'

/-- Match of `([A-Za-z0-9_-]+)\s*=\s*"([^"]*)"` anchored at the start
of `s`; returns key, value and the text after the match. -/
def matchQuotedAt (s : Str) : Option (Str × Str × Str) :=
  let key := s.takeWhile keyChar
  if key = [] then none
  else
    match (s.dropWhile keyChar).dropWhile isPySpace with
    | '=' :: r2 =>
      match r2.dropWhile isPySpace with
      | '"' :: r3 =>
        match r3.dropWhile (fun c => c ≠ '"') with
        | '"' :: r4 => some (key, r3.takeWhile (fun c => c ≠ '"'), r4)
        | _ => none
      | _ => none
    | _ => none

/-- Match of `([A-Za-z0-9_-]+)\s*=\s*([^"\s]+)` anchored at the start
of `s`. -/
def matchUnquotedAt (s : Str) : Option (Str × Str × Str) :=
  let key := s.takeWhile keyChar
  if key = [] then none
  else
    match (s.dropWhile keyChar).dropWhile isPySpace with
    | '=' :: r2 =>
      let r3 := r2.dropWhile isPySpace
      let v := r3.takeWhile (fun c => !isPySpace c && c ≠ '"')
      if v = [] then none
      else some (key, v, r3.dropWhile (fun c => !isPySpace c && c ≠ '"'))
    | _ => none

/-- Model of `re.finditer`: try the matcher at every position, left to
right, resuming after each match.  The fuel bounds the number of steps
and is always instantiated with the text length, which suffices since
every step consumes at least one character. -/
def scanMatches (matchAt : Str → Option (Str × Str × Str)) :
    Nat → Str → List (Str × Str)
  | 0, _ => []
  | _, [] => []
  | fuel + 1, s@(_ :: cs) =>
    match matchAt s with
    | some (k, v, rest) => (k, v) :: scanMatches matchAt fuel rest
    | none => scanMatches matchAt fuel cs

/-- Python-dict insertion: overwrite in place or append. -/
def dictInsert (m : List (Str × Str)) (k v : Str) : List (Str × Str) :=
  if m.any (fun p => p.1 = k) then
    m.map (fun p => if p.1 = k then (k, v) else p)
  else m ++ [(k, v)]

/-- Python `dict.get` (no default): first matching key. -/
def dictGet (m : List (Str × Str)) (k : Str) : Option Str :=
  (m.find? (fun p => p.1 = k)).map (fun p => p.2)

/-- Membership test `key in attrs`. -/
def dictHas (m : List (Str × Str)) (k : Str) : Bool :=
  m.any (fun p => p.1 = k)

/-- Embedding of `_parse_m3u_attrs` (src/iptv_editor/m3u.py lines
87-97): quoted `key="value"` pairs first (later occurrences
overwrite), then unquoted `key=value` pairs only for keys not already
present.  Keys are lowercased and values stripped. -/
def parseM3uAttrs (t : Str) : List (Str × Str) :=
  if t = [] then []
  else
    let q := scanMatches matchQuotedAt t.length t
    let u := scanMatches matchUnquotedAt t.length t
    let m1 := q.foldl (fun m p => dictInsert m (lowerAscii p.1) (pyStrip p.2)) []
    u.foldl
      (fun m p =>
        if dictHas m (lowerAscii p.1) then m
        else dictInsert m (lowerAscii p.1) (pyStrip p.2))
      m1

/-- Legacy-duration drop of the `#EXTINF` attribute segment
(src/iptv_editor/m3u.py lines 117-123): when the first space-separated
token passes `first.lstrip("-").isdigit()`, it is removed and the
remainder trimmed. -/
def dropLegacyDuration (attrPart1 : Str) : Str :=
  if attrPart1 = [] then attrPart1
  else
    let p :=
      match splitFirst ' ' attrPart1 with
      | some (f, r) => (f, r)
      | none => (attrPart1, [])
    if isDigitStr (p.1.dropWhile (fun c => c = '-')) then pyStrip p.2
    else attrPart1

/-- Pending name/logo/group computed from a trimmed `#EXTINF` line
(src/iptv_editor/m3u.py lines 110-128). -/
def extinfPending (s : Str) : Str × Str × Str :=
  let rest := pyStrip (s.drop 8)
  let q :=
    match splitFirst ',' rest with
    | some (a, b) => (a, b)
    | none => (rest, [])
  let attrs := parseM3uAttrs (dropLegacyDuration (pyStrip q.1))
  let name := pyOr (pyStrip q.2)
    (pyStrip (pyOrOpt (dictGet attrs ("tvg-name".data))
      (pyOrOpt (dictGet attrs ("tvg-id".data)) [])))
  let logo := pyStrip (pyOrOpt (dictGet attrs ("tvg-logo".data))
    (pyOrOpt (dictGet attrs ("logo".data)) []))
  let group := pyStrip (pyOrOpt (dictGet attrs ("group-title".data))
    (pyOrOpt (dictGet attrs ("group".data)) []))
  (name, logo, group)

/-- Loop state of `parse_m3u_text`. -/
structure M3uState where
  rows : List Row
  idx : Nat
  curName : Str
  curLogo : Str
  curGroup : Str
deriving DecidableEq

/-- Loop body of `parse_m3u_text` (src/iptv_editor/m3u.py lines
106-146) for one raw line. -/
def parse_m3u_step (dg : Str) (st : M3uState) (raw : Str) : M3uState :=
  let s := pyStrip raw
  if s = [] then st
  else if ("#EXTINF".data).isPrefixOf (upperAscii s) then
    let p := extinfPending s
    { st with curName := p.1, curLogo := p.2.1, curGroup := p.2.2 }
  else if ("#EXTGRP".data).isPrefixOf (upperAscii s) then
    let grp :=
      match splitFirst ':' s with
      | some (_, after) => pyStrip after
      | none => []
    if grp ≠ [] then { st with curGroup := grp } else st
  else if (['#']).isPrefixOf s then st
  else
    let st1 :=
      if s ≠ [] then
        { st with
          rows := st.rows ++
            [⟨pyOr st.curName (guess_name_from_url s st.idx), s,
              pyOr st.curGroup dg, pyOr st.curLogo []⟩],
          idx := st.idx + 1 }
      else st
    { st1 with curName := [], curLogo := [], curGroup := [] }

/-- Embedding of `parse_m3u_text` (src/iptv_editor/m3u.py lines
100-147). -/
def parse_m3u_text (text dg : Str) : List Row :=
  ((pySplitlines text).foldl (parse_m3u_step dg) ⟨[], 1, [], [], []⟩).rows

/-- One `str.replace` pass: every occurrence of `c` becomes `repl`. -/
def replaceChar (c : Char) (repl : Str) (s : Str) : Str :=
  s.foldr (fun d acc => (if d = c then repl else [d]) ++ acc) []

/-- Embedding of `_esc_attr` (src/iptv_editor/m3u.py lines 6-9):
backslash doubled, quote backslash-escaped, then stripped. -/
def esc_attr (v : Str) : Str :=
  pyStrip (replaceChar '"' (['\\', '"']) (replaceChar '\\' (['\\', '\\']) v))

/-- Per-record body of the `build_m3u` loop (src/iptv_editor/m3u.py
lines 156-175): the list of output lines this record appends. -/
def buildRecordLines (r : Row) : List Str :=
  let name := pyStrip r.name
  let url := pyStrip r.url
  let group := pyStrip r.group
  let logo := pyStrip r.logo
  if url = [] then []
  else
    let name := if name = [] then guess_name_from_url url 1 else name
    let attrs : List Str :=
      (if logo ≠ [] then [("tvg-logo=".data) ++ '"' :: esc_attr logo ++ ['"']] else []) ++
      (if group ≠ [] then [("group-title=".data) ++ '"' :: esc_attr group ++ ['"']] else [])
    let attrStr := if attrs ≠ [] then ' ' :: (attrs.intersperse ([' '])).flatten else []
    [("#EXTINF:-1".data) ++ attrStr ++ ',' :: name, url, []]

/-- Embedding of `build_m3u` (src/iptv_editor/m3u.py lines 150-176). -/
def build_m3u (rows : List Row) : Str :=
  let out := ("#EXTM3U".data) :: rows.flatMap buildRecordLines
  pyRstrip ((out.intersperse (['\n'])).flatten) ++ ['\n']

/-! Helper lemmas about the Python string primitives. -/

theorem dropWhile_idem (p : Char → Bool) (l : Str) :
    (l.dropWhile p).dropWhile p = l.dropWhile p := by
  induction l with
  | nil => rfl
  | cons c cs ih =>
    by_cases h : p c
    · simp [List.dropWhile, h, ih]
    · simp [List.dropWhile, h]

theorem pyRstrip_append_of_ne (x y : Str) (h : pyRstrip y ≠ []) :
    pyRstrip (x ++ y) = x ++ pyRstrip y := by
  have h' : y.reverse.dropWhile isPySpace ≠ [] := by
    intro hc
    exact h (by simp [pyRstrip, hc])
  simp [pyRstrip, List.reverse_append, List.dropWhile_append, List.isEmpty_iff, h']

theorem pyRstrip_single_newline (x : Str) :
    pyRstrip (x ++ ['\n']) = pyRstrip x := by
  simp [pyRstrip, List.dropWhile, isPySpace]

theorem pyRstrip_pyStrip (s : Str) : pyRstrip (pyStrip s) = pyStrip s := by
  simp [pyRstrip, pyStrip, pyStripP, List.reverse_reverse, dropWhile_idem]

theorem joinNl_cons (h : Str) (t : List Str) :
    ((h :: t).intersperse (['\n'])).flatten =
      h ++ t.flatMap (fun x => '\n' :: x) := by
  induction t generalizing h with
  | nil => simp [List.intersperse]
  | cons a t' ih =>
    simp only [List.intersperse, List.flatten, List.flatMap_cons]
    have := ih a
    simp only [List.intersperse] at this ⊢
    simp [this, List.flatMap_cons]

/-! Characterization of the writer output (build_m3u). -/

/-- Display name the writer emits for a record: the trimmed `name`, or
the URL-derived guess with the ordinal fixed at 1. -/
def buildName (r : Row) : Str :=
  if pyStrip r.name = [] then guess_name_from_url (pyStrip r.url) 1
  else pyStrip r.name

/-- Attribute strings the writer emits for a record (logo first). -/
def buildAttrs (r : Row) : List Str :=
  (if pyStrip r.logo ≠ [] then
    [("tvg-logo=".data) ++ '"' :: esc_attr (pyStrip r.logo) ++ ['"']] else []) ++
  (if pyStrip r.group ≠ [] then
    [("group-title=".data) ++ '"' :: esc_attr (pyStrip r.group) ++ ['"']] else [])

/-- The `#EXTINF` line the writer emits for a (kept) record. -/
def extinfLineOf (r : Row) : Str :=
  ("#EXTINF:-1".data) ++
    (if buildAttrs r ≠ [] then ' ' :: ((buildAttrs r).intersperse ([' '])).flatten
     else []) ++ ',' :: buildName r

/-- Full contribution of a kept record to the writer output. -/
def recordBlock (r : Row) : Str :=
  '\n' :: extinfLineOf r ++ '\n' :: pyStrip r.url ++ ['\n']

theorem buildRecordLines_eq (r : Row) :
    buildRecordLines r =
      if pyStrip r.url = [] then [] else [extinfLineOf r, pyStrip r.url, []] := by
  by_cases h : pyStrip r.url = [] <;>
    simp [buildRecordLines, extinfLineOf, buildAttrs, buildName, h]

theorem flatMap_buildRecordLines (rows : List Row) :
    rows.flatMap buildRecordLines =
      (rows.filter (fun r => pyStrip r.url ≠ [])).flatMap
        (fun r => [extinfLineOf r, pyStrip r.url, []]) := by
  induction rows with
  | nil => rfl
  | cons r rs ih =>
    by_cases h : pyStrip r.url = [] <;>
      simp [List.flatMap_cons, List.filter_cons, h, buildRecordLines_eq, ih]

theorem flatMap_newline_blocks (l : List Row) :
    (l.flatMap (fun r => [extinfLineOf r, pyStrip r.url, []])).flatMap
        (fun x => '\n' :: x) =
      l.flatMap recordBlock := by
  induction l with
  | nil => rfl
  | cons r rs ih => simp [List.flatMap_cons, ih, recordBlock]

/-- Main characterization of `build_m3u`: the output is the header plus
one block per record whose trimmed URL is nonempty; records with an
empty trimmed URL contribute nothing, and every kept record contributes
both its `#EXTINF` line and its URL line. -/
theorem build_m3u_lines (rows : List Row) :
    build_m3u rows =
      ("#EXTM3U".data) ++
        (if rows.filter (fun r => pyStrip r.url ≠ []) = [] then (['\n'])
         else (rows.filter (fun r => pyStrip r.url ≠ [])).flatMap recordBlock) := by
  have hjoin :
      (((("#EXTM3U".data)) :: rows.flatMap buildRecordLines).intersperse (['\n'])).flatten =
        ("#EXTM3U".data) ++
          (rows.filter (fun r => pyStrip r.url ≠ [])).flatMap recordBlock := by
    rw [joinNl_cons, flatMap_buildRecordLines, flatMap_newline_blocks]
  have hbuild : build_m3u rows =
      pyRstrip (("#EXTM3U".data) ++
        (rows.filter (fun r => pyStrip r.url ≠ [])).flatMap recordBlock) ++ ['\n'] := by
    simp only [build_m3u, hjoin]
  rcases List.eq_nil_or_concat (rows.filter (fun r => pyStrip r.url ≠ [])) with hk | ⟨ks, k, hk⟩
  · rw [hbuild, hk]
    simp only [List.flatMap_nil, List.append_nil, if_pos rfl]
    decide
  · rw [List.concat_eq_append] at hk
    have hkmem : k ∈ rows.filter (fun r => pyStrip r.url ≠ []) := by
      rw [hk]; simp
    have hku : pyStrip k.url ≠ [] := by
      have := List.of_mem_filter hkmem
      simpa using this
    have hne : ks ++ [k] ≠ ([] : List Row) := by simp
    rw [hbuild, hk, if_neg hne]
    have hsplit :
        ("#EXTM3U".data) ++ (ks ++ [k]).flatMap recordBlock =
          (("#EXTM3U".data) ++ ks.flatMap recordBlock ++
            '\n' :: extinfLineOf k ++ ['\n'] ++ pyStrip k.url) ++ ['\n'] := by
      simp [recordBlock, List.flatMap_append]
    rw [hsplit, pyRstrip_single_newline]
    have h1 : pyRstrip (pyStrip k.url) ≠ [] := by
      rw [pyRstrip_pyStrip]; exact hku
    rw [pyRstrip_append_of_ne _ _ h1, pyRstrip_pyStrip]

/-! Non-empty-name invariants. -/

theorem channelName_ne_nil (idx : Nat) : channelName idx ≠ [] := by
  unfold channelName
  intro hc
  rw [List.append_eq_nil, List.append_eq_nil] at hc
  have : ("Channel ".data) ≠ [] := by decide
  exact this hc.1.1

theorem guess_ne_nil (url : Str) (idx : Nat) :
    guess_name_from_url url idx ≠ [] := by
  unfold guess_name_from_url
  cases h : guessCore url with
  | ok r =>
    by_cases hr : r = [] <;> simp [hr, channelName_ne_nil idx]
  | error e => exact channelName_ne_nil idx

theorem parse_bulk_step_names (dg : Str) (st : List Row × Nat) (raw : Str)
    (st' : List Row × Nat) (h : parse_bulk_step dg st raw = .ok st')
    (hin : ∀ r ∈ st.1, r.name ≠ []) : ∀ r ∈ st'.1, r.name ≠ [] := by
  unfold parse_bulk_step at h
  dsimp only at h
  split at h
  · cases h; exact hin
  · split at h
    · cases h
      intro r hr
      rcases List.mem_append.1 hr with hl | hl
      · exact hin r hl
      · rcases List.mem_singleton.1 hl with rfl
        exact guess_ne_nil _ _
    · cases h
    · rename_i name0 rest hne h1 h2
      split at h
      · cases h
        intro r hr
        rcases List.mem_append.1 hr with hl | hl
        · exact hin r hl
        · rcases List.mem_singleton.1 hl with rfl
          simp only
          split
          · exact guess_ne_nil _ _
          · assumption
      · cases h; exact hin

theorem parse_bulk_go_names (dg : Str) (ls : List Str) (st : List Row × Nat)
    (hin : ∀ r ∈ st.1, r.name ≠ []) (rows : List Row)
    (h : parse_bulk_go dg ls st = .ok rows) : ∀ r ∈ rows, r.name ≠ [] := by
  induction ls generalizing st with
  | nil =>
    unfold parse_bulk_go at h
    cases h
    exact hin
  | cons l ls ih =>
    unfold parse_bulk_go at h
    cases hstep : parse_bulk_step dg st l with
    | error e => rw [hstep] at h; cases h
    | ok st1 =>
      rw [hstep] at h
      exact ih st1 (parse_bulk_step_names dg st l st1 hstep hin) h

theorem parse_m3u_step_names (dg : Str) (st : M3uState) (raw : Str)
    (hin : ∀ r ∈ st.rows, r.name ≠ []) :
    ∀ r ∈ (parse_m3u_step dg st raw).rows, r.name ≠ [] := by
  unfold parse_m3u_step
  dsimp only
  split
  · exact hin
  · split
    · simpa using hin
    · split
      · split
        · simpa using hin
        · exact hin
      · split
        · exact hin
        · intro r hr
          simp only [List.mem_append, List.mem_singleton] at hr
          rcases hr with hl | hl
          · exact hin r hl
          · subst hl
            show pyOr st.curName _ ≠ []
            unfold pyOr
            split
            · exact guess_ne_nil _ _
            · assumption

theorem parse_m3u_fold_names (dg : Str) (ls : List Str) (st : M3uState)
    (hin : ∀ r ∈ st.rows, r.name ≠ []) :
    ∀ r ∈ (ls.foldl (parse_m3u_step dg) st).rows, r.name ≠ [] := by
  induction ls generalizing st with
  | nil => exact hin
  | cons l ls ih =>
    exact ih (parse_m3u_step dg st l) (parse_m3u_step_names dg st l hin)

/-- C3: the claim states that `parse_bulk_text`, `parse_m3u_text` and
`build_m3u` are total on arbitrary text.  The code refutes this for
`parse_bulk_text`: on the single-character line `|`, the line is split
on `|` into two empty fields, both are dropped, the field list is
empty, and the `parts[0]` lookup raises `IndexError`.  This theorem
evaluates the embedding at that failing input. -/
theorem iptv_C3_bulk_line_raises :
    parse_bulk_textE (("|".data)) (("IPTV".data)) = .error .indexError := by rfl

/-- C4: the claim states that a line yielding no URL is discarded
entirely and does not consume the running index.  The code instead
raises `IndexError` on such a line (here the second line `|`),
aborting the whole parse and losing even the valid first line's
record, rather than discarding the bad line. -/
theorem iptv_C4_no_url_line_aborts :
    parse_bulk_textE (("A|http://x\n|".data)) (("IPTV".data)) = .error .indexError := by
  rfl

/-- C8: writer output invariant.  `build_m3u rows` equals the
`#EXTM3U` header followed by exactly one block per record whose
trimmed `url` is nonempty; a record whose `url` is empty after
trimming contributes nothing (it is removed by the filter), and every
kept record contributes both its `#EXTINF` line and its URL line
(both present in `recordBlock`). -/
theorem iptv_C8 (rows : List Row) :
    build_m3u rows =
      ("#EXTM3U".data) ++
        (if rows.filter (fun r => pyStrip r.url ≠ []) = [] then (['\n'])
         else (rows.filter (fun r => pyStrip r.url ≠ [])).flatMap recordBlock) :=
  build_m3u_lines rows

/-- C10: non-empty-name invariant at the output boundary.  Every record
returned by `parse_bulk_text` (when it returns) and by `parse_m3u_text`
has a non-empty name; the name guess is non-empty for every URL and
ordinal; and in the writer every kept record's `#EXTINF` line carries
the display name `buildName r`, which is non-empty and, for records
with empty trimmed name, is the guess with the ordinal fixed at 1. -/
theorem iptv_C10 :
    (∀ t g rows, parse_bulk_textE t g = .ok rows → ∀ r ∈ rows, r.name ≠ []) ∧
    (∀ t g, ∀ r ∈ parse_m3u_text t g, r.name ≠ []) ∧
    (∀ url idx, guess_name_from_url url idx ≠ []) ∧
    (∀ r : Row, pyStrip r.url ≠ [] →
      buildRecordLines r = [extinfLineOf r, pyStrip r.url, []] ∧
      buildName r ≠ [] ∧
      (pyStrip r.name = [] → buildName r = guess_name_from_url (pyStrip r.url) 1)) := by
  refine ⟨?_, ?_, guess_ne_nil, ?_⟩
  · intro t g rows h
    exact parse_bulk_go_names g (pySplitlines t) ([], 1) (by simp) rows h
  · intro t g
    exact parse_m3u_fold_names g (pySplitlines t) ⟨[], 1, [], [], []⟩ (by simp)
  · intro r hr
    refine ⟨by simp [buildRecordLines_eq, hr], ?_, ?_⟩
    · unfold buildName
      split
      · exact guess_ne_nil _ _
      · assumption
    · intro hn
      simp [buildName, hn]

/-- Witness for C10 at concrete inputs: a bulk-parsed record, an
M3U-parsed record, and a writer record with empty name. -/
theorem iptv_C10_witness :
    ((⟨("y".data), ("http://x/y.ts".data), ("IPTV".data), ([] : Str)⟩ : Row).name ≠ []) ∧
    ((⟨("u2".data), ("http://u2".data), ("G".data), ([] : Str)⟩ : Row).name ≠ []) ∧
    (buildName ⟨[], ("http://h/abc".data), [], []⟩ ≠ [] ∧
      buildName ⟨[], ("http://h/abc".data), [], []⟩ =
        guess_name_from_url (pyStrip ("http://h/abc".data)) 1) := by
  refine ⟨?_, ?_, ?_, ?_⟩
  · exact iptv_C10.1 ("http://x/y.ts".data) ("IPTV".data) _ (by rfl) _ (by decide)
  · exact iptv_C10.2.1 ("http://u2".data) ("G".data) _ (by decide)
  · exact (iptv_C10.2.2.2 ⟨[], ("http://h/abc".data), [], []⟩ (by decide)).2.1
  · exact (iptv_C10.2.2.2 ⟨[], ("http://h/abc".data), [], []⟩ (by decide)).2.2 (by decide)

/-! Lemmas about splitOnChar, slash-stripping and last segments,
needed to compare the name-guessing code with the spec's wording. -/

theorem splitOnChar_ne_nil (sep : Char) (s : Str) : splitOnChar sep s ≠ [] := by
  cases s with
  | nil => simp [splitOnChar]
  | cons c cs =>
    unfold splitOnChar
    cases h : splitOnChar sep cs with
    | nil => simp
    | cons a t => by_cases hc : c = sep <;> simp [hc]

theorem splitOnChar_sep_cons (sep : Char) (s : Str) :
    splitOnChar sep (sep :: s) = [] :: splitOnChar sep s := by
  cases h : splitOnChar sep s with
  | nil => exact absurd h (splitOnChar_ne_nil sep s)
  | cons a t => simp [splitOnChar, h]

theorem splitOnChar_append_sep (sep : Char) (s : Str) :
    splitOnChar sep (s ++ [sep]) = splitOnChar sep s ++ [[]] := by
  induction s with
  | nil => simp [splitOnChar]
  | cons c s ih =>
    cases hsp : splitOnChar sep s with
    | nil => exact absurd hsp (splitOnChar_ne_nil sep s)
    | cons a t =>
      rw [List.cons_append]
      unfold splitOnChar
      rw [ih, hsp]
      by_cases hc : c = sep <;> simp [hc]

theorem filterNE_splitOnChar_sep_cons (sep : Char) (s : Str) :
    ((splitOnChar sep (sep :: s)).filter (fun x => x ≠ [])) =
      ((splitOnChar sep s).filter (fun x => x ≠ [])) := by
  rw [splitOnChar_sep_cons]
  simp [List.filter_cons]

theorem filterNE_splitOnChar_append_sep (sep : Char) (s : Str) :
    ((splitOnChar sep (s ++ [sep])).filter (fun x => x ≠ [])) =
      ((splitOnChar sep s).filter (fun x => x ≠ [])) := by
  rw [splitOnChar_append_sep]
  simp [List.filter_append]

theorem filterNE_splitOnChar_dropWhile (sep : Char) (s : Str) :
    ((splitOnChar sep (s.dropWhile (fun c => c = sep))).filter (fun x => x ≠ [])) =
      ((splitOnChar sep s).filter (fun x => x ≠ [])) := by
  induction s with
  | nil => rfl
  | cons c s ih =>
    by_cases hc : c = sep
    · subst hc
      rw [List.dropWhile_cons_of_pos (by simp), ih,
        filterNE_splitOnChar_sep_cons]
    · rw [List.dropWhile_cons_of_neg (by simp [hc])]

theorem filterNE_splitOnChar_rstrip (sep : Char) (s : Str) :
    ((splitOnChar sep ((s.reverse.dropWhile (fun c => c = sep)).reverse)).filter
        (fun x => x ≠ [])) =
      ((splitOnChar sep s).filter (fun x => x ≠ [])) := by
  induction s using List.reverseRecOn with
  | nil => rfl
  | append_singleton t a ih =>
    by_cases ha : a = sep
    · rw [ha]
      have h1 : (t ++ [sep]).reverse.dropWhile (fun c => c = sep) =
          t.reverse.dropWhile (fun c => c = sep) := by
        rw [List.reverse_append, List.reverse_singleton, List.singleton_append,
          List.dropWhile_cons_of_pos (by simp)]
      rw [h1, ih, filterNE_splitOnChar_append_sep]
    · have h1 : (t ++ [a]).reverse.dropWhile (fun c => c = sep) = a :: t.reverse := by
        rw [List.reverse_append, List.reverse_singleton, List.singleton_append,
          List.dropWhile_cons_of_neg (by simp [ha])]
      rw [h1]
      simp

theorem dropWhile_head_false (p : Char → Bool) (s : Str) (c : Char) (rest : Str)
    (h : s.dropWhile p = c :: rest) : p c = false := by
  induction s with
  | nil => cases h
  | cons a as ih =>
    by_cases ha : p a
    · rw [List.dropWhile_cons_of_pos ha] at h
      exact ih h
    · rw [List.dropWhile_cons_of_neg ha] at h
      cases h
      simpa using ha

theorem getLast_splitOnChar_ne_nil (sep : Char) (s : Str)
    (hlast : ∀ c, s.getLast? = some c → c ≠ sep) (hs : s ≠ []) :
    (splitOnChar sep s).getLastD [] ≠ [] := by
  induction s with
  | nil => exact absurd rfl hs
  | cons c cs ih =>
    cases cs with
    | nil =>
      have hc : c ≠ sep := hlast c rfl
      simp [splitOnChar, hc]
    | cons d ds =>
      have hl : ∀ e, (d :: ds).getLast? = some e → e ≠ sep := by
        intro e he
        exact hlast e (by rw [List.getLast?_cons_cons]; exact he)
      have ihr := ih hl (by simp)
      cases hsp : splitOnChar sep (d :: ds) with
      | nil => exact absurd hsp (splitOnChar_ne_nil sep (d :: ds))
      | cons a t =>
        rw [hsp] at ihr
        unfold splitOnChar
        rw [hsp]
        by_cases hc : c = sep
        · simpa [hc] using ihr
        · cases t with
          | nil => simp [hc]
          | cons b bs => simpa [hc] using ihr

theorem getLastD_filterNE (l : List Str) (h : l.getLastD [] ≠ []) :
    (l.filter (fun x => x ≠ [])).getLastD [] = l.getLastD [] := by
  induction l using List.reverseRecOn with
  | nil => exact absurd rfl h
  | append_singleton t a ih =>
    have ha : a ≠ [] := by simpa using h
    rw [List.filter_append]
    simp [List.filter_cons, ha]

/-- Key bridging lemma: the source's "last segment of the
slash-stripped path" equals the spec's "last non-empty path segment"
(and is empty exactly when there is none). -/
theorem leaf_eq_lastNonemptySeg (path : Str) :
    (if pyStripP (fun c => c = '/') path ≠ [] then
        (splitOnChar '/' (pyStripP (fun c => c = '/') path)).getLastD []
     else []) =
      ((splitOnChar '/' path).filter (fun seg => seg ≠ [])).getLastD [] := by
  have hchain :
      ((splitOnChar '/' (pyStripP (fun c => c = '/') path)).filter
          (fun x => x ≠ [])) =
        ((splitOnChar '/' path).filter (fun x => x ≠ [])) := by
    unfold pyStripP
    rw [filterNE_splitOnChar_rstrip '/' (path.dropWhile (fun c => c = '/')),
      filterNE_splitOnChar_dropWhile]
  by_cases hu : pyStripP (fun c => c = '/') path = []
  · rw [if_neg (by simpa using hu), ← hchain, hu]
    rfl
  · rw [if_pos (by simpa using hu), ← hchain]
    have hw : (path.dropWhile (fun c => c = '/')).reverse.dropWhile
        (fun c => c = '/') ≠ [] := by
      intro hc
      exact hu (by simp [pyStripP, hc])
    have hlast : ∀ c, (pyStripP (fun c => c = '/') path).getLast? = some c →
        c ≠ '/' := by
      intro c hc
      unfold pyStripP at hc
      rw [List.getLast?_reverse] at hc
      cases hwd : (path.dropWhile (fun c => c = '/')).reverse.dropWhile
          (fun c => c = '/') with
      | nil => exact absurd hwd hw
      | cons a rest =>
        have := dropWhile_head_false (fun c => c = '/') _ a rest hwd
        rw [hwd] at hc
        simp only [List.head?_cons, Option.some.injEq] at hc
        subst hc
        simpa using this
    exact (getLastD_filterNE _
      (getLast_splitOnChar_ne_nil '/' _ hlast hu)).symm

/-- Parameterized version of the run-collapsing cleanup, used to state
the spec's wording with its (incorrect) space-including kept class and
the amended class. -/
def collapseRunsWith (keep : Char → Bool) : Bool → Str → Str
  | _, [] => []
  | inRun, c :: cs =>
    if keep c then c :: collapseRunsWith keep false cs
    else if inRun then collapseRunsWith keep true cs
    else ' ' :: collapseRunsWith keep true cs

theorem collapseRuns_eq_with (b : Bool) (s : Str) :
    collapseRuns b s = collapseRunsWith guessKeepChar b s := by
  induction s generalizing b with
  | nil => rfl
  | cons c cs ih => simp [collapseRuns, collapseRunsWith, ih]

/-- Kept-character class as the claim words it: `[A-Za-z0-9_- ]` plus
CJK ideographs — note the claim includes the space. -/
def specKeepChar (c : Char) : Bool :=
  c.isAlpha || c.isDigit || c = '_' || c = '-' || c = ' ' || cjkChar c

/-- Name-guessing algorithm as described by the specification, with
the kept-character class as a parameter: parse the URL, take the last
non-empty path segment, strip a known media extension, collapse runs
of non-kept characters to one space and trim; fall back to the
lowercased hostname, then to the `Channel NNN` form. -/
def guessNameSpecWith (keep : Char → Bool) (url : Str) (idx : Nat) : Str :=
  match urlsplitE (pyStrip url) with
  | .error _ => channelName idx
  | .ok p =>
    let cleaned :=
      pyStrip (collapseRunsWith keep false
        (stripMediaExt (((splitOnChar '/' p.path).filter
          (fun seg => seg ≠ [])).getLastD [])))
    if cleaned ≠ [] then cleaned
    else
      let host := lowerAscii (hostnameOf p.netloc)
      if host ≠ [] then host else channelName idx

/-- C5's guess function exactly as the claim words it (space kept). -/
def guessNameClaim (url : Str) (idx : Nat) : Str :=
  guessNameSpecWith specKeepChar url idx

/-- Amended guess function: identical to the claim except that the
kept class does not contain the space (space runs collapse like any
other excluded characters). -/
def guessNameAmended (url : Str) (idx : Nat) : Str :=
  guessNameSpecWith guessKeepChar url idx

theorem guess_of_error (url : Str) (idx : Nat) (e : Unit)
    (h : urlsplitE (pyStrip url) = .error e) :
    guess_name_from_url url idx = channelName idx := by
  unfold guess_name_from_url guessCore
  rw [h]

theorem guess_of_ok (url : Str) (idx : Nat) (p : UrlParts)
    (h : urlsplitE (pyStrip url) = .ok p) :
    guess_name_from_url url idx =
      (if guessFromPath p ≠ [] then guessFromPath p
       else if lowerAscii (hostnameOf p.netloc) ≠ [] then
         lowerAscii (hostnameOf p.netloc)
       else channelName idx) := by
  unfold guess_name_from_url guessCore
  rw [h]
  dsimp only
  by_cases hF : guessFromPath p = []
  · have hF' : ¬(guessFromPath p ≠ []) := by simpa using hF
    rw [if_neg hF', if_neg hF']
    by_cases hh : lowerAscii (hostnameOf p.netloc) = []
    · have hh' : ¬(lowerAscii (hostnameOf p.netloc) ≠ []) := by simpa using hh
      rw [if_neg hh', if_neg hh']
      simp
    · have hh' : lowerAscii (hostnameOf p.netloc) ≠ [] := hh
      rw [if_pos hh', if_pos hh']
      simp [hh]
  · have hF' : guessFromPath p ≠ [] := hF
    rw [if_pos hF', if_pos hF']
    simp [hF]

/-- C5 counterexample: the claim's cleanup class keeps the space, the
code's class does not.  On `http://h/a  b` (two inner spaces) the code
collapses the space run to a single space (name `a b`), while the
claimed algorithm keeps both spaces (name `a  b`). -/
theorem iptv_C5_counterexample :
    guess_name_from_url (("http://h/a  b".data)) 1 ≠
      guessNameClaim (("http://h/a  b".data)) 1 := by decide

/-- C5 (amended): the name-guessing algorithm is exactly as the claim
describes except that the kept-character class is `[A-Za-z0-9_-]` plus
CJK ideographs WITHOUT the space — runs of spaces collapse to a single
space like any other excluded characters. -/
theorem iptv_C5 (url : Str) (idx : Nat) :
    guess_name_from_url url idx = guessNameAmended url idx := by
  unfold guessNameAmended guessNameSpecWith
  cases h : urlsplitE (pyStrip url) with
  | error e => rw [guess_of_error url idx e h]
  | ok p =>
    rw [guess_of_ok url idx p h]
    dsimp only
    have hbr : guessFromPath p =
        pyStrip (collapseRunsWith guessKeepChar false
          (stripMediaExt (((splitOnChar '/' p.path).filter
            (fun seg => seg ≠ [])).getLastD []))) := by
      unfold guessFromPath
      rw [← leaf_eq_lastNonemptySeg p.path]
      by_cases hu : pyStripP (fun c => c = '/') p.path = []
      · rw [if_neg (by simpa using hu), if_neg (by simpa using hu)]
        rfl
      · rw [if_pos (by simpa using hu), if_pos (by simpa using hu),
          collapseRuns_eq_with]
    rw [hbr]

/-! Lemmas for C6: comma split, legacy-duration drop, attribute
precedence, and the step behavior of the M3U parser. -/

theorem splitFirst_append (sep : Char) (a b : Str)
    (h : a.contains sep = false) :
    splitFirst sep (a ++ sep :: b) = some (a, b) := by
  induction a with
  | nil => simp [splitFirst]
  | cons c a' ih =>
    simp only [List.contains_cons, Bool.or_eq_false_iff, beq_eq_false_iff_ne,
      ne_eq] at h
    have hc : ¬(c = sep) := fun hc => h.1 hc.symm
    simp [splitFirst, hc, ih h.2]

theorem splitFirst_none (sep : Char) (a : Str) (h : a.contains sep = false) :
    splitFirst sep a = none := by
  induction a with
  | nil => rfl
  | cons c a' ih =>
    simp only [List.contains_cons, Bool.or_eq_false_iff, beq_eq_false_iff_ne,
      ne_eq] at h
    have hc : ¬(c = sep) := fun hc => h.1 hc.symm
    simp [splitFirst, hc, ih h.2]

/-- A (possibly negative) integer token as the spec words it: an
optional single leading minus sign followed by one or more digits. -/
def specNegInt (tok : Str) : Prop :=
  (∃ ds, tok = '-' :: ds ∧ ds ≠ [] ∧ ds.all Char.isDigit) ∨
  (tok ≠ [] ∧ tok.all Char.isDigit)

theorem dropWhile_minus_of_digits (l : Str) (h : l.all Char.isDigit) :
    l.dropWhile (fun c => c = '-') = l := by
  cases l with
  | nil => rfl
  | cons c cs =>
    simp only [List.all_cons, Bool.and_eq_true] at h
    have hc : c ≠ '-' := by
      intro hc
      subst hc
      exact absurd h.1 (by decide)
    rw [List.dropWhile_cons_of_neg (by simp [hc])]

theorem specNegInt_isdigit (tok : Str) (h : specNegInt tok) :
    isDigitStr (tok.dropWhile (fun c => c = '-')) = true := by
  rcases h with ⟨ds, rfl, hne, hdig⟩ | ⟨hne, hdig⟩
  · rw [List.dropWhile_cons_of_pos (by simp), dropWhile_minus_of_digits ds hdig]
    simp [isDigitStr, hne, hdig, List.isEmpty_iff]
  · rw [dropWhile_minus_of_digits tok hdig]
    simp [isDigitStr, hne, hdig, List.isEmpty_iff]

theorem specNegInt_ne_nil (tok : Str) (h : specNegInt tok) : tok ≠ [] := by
  rcases h with ⟨ds, rfl, _, _⟩ | ⟨hne, _⟩
  · simp
  · exact hne

theorem dropLegacyDuration_drops (tok r : Str) (hsp : tok.contains ' ' = false)
    (h : specNegInt tok) :
    dropLegacyDuration (tok ++ ' ' :: r) = pyStrip r := by
  unfold dropLegacyDuration
  rw [if_neg (by simp [specNegInt_ne_nil tok h])]
  rw [splitFirst_append ' ' tok r hsp]
  simp [specNegInt_isdigit tok h]

theorem dropLegacyDuration_drops_alone (tok : Str)
    (hsp : tok.contains ' ' = false) (h : specNegInt tok) :
    dropLegacyDuration tok = [] := by
  unfold dropLegacyDuration
  rw [if_neg (specNegInt_ne_nil tok h)]
  rw [splitFirst_none ' ' tok hsp]
  simp [specNegInt_isdigit tok h, pyStrip, pyStripP]

theorem toUpper_eq_hash (c : Char) (h : c.toUpper = '#') : c = '#' := by
  unfold Char.toUpper at h
  dsimp only at h
  by_cases hn : c.toNat ≥ 97 ∧ c.toNat ≤ 122
  · rw [if_pos hn] at h
    exfalso
    obtain ⟨h97, h122⟩ := hn
    generalize hgen : c.toNat = n at h h97 h122
    interval_cases n <;> exact absurd h (by decide)
  · rwa [if_neg hn] at h

theorem upperHashLead (s : Str) (pre : Str) (hpre : ∃ t, pre = '#' :: t)
    (h : pre.isPrefixOf (upperAscii s)) : (['#']).isPrefixOf s := by
  obtain ⟨t, rfl⟩ := hpre
  cases s with
  | nil => simp [upperAscii] at h
  | cons c cs =>
    rw [List.isPrefixOf_iff_prefix] at h
    simp only [upperAscii, List.map_cons] at h
    rw [List.cons_prefix_cons] at h
    have hc : c = '#' := toUpper_eq_hash c h.1.symm
    subst hc
    simp [List.isPrefixOf_iff_prefix]

/-! Dictionary lemmas for the attribute-precedence statement. -/

theorem dictGet_map_insert (m : List (Str × Str)) (k v : Str)
    (hhas : m.any (fun p => p.1 = k) = true) :
    dictGet (m.map (fun p => if p.1 = k then (k, v) else p)) k = some v := by
  induction m with
  | nil => simp at hhas
  | cons p m' ih =>
    by_cases hp : p.1 = k
    · simp [dictGet, List.find?_cons, hp]
    · have hhas' : m'.any (fun p => p.1 = k) = true := by
        simpa [List.any_cons, hp] using hhas
      simp only [List.map_cons, if_neg hp]
      simpa [dictGet, List.find?_cons, hp] using ih hhas'

theorem dictGet_insert_self (m : List (Str × Str)) (k v : Str) :
    dictGet (dictInsert m k v) k = some v := by
  unfold dictInsert
  by_cases hhas : m.any (fun p => p.1 = k) = true
  · rw [if_pos hhas]
    exact dictGet_map_insert m k v hhas
  · rw [if_neg hhas]
    have hnone : m.find? (fun p => decide (p.1 = k)) = none := by
      rw [List.find?_eq_none]
      intro x hx hpx
      exact hhas (List.any_of_mem hx hpx)
    simp [dictGet, List.find?_append, hnone]

theorem dictGet_map_ne (m : List (Str × Str)) (k k' v : Str) (h : k ≠ k') :
    dictGet (m.map (fun p => if p.1 = k' then (k', v) else p)) k = dictGet m k := by
  induction m with
  | nil => rfl
  | cons p m' ih =>
    by_cases hp : p.1 = k'
    · have hk'k : ¬(k' = k) := fun hc => h hc.symm
      have hpk : ¬(p.1 = k) := fun hc => h (hc.symm.trans hp)
      rw [List.map_cons, if_pos hp]
      unfold dictGet
      rw [List.find?_cons_of_neg _ (by simpa using hk'k),
        List.find?_cons_of_neg _ (by simpa using hpk)]
      exact ih
    · rw [List.map_cons, if_neg hp]
      unfold dictGet
      by_cases hpk : p.1 = k
      · rw [List.find?_cons_of_pos _ (by simpa using hpk),
          List.find?_cons_of_pos _ (by simpa using hpk)]
      · rw [List.find?_cons_of_neg _ (by simpa using hpk),
          List.find?_cons_of_neg _ (by simpa using hpk)]
        exact ih

theorem dictGet_insert_ne (m : List (Str × Str)) (k k' v : Str) (h : k ≠ k') :
    dictGet (dictInsert m k' v) k = dictGet m k := by
  unfold dictInsert
  split
  · exact dictGet_map_ne m k k' v h
  · have hk'k : ¬(k' = k) := fun hc => h hc.symm
    unfold dictGet
    rw [List.find?_append]
    cases hf : m.find? (fun p => decide (p.1 = k)) with
    | some p => simp
    | none =>
      rw [List.find?_cons_of_neg _ (by simpa using hk'k)]
      simp

theorem dictHas_eq_isSome (m : List (Str × Str)) (k : Str) :
    dictHas m k = (dictGet m k).isSome := by
  induction m with
  | nil => rfl
  | cons p m' ih =>
    by_cases hp : p.1 = k <;>
      simp [dictHas, dictGet, List.any_cons, List.find?_cons, hp] <;>
      simpa [dictHas, dictGet] using ih

/-- Lookup of the LAST occurrence of a key in a match list (Python
dict assignment semantics for repeated keys). -/
def lookupLast (ps : List (Str × Str)) (k : Str) : Option Str :=
  (ps.reverse.find? (fun p => p.1 = k)).map (fun p => p.2)

/-- Lookup of the FIRST occurrence of a key in a match list (Python
`if key not in attrs` semantics). -/
def lookupFirst (ps : List (Str × Str)) (k : Str) : Option Str :=
  (ps.find? (fun p => p.1 = k)).map (fun p => p.2)

theorem lookupLast_cons (p : Str × Str) (ps : List (Str × Str)) (k : Str) :
    lookupLast (p :: ps) k =
      match lookupLast ps k with
      | some v => some v
      | none => if p.1 = k then some p.2 else none := by
  unfold lookupLast
  rw [List.reverse_cons, List.find?_append]
  cases h : ps.reverse.find? (fun q => decide (q.1 = k)) with
  | some q => simp
  | none =>
    by_cases hp : p.1 = k <;> simp [List.find?_cons, hp]

theorem foldl_insert_get (qs : List (Str × Str)) (m : List (Str × Str)) (k : Str) :
    dictGet (qs.foldl (fun m p => dictInsert m p.1 p.2) m) k =
      match lookupLast qs k with
      | some v => some v
      | none => dictGet m k := by
  induction qs generalizing m with
  | nil => simp [lookupLast]
  | cons q qs' ih =>
    rw [List.foldl_cons, ih, lookupLast_cons]
    cases hl : lookupLast qs' k with
    | some v => rfl
    | none =>
      by_cases hq : q.1 = k
      · subst hq
        simp [dictGet_insert_self]
      · have h' : k ≠ q.1 := fun hc => hq hc.symm
        simp [dictGet_insert_ne m k q.1 q.2 h', hq]

theorem foldl_condinsert_get (us : List (Str × Str)) (m : List (Str × Str)) (k : Str) :
    dictGet (us.foldl
        (fun m p => if dictHas m p.1 then m else dictInsert m p.1 p.2) m) k =
      match dictGet m k with
      | some v => some v
      | none => lookupFirst us k := by
  induction us generalizing m with
  | nil =>
    rw [List.foldl_nil]
    cases h : dictGet m k <;> simp [lookupFirst]
  | cons u us' ih =>
    rw [List.foldl_cons]
    by_cases hu : dictHas m u.1 = true
    · rw [if_pos hu, ih]
      by_cases hk : u.1 = k
      · rw [dictHas_eq_isSome] at hu
        rw [hk] at hu
        cases hv : dictGet m k with
        | none => rw [hv] at hu; simp at hu
        | some v => rfl
      · cases hv : dictGet m k with
        | some v => rfl
        | none => simp [lookupFirst, List.find?_cons, hk]
    · rw [if_neg hu, ih]
      by_cases hk : u.1 = k
      · have hnone : dictGet m k = none := by
          rw [dictHas_eq_isSome, hk] at hu
          cases hv : dictGet m k with
          | none => rfl
          | some v => rw [hv] at hu; simp at hu
        rw [hnone]
        rw [← hk] at hnone ⊢
        rw [dictGet_insert_self]
        simp [lookupFirst, List.find?_cons, hk]
      · have h' : k ≠ u.1 := fun hc => hk hc.symm
        rw [dictGet_insert_ne m k u.1 u.2 h']
        cases hv : dictGet m k with
        | some v => rfl
        | none => simp [lookupFirst, List.find?_cons, hk]

/-- Quoted `key="value"` pairs found in an attribute text, with keys
lowercased and values stripped, in match order. -/
def quotedPairs (t : Str) : List (Str × Str) :=
  (scanMatches matchQuotedAt t.length t).map
    (fun p => (lowerAscii p.1, pyStrip p.2))

/-- Unquoted `key=value` pairs found in an attribute text, with keys
lowercased and values stripped, in match order. -/
def unquotedPairs (t : Str) : List (Str × Str) :=
  (scanMatches matchUnquotedAt t.length t).map
    (fun p => (lowerAscii p.1, pyStrip p.2))

theorem foldl_ins_map (l : List (Str × Str)) (m : List (Str × Str)) :
    l.foldl (fun m p => dictInsert m (lowerAscii p.1) (pyStrip p.2)) m =
      (l.map (fun p => (lowerAscii p.1, pyStrip p.2))).foldl
        (fun m p => dictInsert m p.1 p.2) m := by
  induction l generalizing m with
  | nil => rfl
  | cons p l' ih => simp [List.foldl_cons, ih]

theorem foldl_cond_map (l : List (Str × Str)) (m : List (Str × Str)) :
    l.foldl
        (fun m p => if dictHas m (lowerAscii p.1) then m
          else dictInsert m (lowerAscii p.1) (pyStrip p.2)) m =
      (l.map (fun p => (lowerAscii p.1, pyStrip p.2))).foldl
        (fun m p => if dictHas m p.1 then m else dictInsert m p.1 p.2) m := by
  induction l generalizing m with
  | nil => rfl
  | cons p l' ih => simp [List.foldl_cons, ih]

/-- Attribute precedence: a key's value in `_parse_m3u_attrs` is the
LAST quoted occurrence if any, else the FIRST unquoted occurrence. -/
theorem parseM3uAttrs_get (t : Str) (k : Str) :
    dictGet (parseM3uAttrs t) k =
      match lookupLast (quotedPairs t) k with
      | some v => some v
      | none => lookupFirst (unquotedPairs t) k := by
  unfold parseM3uAttrs
  by_cases ht : t = []
  · subst ht
    simp [quotedPairs, unquotedPairs, scanMatches, lookupLast, lookupFirst,
      dictGet]
  · rw [if_neg ht, foldl_cond_map, foldl_ins_map, foldl_condinsert_get,
      foldl_insert_get]
    simp only [quotedPairs, unquotedPairs]
    cases lookupLast ((scanMatches matchQuotedAt t.length t).map
        (fun p => (lowerAscii p.1, pyStrip p.2))) k <;> rfl

theorem parse_m3u_step_blank (dg : Str) (st : M3uState) (raw : Str)
    (h : pyStrip raw = []) : parse_m3u_step dg st raw = st := by
  unfold parse_m3u_step
  dsimp only
  rw [if_pos h]

theorem parse_m3u_step_extinf (dg : Str) (st : M3uState) (raw : Str)
    (hne : pyStrip raw ≠ [])
    (h : ("#EXTINF".data).isPrefixOf (upperAscii (pyStrip raw)) = true) :
    parse_m3u_step dg st raw =
      { st with
        curName := (extinfPending (pyStrip raw)).1,
        curLogo := (extinfPending (pyStrip raw)).2.1,
        curGroup := (extinfPending (pyStrip raw)).2.2 } := by
  unfold parse_m3u_step
  dsimp only
  rw [if_neg hne, if_pos h]

theorem parse_m3u_step_url (dg : Str) (st : M3uState) (raw : Str)
    (hne : pyStrip raw ≠ [])
    (hh : ¬ (['#']).isPrefixOf (pyStrip raw) = true) :
    parse_m3u_step dg st raw =
      ⟨st.rows ++
        [⟨pyOr st.curName (guess_name_from_url (pyStrip raw) st.idx),
          pyStrip raw, pyOr st.curGroup dg, pyOr st.curLogo []⟩],
        st.idx + 1, [], [], []⟩ := by
  have hE : ¬ ("#EXTINF".data).isPrefixOf (upperAscii (pyStrip raw)) = true :=
    fun hc => hh (upperHashLead _ _ ⟨("EXTINF".data), rfl⟩ hc)
  have hG : ¬ ("#EXTGRP".data).isPrefixOf (upperAscii (pyStrip raw)) = true :=
    fun hc => hh (upperHashLead _ _ ⟨("EXTGRP".data), rfl⟩ hc)
  unfold parse_m3u_step
  dsimp only
  rw [if_neg hne, if_neg hE, if_neg hG, if_neg hh, if_pos hne]

/-- Field selection from the attribute map and display-name segment of
an `#EXTINF` line: name from the trimmed display segment, else
`tvg-name`, else `tvg-id`; logo from `tvg-logo` else `logo`; group
from `group-title` else `group` (Python string truthiness). -/
def pendingOfAttrs (attrs : List (Str × Str)) (namePart : Str) :
    Str × Str × Str :=
  (pyOr (pyStrip namePart)
    (pyStrip (pyOrOpt (dictGet attrs ("tvg-name".data))
      (pyOrOpt (dictGet attrs ("tvg-id".data)) []))),
   pyStrip (pyOrOpt (dictGet attrs ("tvg-logo".data))
     (pyOrOpt (dictGet attrs ("logo".data)) [])),
   pyStrip (pyOrOpt (dictGet attrs ("group-title".data))
     (pyOrOpt (dictGet attrs ("group".data)) [])))

/-- C6: EXTINF handling and pending-state behavior of the M3U parser:
(1) the text after `#EXTINF:` splits at its FIRST comma into attribute
and display-name segments; (2) a leading (possibly negative) integer
token is dropped before attribute parsing, whether followed by the
rest of the segment or alone; (3) quoted `key="value"` pairs take
precedence over unquoted ones — a key's value is its last quoted
occurrence, else its first unquoted occurrence; (4) the pending fields
are selected as name = display segment else tvg-name else tvg-id,
logo = tvg-logo else logo, group = group-title else group; (5) a
case-insensitive `#EXTINF` line replaces the pending state with those
fields without touching rows; (6) a non-`#` non-empty line is consumed
as a URL and all pending state is reset to empty; (7) blank lines are
skipped without resetting pending state. -/
theorem iptv_C6 :
    (∀ a b : Str, a.contains ',' = false →
      splitFirst ',' (a ++ ',' :: b) = some (a, b)) ∧
    (∀ tok r : Str, tok.contains ' ' = false → specNegInt tok →
      dropLegacyDuration (tok ++ ' ' :: r) = pyStrip r ∧
      dropLegacyDuration tok = []) ∧
    (∀ t k : Str, dictGet (parseM3uAttrs t) k =
      match lookupLast (quotedPairs t) k with
      | some v => some v
      | none => lookupFirst (unquotedPairs t) k) ∧
    (∀ s : Str, extinfPending s =
      (let rest := pyStrip (s.drop 8)
       let q :=
         match splitFirst ',' rest with
         | some (a, b) => (a, b)
         | none => (rest, [])
       pendingOfAttrs (parseM3uAttrs (dropLegacyDuration (pyStrip q.1))) q.2)) ∧
    (∀ (dg : Str) (st : M3uState) (raw : Str), pyStrip raw ≠ [] →
      ("#EXTINF".data).isPrefixOf (upperAscii (pyStrip raw)) = true →
      parse_m3u_step dg st raw =
        { st with
          curName := (extinfPending (pyStrip raw)).1,
          curLogo := (extinfPending (pyStrip raw)).2.1,
          curGroup := (extinfPending (pyStrip raw)).2.2 }) ∧
    (∀ (dg : Str) (st : M3uState) (raw : Str), pyStrip raw ≠ [] →
      ¬ (['#']).isPrefixOf (pyStrip raw) = true →
      parse_m3u_step dg st raw =
        ⟨st.rows ++
          [⟨pyOr st.curName (guess_name_from_url (pyStrip raw) st.idx),
            pyStrip raw, pyOr st.curGroup dg, pyOr st.curLogo []⟩],
          st.idx + 1, [], [], []⟩) ∧
    (∀ (dg : Str) (st : M3uState) (raw : Str), pyStrip raw = [] →
      parse_m3u_step dg st raw = st) := by
  refine ⟨splitFirst_append ',', ?_, parseM3uAttrs_get, ?_,
    parse_m3u_step_extinf, parse_m3u_step_url, parse_m3u_step_blank⟩
  · intro tok r hsp h
    exact ⟨dropLegacyDuration_drops tok r hsp h,
      dropLegacyDuration_drops_alone tok hsp h⟩
  · intro s
    rfl

/-- Witness for C6 at concrete inputs: a comma split, a duration-token
drop, a quoted-over-unquoted precedence instance, an `#EXTINF` step, a
URL step and a blank-line step. -/
theorem iptv_C6_witness :
    splitFirst ',' (("-1 x=1".data) ++ ',' :: ("Name".data)) =
      some (("-1 x=1".data), ("Name".data)) ∧
    dropLegacyDuration (("-1".data) ++ ' ' :: ("a=1".data)) =
      pyStrip ("a=1".data) ∧
    dictGet (parseM3uAttrs ("a=\"q\" a=u".data)) ("a".data) =
      some ("q".data) ∧
    parse_m3u_step ("G".data) ⟨[], 1, [], [], []⟩ ("#EXTINF:-1,A".data) =
      { (⟨[], 1, [], [], []⟩ : M3uState) with
        curName := (extinfPending (pyStrip ("#EXTINF:-1,A".data))).1,
        curLogo := (extinfPending (pyStrip ("#EXTINF:-1,A".data))).2.1,
        curGroup := (extinfPending (pyStrip ("#EXTINF:-1,A".data))).2.2 } ∧
    parse_m3u_step ("G".data) ⟨[], 1, ("N".data), [], []⟩ ("http://u".data) =
      ⟨[⟨pyOr ("N".data) (guess_name_from_url (pyStrip ("http://u".data)) 1),
        pyStrip ("http://u".data), pyOr [] ("G".data), pyOr [] []⟩],
        2, [], [], []⟩ ∧
    parse_m3u_step ("G".data) ⟨[], 1, ("N".data), [], []⟩ ("  ".data) =
      ⟨[], 1, ("N".data), [], []⟩ := by
  refine ⟨iptv_C6.1 _ _ (by decide), ?_, ?_, ?_, ?_, ?_⟩
  · exact (iptv_C6.2.1 ("-1".data) ("a=1".data) (by decide)
      (Or.inl ⟨("1".data), rfl, by decide, by decide⟩)).1
  · rw [iptv_C6.2.2.1 ("a=\"q\" a=u".data) ("a".data)]
    decide
  · exact iptv_C6.2.2.2.2.1 ("G".data) ⟨[], 1, [], [], []⟩
      ("#EXTINF:-1,A".data) (by decide) (by decide)
  · exact iptv_C6.2.2.2.2.2.1 ("G".data) ⟨[], 1, ("N".data), [], []⟩
      ("http://u".data) (by decide) (by decide)
  · exact iptv_C6.2.2.2.2.2.2 ("G".data) ⟨[], 1, ("N".data), [], []⟩
      ("  ".data) (by decide)

/-! Generic lemmas for the M3U round-trip analysis (C7). -/

theorem dropWhile_eq_self_of (p : Char → Bool) (s : Str)
    (h : ∀ c ∈ s, p c = false) : s.dropWhile p = s := by
  cases s with
  | nil => rfl
  | cons c cs => rw [List.dropWhile_cons_of_neg (by simp [h c (by simp)])]

theorem pyStrip_of_all_nonspace (s : Str)
    (h : ∀ c ∈ s, isPySpace c = false) : pyStrip s = s := by
  unfold pyStrip pyStripP
  rw [dropWhile_eq_self_of isPySpace s h,
    dropWhile_eq_self_of isPySpace s.reverse
      (fun c hc => h c (List.mem_reverse.1 hc)),
    List.reverse_reverse]

theorem pyStrip_idem (s : Str) : pyStrip (pyStrip s) = pyStrip s := by
  unfold pyStrip pyStripP
  have hd : ((s.dropWhile isPySpace).reverse.dropWhile isPySpace).reverse.dropWhile
      isPySpace =
      ((s.dropWhile isPySpace).reverse.dropWhile isPySpace).reverse := by
    cases hB : ((s.dropWhile isPySpace).reverse.dropWhile isPySpace).reverse with
    | nil => rfl
    | cons c t =>
      have hw : (s.dropWhile isPySpace).reverse.dropWhile isPySpace =
          t.reverse ++ [c] := by
        have := congrArg List.reverse hB
        simpa using this
      obtain ⟨pre, hpre⟩ :=
        List.dropWhile_suffix (l := (s.dropWhile isPySpace).reverse)
          (p := isPySpace)
      rw [hw] at hpre
      have hA : s.dropWhile isPySpace = c :: (t ++ pre.reverse) := by
        have := congrArg List.reverse hpre
        simpa using this.symm
      have hc : isPySpace c = false :=
        dropWhile_head_false isPySpace s c _ hA
      rw [List.dropWhile_cons_of_neg (by simp [hc])]
  rw [hd]
  have h2 : (((s.dropWhile isPySpace).reverse.dropWhile
      isPySpace).reverse).reverse.dropWhile isPySpace =
      (s.dropWhile isPySpace).reverse.dropWhile isPySpace := by
    rw [List.reverse_reverse, dropWhile_idem]
  rw [h2]

theorem pyStrip_pyStrip_eq (s : Str) :
    pyRstrip (pyStrip s) = pyStrip s := pyRstrip_pyStrip s

theorem takeWhile_append_all (p : Char → Bool) (a b : Str)
    (h : ∀ c ∈ a, p c = true) :
    (a ++ b).takeWhile p = a ++ b.takeWhile p := by
  induction a with
  | nil => rfl
  | cons c a' ih =>
    rw [List.cons_append, List.takeWhile_cons_of_pos (h c (by simp)),
      ih (fun c hc => h c (by simp [hc])), List.cons_append]

theorem dropWhile_append_all (p : Char → Bool) (a b : Str)
    (h : ∀ c ∈ a, p c = true) :
    (a ++ b).dropWhile p = b.dropWhile p := by
  induction a with
  | nil => rfl
  | cons c a' ih =>
    rw [List.cons_append, List.dropWhile_cons_of_pos (h c (by simp)),
      ih (fun c hc => h c (by simp [hc]))]

theorem replaceChar_id (c : Char) (repl : Str) (s : Str)
    (h : ∀ d ∈ s, d ≠ c) : replaceChar c repl s = s := by
  induction s with
  | nil => rfl
  | cons d s' ih =>
    unfold replaceChar
    simp only [List.foldr_cons]
    have hd : d ≠ c := h d (by simp)
    rw [if_neg hd]
    have := ih (fun e he => h e (by simp [he]))
    unfold replaceChar at this
    rw [this]
    rfl

theorem esc_attr_id (v : Str) (hq : ∀ d ∈ v, d ≠ '"')
    (hb : ∀ d ∈ v, d ≠ '\\') (hst : pyStrip v = v) : esc_attr v = v := by
  unfold esc_attr
  rw [replaceChar_id '\\' _ v hb, replaceChar_id '"' _ v hq, hst]

theorem splitFirst_parts (sep : Char) (s a b : Str)
    (h : splitFirst sep s = some (a, b)) : s = a ++ sep :: b := by
  induction s generalizing a with
  | nil => cases h
  | cons c cs ih =>
    unfold splitFirst at h
    by_cases hc : c = sep
    · rw [if_pos hc] at h
      cases h
      simp [hc]
    · rw [if_neg hc] at h
      cases hf : splitFirst sep cs with
      | none => rw [hf] at h; cases h
      | some p =>
        rw [hf] at h
        cases h
        have := ih p.1 (by rw [hf])
        simp [this]

theorem suffix_append_cases (s a b : Str) (h : s <:+ a ++ b) :
    (∃ t, t <:+ a ∧ t ≠ [] ∧ s = t ++ b) ∨ s <:+ b := by
  induction a with
  | nil => exact Or.inr h
  | cons c a' ih =>
    rw [List.cons_append, List.suffix_cons_iff] at h
    rcases h with rfl | h
    · exact Or.inl ⟨c :: a', List.suffix_refl _, by simp, rfl⟩
    · rcases ih h with ⟨t, ht, htne, rfl⟩ | h'
      · exact Or.inl ⟨t, ht.trans (List.suffix_cons c a'), htne, rfl⟩
      · exact Or.inr h'

/-! Matcher lemmas: the quoted matcher succeeds exactly on a built
attribute, the unquoted matcher fails at every position of a built
attribute text. -/

theorem matchQuotedAt_built (k v r : Str) (hk : k ≠ [])
    (hkc : ∀ c ∈ k, keyChar c = true) (hv : ∀ c ∈ v, c ≠ '"') :
    matchQuotedAt (k ++ ('=' :: '"' :: (v ++ ('"' :: r)))) = some (k, v, r) := by
  unfold matchQuotedAt
  have ht : (k ++ ('=' :: '"' :: (v ++ ('"' :: r)))).takeWhile keyChar = k := by
    rw [takeWhile_append_all keyChar k _ hkc,
      List.takeWhile_cons_of_neg (by decide), List.append_nil]
  have hd : (k ++ ('=' :: '"' :: (v ++ ('"' :: r)))).dropWhile keyChar =
      '=' :: '"' :: (v ++ ('"' :: r)) := by
    rw [dropWhile_append_all keyChar k _ hkc,
      List.dropWhile_cons_of_neg (by decide)]
  have hvd : (v ++ ('"' :: r)).dropWhile (fun c => !decide (c = '"')) = '"' :: r := by
    rw [dropWhile_append_all _ v _ (fun c hc => by simp [hv c hc]),
      List.dropWhile_cons_of_neg (by simp)]
  have hvt : (v ++ ('"' :: r)).takeWhile (fun c => !decide (c = '"')) = v := by
    rw [takeWhile_append_all _ v _ (fun c hc => by simp [hv c hc]),
      List.takeWhile_cons_of_neg (by simp), List.append_nil]
  rw [ht, hd, if_neg hk]
  simp [List.dropWhile_cons, isPySpace, hvd, hvt]

theorem matchUnquotedAt_nil : matchUnquotedAt [] = none := rfl

theorem matchUnquotedAt_head_not_key (c : Char) (s : Str)
    (h : keyChar c = false) : matchUnquotedAt (c :: s) = none := by
  unfold matchUnquotedAt
  rw [List.takeWhile_cons_of_neg (by simp [h])]
  simp

theorem dropWhile_no_eq (p : Char → Bool) (t r : Str) (hp : p '"' = false)
    (ht : ∀ c ∈ t, c ≠ '=') :
    ∃ t', (∀ c ∈ t', c ≠ '=') ∧
      (t ++ '"' :: r).dropWhile p = t' ++ '"' :: r := by
  induction t with
  | nil =>
    exact ⟨[], by simp, by rw [List.nil_append, List.dropWhile_cons_of_neg (by simp [hp])]⟩
  | cons c t' ih =>
    by_cases hc : p c
    · obtain ⟨t2, ht2, heq⟩ := ih (fun d hd => ht d (by simp [hd]))
      exact ⟨t2, ht2, by rw [List.cons_append, List.dropWhile_cons_of_pos hc, heq]⟩
    · exact ⟨c :: t', fun d hd => ht d hd,
        by rw [List.cons_append, List.dropWhile_cons_of_neg hc]⟩

theorem matchUnquotedAt_value_pos (t r : Str) (ht : ∀ c ∈ t, c ≠ '=') :
    matchUnquotedAt (t ++ '"' :: r) = none := by
  unfold matchUnquotedAt
  by_cases hkey : (t ++ '"' :: r).takeWhile keyChar = []
  · rw [hkey]
    simp
  · rw [if_neg hkey]
    obtain ⟨t1, ht1, h1⟩ := dropWhile_no_eq keyChar t r (by decide) ht
    rw [h1]
    obtain ⟨t2, ht2, h2⟩ := dropWhile_no_eq isPySpace t1 r (by decide) ht1
    rw [h2]
    cases t2 with
    | nil => simp
    | cons d t3 =>
      have hd : d ≠ '=' := ht2 d (by simp)
      simp only [List.cons_append]
      split
      next x r2 heq =>
        have hde : d = '=' := by injection heq
        exact absurd hde hd
      next => rfl

theorem matchUnquotedAt_key_pos (t rv : Str)
    (ht : ∀ c ∈ t, keyChar c = true) :
    matchUnquotedAt (t ++ '=' :: '"' :: rv) = none := by
  unfold matchUnquotedAt
  cases t with
  | nil =>
    rw [List.nil_append, List.takeWhile_cons_of_neg (by decide)]
    simp
  | cons c t' =>
    have htt : (c :: t' ++ '=' :: '"' :: rv).takeWhile keyChar = c :: t' := by
      rw [takeWhile_append_all keyChar _ _ ht,
        List.takeWhile_cons_of_neg (by decide), List.append_nil]
    have htd : (c :: t' ++ '=' :: '"' :: rv).dropWhile keyChar =
        '=' :: '"' :: rv := by
      rw [dropWhile_append_all keyChar _ _ ht,
        List.dropWhile_cons_of_neg (by decide)]
    rw [htt, htd]
    rw [if_neg (by simp)]
    dsimp only
    simp [List.dropWhile_cons, List.takeWhile_cons, isPySpace]

theorem scanMatches_nil (m : Str → Option (Str × Str × Str)) (fuel : Nat) :
    scanMatches m fuel [] = [] := by
  cases fuel <;> rfl

theorem scanMatches_cons_match (m : Str → Option (Str × Str × Str))
    (fuel : Nat) (c : Char) (cs : Str) (k v rest : Str)
    (h : m (c :: cs) = some (k, v, rest)) :
    scanMatches m (fuel + 1) (c :: cs) = (k, v) :: scanMatches m fuel rest := by
  conv_lhs => rw [scanMatches]
  rw [h]

theorem scanMatches_cons_fail (m : Str → Option (Str × Str × Str))
    (fuel : Nat) (c : Char) (cs : Str) (h : m (c :: cs) = none) :
    scanMatches m (fuel + 1) (c :: cs) = scanMatches m fuel cs := by
  conv_lhs => rw [scanMatches]
  rw [h]

theorem scanMatches_none (m : Str → Option (Str × Str × Str)) (fuel : Nat)
    (s : Str) (h : ∀ s', s' <:+ s → m s' = none) :
    scanMatches m fuel s = [] := by
  induction fuel generalizing s with
  | zero => cases s <;> rfl
  | succ f ih =>
    cases s with
    | nil => rfl
    | cons c cs =>
      rw [scanMatches_cons_fail m f c cs (h _ (List.suffix_refl _))]
      exact ih cs (fun s' hs' => h s' (hs'.trans (List.suffix_cons c cs)))

/-- Every position of a built quoted attribute followed by safe text
fails the unquoted matcher. -/
theorem unquoted_safe_segment (k v r : Str)
    (hk : ∀ c ∈ k, keyChar c = true)
    (hv : ∀ c ∈ v, c ≠ '=' ∧ c ≠ '"')
    (hr : ∀ s, s <:+ r → matchUnquotedAt s = none) :
    ∀ s, s <:+ (k ++ ('=' :: '"' :: (v ++ ('"' :: r)))) →
      matchUnquotedAt s = none := by
  intro s hs
  rcases suffix_append_cases s k ('=' :: '"' :: (v ++ ('"' :: r))) hs with
    ⟨t, htk, htne, rfl⟩ | hs2
  · exact matchUnquotedAt_key_pos t (v ++ ('"' :: r))
      (fun c hc => hk c (htk.subset hc))
  · rw [List.suffix_cons_iff] at hs2
    rcases hs2 with rfl | hs3
    · exact matchUnquotedAt_key_pos [] (v ++ ('"' :: r)) (by simp)
    · rw [List.suffix_cons_iff] at hs3
      rcases hs3 with rfl | hs4
      · have : ('"' :: (v ++ ('"' :: r))) = ([] : Str) ++ '"' :: (v ++ ('"' :: r)) := rfl
        rw [this]
        exact matchUnquotedAt_value_pos [] (v ++ ('"' :: r)) (by simp)
      · rcases suffix_append_cases _ v ('"' :: r) hs4 with ⟨t, htv, htne, rfl⟩ | hs5
        · exact matchUnquotedAt_value_pos t r
            (fun c hc => (hv c (htv.subset hc)).1)
        · rw [List.suffix_cons_iff] at hs5
          rcases hs5 with rfl | hs6
          · exact matchUnquotedAt_value_pos [] r (by simp)
          · exact hr _ hs6

/-! Character-class facts used for the round-trip conditions. -/

theorem uint32_le_toNat {a b : UInt32} (h : a ≤ b) : a.toNat ≤ b.toNat := by
  rw [UInt32.le_def, BitVec.le_def] at h
  exact h

theorem isUpper_bounds (c : Char) (h : c.isUpper = true) :
    65 ≤ c.toNat ∧ c.toNat ≤ 90 := by
  unfold Char.isUpper at h
  simp only [Bool.and_eq_true, decide_eq_true_eq] at h
  exact ⟨uint32_le_toNat h.1, uint32_le_toNat h.2⟩

theorem isLower_bounds (c : Char) (h : c.isLower = true) :
    97 ≤ c.toNat ∧ c.toNat ≤ 122 := by
  unfold Char.isLower at h
  simp only [Bool.and_eq_true, decide_eq_true_eq] at h
  exact ⟨uint32_le_toNat h.1, uint32_le_toNat h.2⟩

theorem isDigit_bounds (c : Char) (h : c.isDigit = true) :
    48 ≤ c.toNat ∧ c.toNat ≤ 57 := by
  unfold Char.isDigit at h
  simp only [Bool.and_eq_true, decide_eq_true_eq] at h
  exact ⟨uint32_le_toNat h.1, uint32_le_toNat h.2⟩

/-- Characters in the printable ASCII band `[45,122]` or the CJK band
are neither Python whitespace nor line breaks. -/
theorem not_space_break_of_ranges (c : Char)
    (h : (45 ≤ c.toNat ∧ c.toNat ≤ 122) ∨
      (19968 ≤ c.toNat ∧ c.toNat ≤ 40959)) :
    isPySpace c = false ∧ isLineBreak c = false := by
  have hlo : 45 ≤ c.toNat := by rcases h with ⟨h1, _⟩ | ⟨h1, _⟩ <;> omega
  have hmid : c.toNat ≤ 122 ∨ 19968 ≤ c.toNat := by
    rcases h with ⟨_, h2⟩ | ⟨h2, _⟩
    · exact Or.inl h2
    · exact Or.inr h2
  have hhi : c.toNat ≤ 40959 := by rcases h with ⟨_, h2⟩ | ⟨_, h2⟩ <;> omega
  constructor
  · cases hb : isPySpace c
    · rfl
    · exfalso
      simp only [isPySpace, Bool.or_eq_true, decide_eq_true_eq] at hb
      rcases hb with ((((hc | hc) | hc) | hc) | hc) | hc <;>
        (subst hc; revert hlo; decide)
  · cases hb : isLineBreak c
    · rfl
    · exfalso
      simp only [isLineBreak, Bool.or_eq_true, decide_eq_true_eq] at hb
      rcases hb with ((((((((hc | hc) | hc) | hc) | hc) | hc) | hc) | hn) | hn) | hn
      · subst hc; revert hlo; decide
      · subst hc; revert hlo; decide
      · subst hc; revert hlo; decide
      · subst hc; revert hlo; decide
      · subst hc; revert hlo; decide
      · subst hc; revert hlo; decide
      · subst hc; revert hlo; decide
      · omega
      · rcases hmid with h' | h' <;> omega
      · rcases hmid with h' | h' <;> omega

theorem keep_ranges (c : Char) (h : guessKeepChar c = true) :
    (45 ≤ c.toNat ∧ c.toNat ≤ 122) ∨ (19968 ≤ c.toNat ∧ c.toNat ≤ 40959) := by
  simp only [guessKeepChar, Bool.or_eq_true, decide_eq_true_eq] at h
  rcases h with (((ha | hd) | hu) | hm) | hcjk
  · unfold Char.isAlpha at ha
    simp only [Bool.or_eq_true] at ha
    rcases ha with hup | hlo
    · have := isUpper_bounds c hup; omega
    · have := isLower_bounds c hlo; omega
  · have := isDigit_bounds c hd; omega
  · subst hu; left; decide
  · subst hm; left; decide
  · simp only [cjkChar, Bool.and_eq_true, decide_eq_true_eq] at hcjk
    omega

theorem keep_safe (c : Char) (h : guessKeepChar c = true) :
    isPySpace c = false ∧ isLineBreak c = false :=
  not_space_break_of_ranges c (keep_ranges c h)

theorem space_safe : isPySpace ' ' = true ∧ isLineBreak ' ' = false := by decide

theorem toLower_safe (c : Char) (h : isPySpace c = false ∧ isLineBreak c = false) :
    isPySpace (Char.toLower c) = false ∧ isLineBreak (Char.toLower c) = false := by
  unfold Char.toLower
  dsimp only
  by_cases hn : c.toNat ≥ 65 ∧ c.toNat ≤ 90
  · rw [if_pos hn]
    obtain ⟨h1, h2⟩ := hn
    generalize c.toNat = n at h1 h2
    interval_cases n <;> exact (by decide)
  · rw [if_neg hn]
    exact h

theorem go_cons_nobreak (cur : Str) (c : Char) (cs : Str)
    (hb : isLineBreak c = false) :
    pySplitlinesGo cur (c :: cs) = pySplitlinesGo (c :: cur) cs := by
  have hr : c ≠ '\r' := by
    intro h
    subst h
    exact absurd hb (by decide)
  rw [pySplitlinesGo.eq_def]
  split
  · rename_i heq
    cases heq
  · rename_i cs2 heq
    injection heq with h1 h2
    exact absurd h1 hr
  · rename_i c2 cs2 heq hne
    injection hne with h1 h2
    subst h1
    subst h2
    rw [if_neg (by simp [hb])]

theorem go_newline (cur : Str) (cs : Str) :
    pySplitlinesGo cur ('\n' :: cs) = cur.reverse :: pySplitlinesGo [] cs := rfl

theorem go_append_nobreak (a : Str) (h : ∀ c ∈ a, isLineBreak c = false)
    (cur s : Str) :
    pySplitlinesGo cur (a ++ s) = pySplitlinesGo (a.reverse ++ cur) s := by
  induction a generalizing cur with
  | nil => rfl
  | cons c a' ih =>
    rw [List.cons_append, go_cons_nobreak cur c _ (h c (by simp)),
      ih (fun d hd => h d (by simp [hd])) (c :: cur)]
    simp

theorem go_nil (cur : Str) :
    pySplitlinesGo cur [] = if cur = [] then [] else [cur.reverse] := rfl

theorem mem_of_takeWhile {p : Char → Bool} {l : Str} {c : Char}
    (h : c ∈ l.takeWhile p) : c ∈ l := (List.takeWhile_sublist p).subset h

theorem mem_of_dropWhile {p : Char → Bool} {l : Str} {c : Char}
    (h : c ∈ l.dropWhile p) : c ∈ l := (List.dropWhile_sublist p).subset h

theorem mem_of_drop {n : Nat} {l : Str} {c : Char} (h : c ∈ l.drop n) :
    c ∈ l := (List.drop_sublist n l).subset h

theorem mem_of_pyStrip {l : Str} {c : Char} (h : c ∈ pyStrip l) : c ∈ l := by
  unfold pyStrip pyStripP at h
  rw [List.mem_reverse] at h
  exact mem_of_dropWhile (List.mem_reverse.1 (mem_of_dropWhile h))

theorem mem_hostnameOf {netloc : Str} {c : Char} (h : c ∈ hostnameOf netloc) :
    c ∈ netloc := by
  unfold hostnameOf at h
  dsimp only at h
  split at h
  · have h1 := mem_of_dropWhile (mem_of_drop (mem_of_takeWhile h))
    exact List.mem_reverse.1 (mem_of_takeWhile (List.mem_reverse.1 h1))
  · exact List.mem_reverse.1 (mem_of_takeWhile (List.mem_reverse.1
      (mem_of_takeWhile h)))

theorem splitScheme_post_subset (s : Str) {c : Char}
    (h : c ∈ (splitScheme s).2) : c ∈ s := by
  unfold splitScheme at h
  cases hsp : splitFirst ':' s with
  | none => rw [hsp] at h; exact h
  | some p =>
    rw [hsp] at h
    rcases p with ⟨pre, post⟩
    cases pre with
    | nil => exact h
    | cons c0 pre' =>
      dsimp only at h
      split at h
      · have := splitFirst_parts ':' s (c0 :: pre') post hsp
        rw [this]
        simp [h]
      · exact h


theorem urlNetlocRest_fst_subset (rest : Str) {c : Char}
    (h : c ∈ (urlNetlocRest rest).1) : c ∈ rest := by
  unfold urlNetlocRest at h
  split at h
  · exact mem_of_drop (mem_of_takeWhile h)
  · cases h

theorem urlsplitE_netloc_subset (u : Str) (p : UrlParts)
    (h : urlsplitE u = .ok p) {c : Char} (hc : c ∈ p.netloc) : c ∈ u := by
  unfold urlsplitE at h
  dsimp only at h
  split at h
  · cases h
  · cases h
    dsimp only at hc
    have h1 := urlNetlocRest_fst_subset _ hc
    have h2 := splitScheme_post_subset (removeUnsafeUrlChars u) h1
    exact (List.mem_filter.1 h2).1

theorem collapse_chars (s : Str) : ∀ (b : Bool) (c : Char),
    c ∈ collapseRuns b s → guessKeepChar c = true ∨ c = ' ' := by
  induction s with
  | nil => intro b c h; cases h
  | cons d s' ih =>
    intro b c h
    unfold collapseRuns at h
    by_cases hd : guessKeepChar d
    · rw [if_pos hd] at h
      rcases List.mem_cons.1 h with rfl | h'
      · exact Or.inl hd
      · exact ih false c h'
    · rw [if_neg hd] at h
      cases b with
      | true => exact ih true c (by simpa using h)
      | false =>
        simp only [Bool.false_eq_true, if_false] at h
        rcases List.mem_cons.1 h with rfl | h'
        · exact Or.inr rfl
        · exact ih true c h'

theorem channelName_one_safe :
    (∀ c ∈ channelName 1, isLineBreak c = false) ∧
      pyStrip (channelName 1) = channelName 1 := by decide

/-- Safety of the guessed name: for a URL whose characters are neither
whitespace nor line breaks, the guessed name contains no line breaks
and is stable under stripping. -/
theorem guess_safe (url : Str)
    (hu : ∀ c ∈ url, isPySpace c = false ∧ isLineBreak c = false) :
    (∀ c ∈ guess_name_from_url url 1, isLineBreak c = false) ∧
      pyStrip (guess_name_from_url url 1) = guess_name_from_url url 1 := by
  have hstrip : pyStrip url = url :=
    pyStrip_of_all_nonspace url (fun c hc => (hu c hc).1)
  cases h : urlsplitE (pyStrip url) with
  | error e =>
    rw [guess_of_error url 1 e h]
    exact channelName_one_safe
  | ok p =>
    rw [guess_of_ok url 1 p h]
    by_cases hF : guessFromPath p = []
    · rw [if_neg (by simpa using hF)]
      by_cases hh : lowerAscii (hostnameOf p.netloc) = []
      · rw [if_neg (by simpa using hh)]
        exact channelName_one_safe
      · rw [if_pos hh]
        constructor
        · intro c hc
          unfold lowerAscii at hc
          obtain ⟨d, hd, rfl⟩ := List.mem_map.1 hc
          have hdu : d ∈ url := by
            have h0 := urlsplitE_netloc_subset _ p h (mem_hostnameOf hd)
            rwa [hstrip] at h0
          exact (toLower_safe d (hu d hdu)).2
        · apply pyStrip_of_all_nonspace
          intro c hc
          unfold lowerAscii at hc
          obtain ⟨d, hd, rfl⟩ := List.mem_map.1 hc
          have hdu : d ∈ url := by
            have h0 := urlsplitE_netloc_subset _ p h (mem_hostnameOf hd)
            rwa [hstrip] at h0
          exact (toLower_safe d (hu d hdu)).1
    · rw [if_pos hF]
      unfold guessFromPath at hF ⊢
      by_cases hp : pyStripP (fun c => c = '/') p.path = []
      · rw [if_neg (by simpa using hp)] at hF
        exact absurd rfl hF
      · rw [if_pos (by simpa using hp)]
        constructor
        · intro c hc
          have hc' := mem_of_pyStrip hc
          rcases collapse_chars _ false c hc' with hk | rfl
          · exact (keep_safe c hk).2
          · decide
        · exact pyStrip_idem _

/-! Positive direction of the M3U round-trip: end-stability of stripped
strings and matcher facts for the writer's attribute text. -/

theorem pyOr_nil_right (a : Str) : pyOr a [] = a := by
  unfold pyOr
  by_cases h : a = []
  · rw [if_pos h, h]
  · rw [if_neg h]

theorem dropWhile_eq_self_head (p : Char → Bool) (l : Str)
    (h : ∀ c, l.head? = some c → p c = false) : l.dropWhile p = l := by
  cases l with
  | nil => rfl
  | cons c cs => rw [List.dropWhile_cons_of_neg (by simp [h c rfl])]

theorem pyStrip_stable_ends (l : Str)
    (h1 : ∀ c, l.head? = some c → isPySpace c = false)
    (h2 : ∀ c, l.getLast? = some c → isPySpace c = false) :
    pyStrip l = l := by
  unfold pyStrip pyStripP
  rw [dropWhile_eq_self_head isPySpace l h1,
    dropWhile_eq_self_head isPySpace l.reverse
      (fun c hc => h2 c (by rwa [List.head?_reverse] at hc)),
    List.reverse_reverse]

theorem pyStrip_head_nonspace (s : Str) (c : Char)
    (h : (pyStrip s).head? = some c) : isPySpace c = false := by
  have hsuf : ((s.dropWhile isPySpace).reverse.dropWhile isPySpace) <:+
      (s.dropWhile isPySpace).reverse := List.dropWhile_suffix _
  have hpref : ((s.dropWhile isPySpace).reverse.dropWhile isPySpace).reverse <+:
      s.dropWhile isPySpace := by
    have := List.reverse_prefix.2 hsuf
    rwa [List.reverse_reverse] at this
  cases hps : pyStrip s with
  | nil => rw [hps] at h; cases h
  | cons c0 t =>
    rw [hps] at h
    injection h with h
    rw [h] at hps
    unfold pyStrip pyStripP at hps
    rw [hps] at hpref
    obtain ⟨rest, hrest⟩ := hpref
    rw [List.cons_append] at hrest
    exact dropWhile_head_false isPySpace s c _ hrest.symm

theorem pyStrip_last_nonspace (s : Str) (c : Char)
    (h : (pyStrip s).getLast? = some c) : isPySpace c = false := by
  unfold pyStrip pyStripP at h
  rw [List.getLast?_reverse] at h
  cases hd : ((s.dropWhile isPySpace).reverse.dropWhile isPySpace) with
  | nil => rw [hd] at h; cases h
  | cons c0 t =>
    rw [hd] at h
    injection h with h
    rw [h] at hd
    exact dropWhile_head_false isPySpace (s.dropWhile isPySpace).reverse c t hd

theorem contains_false_of (sep : Char) (l : Str) (h : ∀ c ∈ l, c ≠ sep) :
    l.contains sep = false := by
  induction l with
  | nil => rfl
  | cons c cs ih =>
    simp only [List.contains_cons, Bool.or_eq_false_iff, beq_eq_false_iff_ne,
      ne_eq]
    exact ⟨fun hc => h c (by simp) hc.symm,
      ih (fun d hd => h d (by simp [hd]))⟩

theorem matchQuotedAt_head_not_key (c : Char) (s : Str)
    (h : keyChar c = false) : matchQuotedAt (c :: s) = none := by
  unfold matchQuotedAt
  rw [List.takeWhile_cons_of_neg (by simp [h])]
  simp

theorem keyChar_facts (c : Char) (h : keyChar c = true) :
    isPySpace c = false ∧ isLineBreak c = false ∧ c ≠ ',' := by
  have hg : guessKeepChar c = true := by
    simp only [keyChar, Bool.or_eq_true] at h
    simp only [guessKeepChar, Bool.or_eq_true]
    tauto
  have hr := keep_ranges c hg
  have hsb := not_space_break_of_ranges c hr
  refine ⟨hsb.1, hsb.2, fun hc => ?_⟩
  subst hc
  rcases hr with ⟨h1, _⟩ | ⟨h1, _⟩ <;> revert h1 <;> decide

/-- Text of a list of quoted attributes as the writer joins them:
`key="value"` chunks separated by single spaces. -/
def attrTextOf : List (Str × Str) → Str
  | [] => []
  | (k, v) :: rest =>
    k ++ ('=' :: '"' :: (v ++ ('"' ::
      (if rest = [] then [] else ' ' :: attrTextOf rest))))

/-- A well-formed attribute pair: nonempty key of key characters, value
free of quote, equals sign, comma and line breaks. -/
def goodPair (p : Str × Str) : Prop :=
  p.1 ≠ [] ∧ (∀ c ∈ p.1, keyChar c = true) ∧
  ∀ c ∈ p.2, c ≠ '"' ∧ c ≠ '=' ∧ c ≠ ',' ∧ isLineBreak c = false

theorem attrText_ne_nil (ps : List (Str × Str))
    (hps : ∀ p ∈ ps, goodPair p) (hne : ps ≠ []) : attrTextOf ps ≠ [] := by
  cases ps with
  | nil => exact absurd rfl hne
  | cons p rest =>
    obtain ⟨hk1, _, _⟩ := hps p (by simp)
    rcases p with ⟨k, v⟩
    cases k with
    | nil => exact absurd rfl hk1
    | cons c k' => simp [attrTextOf]

theorem attrText_last (ps : List (Str × Str))
    (hps : ∀ p ∈ ps, goodPair p) (hne : ps ≠ []) :
    (attrTextOf ps).getLast? = some '"' := by
  induction ps with
  | nil => exact absurd rfl hne
  | cons p rest ih =>
    rcases p with ⟨k, v⟩
    unfold attrTextOf
    by_cases hr : rest = []
    · rw [if_pos hr]
      have hshape : k ++ ('=' :: '"' :: (v ++ (['"'] : Str))) =
          (k ++ ('=' :: '"' :: v)) ++ ['"'] := by simp
      rw [hshape, List.getLast?_append]
      rfl
    · rw [if_neg hr]
      have hrest := ih (fun q hq => hps q (by simp [hq])) hr
      have hshape : k ++ ('=' :: '"' :: (v ++ ('"' :: ' ' :: attrTextOf rest))) =
          (k ++ ('=' :: '"' :: (v ++ (['"', ' '] : Str)))) ++ attrTextOf rest := by
        simp
      rw [hshape, List.getLast?_append, hrest]
      rfl

theorem attrText_chars (ps : List (Str × Str))
    (hps : ∀ p ∈ ps, goodPair p) :
    ∀ c ∈ attrTextOf ps, c ≠ ',' ∧ isLineBreak c = false := by
  induction ps with
  | nil => intro c hc; cases hc
  | cons p rest ih =>
    rcases p with ⟨k, v⟩
    obtain ⟨_, hkc, hvc⟩ := hps (k, v) (by simp)
    intro c hc
    unfold attrTextOf at hc
    rw [List.mem_append] at hc
    rcases hc with hc | hc
    · have := keyChar_facts c (hkc c hc)
      exact ⟨this.2.2, this.2.1⟩
    · rcases List.mem_cons.1 hc with rfl | hc
      · exact ⟨by decide, by decide⟩
      · rcases List.mem_cons.1 hc with rfl | hc
        · exact ⟨by decide, by decide⟩
        · rw [List.mem_append] at hc
          rcases hc with hc | hc
          · have := hvc c hc
            exact ⟨this.2.2.1, this.2.2.2⟩
          · rcases List.mem_cons.1 hc with rfl | hc
            · exact ⟨by decide, by decide⟩
            · split at hc
              · cases hc
              · rcases List.mem_cons.1 hc with rfl | hc
                · exact ⟨by decide, by decide⟩
                · exact ih (fun q hq => hps q (by simp [hq])) c hc

theorem scanQuoted_attrTextOf (ps : List (Str × Str))
    (hps : ∀ p ∈ ps, goodPair p) :
    ∀ fuel, (attrTextOf ps).length ≤ fuel →
      scanMatches matchQuotedAt fuel (attrTextOf ps) = ps := by
  induction ps with
  | nil =>
    intro fuel _
    exact scanMatches_nil _ _
  | cons p rest ih =>
    rcases p with ⟨k, v⟩
    obtain ⟨hk1, hkc, hvc⟩ := hps (k, v) (by simp)
    intro fuel hf
    have hmatch : matchQuotedAt (k ++ ('=' :: '"' :: (v ++ ('"' ::
        (if rest = [] then [] else ' ' :: attrTextOf rest))))) =
        some (k, v, if rest = [] then [] else ' ' :: attrTextOf rest) :=
      matchQuotedAt_built k v _ hk1 hkc (fun c hc => (hvc c hc).1)
    cases k with
    | nil => exact absurd rfl hk1
    | cons c k' =>
      unfold attrTextOf at hf ⊢
      rw [List.cons_append] at hmatch hf ⊢
      cases fuel with
      | zero => simp at hf
      | succ f =>
        rw [scanMatches_cons_match matchQuotedAt f c _ _ _ _ hmatch]
        by_cases hr : rest = []
        · rw [if_pos hr, hr, scanMatches_nil]
        · rw [if_neg hr] at hf ⊢
          have hflen : (attrTextOf rest).length + 2 ≤ f := by
            simp only [List.length_cons, List.length_append] at hf
            omega
          cases f with
          | zero => omega
          | succ g =>
            rw [scanMatches_cons_fail matchQuotedAt g ' ' _
              (matchQuotedAt_head_not_key ' ' _ (by decide))]
            rw [ih (fun q hq => hps q (by simp [hq])) g (by omega)]

theorem unquoted_attrTextOf_none (ps : List (Str × Str))
    (hps : ∀ p ∈ ps, goodPair p) :
    ∀ s, s <:+ attrTextOf ps → matchUnquotedAt s = none := by
  induction ps with
  | nil =>
    intro s hs
    rw [List.suffix_nil.1 hs]
    rfl
  | cons p rest ih =>
    rcases p with ⟨k, v⟩
    obtain ⟨hk1, hkc, hvc⟩ := hps (k, v) (by simp)
    intro s hs
    unfold attrTextOf at hs
    refine unquoted_safe_segment k v _ hkc
      (fun c hc => ⟨(hvc c hc).2.1, (hvc c hc).1⟩) ?_ s hs
    intro s2 hs2
    by_cases hr : rest = []
    · rw [if_pos hr] at hs2
      rw [List.suffix_nil.1 hs2]
      rfl
    · rw [if_neg hr] at hs2
      rw [List.suffix_cons_iff] at hs2
      rcases hs2 with rfl | hs3
      · exact matchUnquotedAt_head_not_key ' ' _ (by decide)
      · exact ih (fun q hq => hps q (by simp [hq])) s2 hs3

theorem parseM3uAttrs_attrText (ps : List (Str × Str))
    (hps : ∀ p ∈ ps, goodPair p) (hne : ps ≠ []) :
    parseM3uAttrs (attrTextOf ps) =
      ps.foldl (fun m p => dictInsert m (lowerAscii p.1) (pyStrip p.2)) [] := by
  unfold parseM3uAttrs
  rw [if_neg (attrText_ne_nil ps hps hne)]
  rw [scanQuoted_attrTextOf ps hps _ (Nat.le_refl _)]
  rw [scanMatches_none matchUnquotedAt _ _ (unquoted_attrTextOf_none ps hps)]
  rw [List.foldl_nil]

/-- Attribute values that survive the escape/re-parse cycle unchanged:
no quote, no backslash, no equals sign, no comma, no line break. -/
def safeVal (v : Str) : Prop :=
  ∀ c ∈ v, c ≠ '"' ∧ c ≠ '\\' ∧ c ≠ '=' ∧ c ≠ ',' ∧ isLineBreak c = false

instance (v : Str) : Decidable (safeVal v) :=
  List.decidableBAll _ v

/-- Rows whose writer output parses back to the same effective record:
the trimmed URL is nonempty, does not start with `#` and has no line
breaks (and no whitespace at all when the trimmed name is empty, so
the guessed display name round-trips); the trimmed name has no line
breaks; the trimmed group is nonempty; trimmed group and logo consist
of safe attribute-value characters. -/
def rowSafe (r : Row) : Prop :=
  pyStrip r.url ≠ [] ∧
  (['#']).isPrefixOf (pyStrip r.url) = false ∧
  (∀ c ∈ pyStrip r.url, isLineBreak c = false) ∧
  (pyStrip r.name ≠ [] ∨ ∀ c ∈ pyStrip r.url, isPySpace c = false) ∧
  (∀ c ∈ pyStrip r.name, isLineBreak c = false) ∧
  pyStrip r.group ≠ [] ∧ safeVal (pyStrip r.group) ∧ safeVal (pyStrip r.logo)

instance (r : Row) : Decidable (rowSafe r) := by
  unfold rowSafe
  infer_instance

/-- The normalized form of a record after one build/parse cycle: the
writer's display name and the trimmed url, group and logo. -/
def normRow (r : Row) : Row :=
  ⟨buildName r, pyStrip r.url, pyStrip r.group, pyStrip r.logo⟩

theorem buildName_good (r : Row) (h : rowSafe r) :
    buildName r ≠ [] ∧ pyStrip (buildName r) = buildName r ∧
      ∀ c ∈ buildName r, isLineBreak c = false := by
  obtain ⟨hune, hhash, hbrk, hsp, hnbrk, hgne, hgsafe, hlsafe⟩ := h
  unfold buildName
  by_cases hn : pyStrip r.name = []
  · rw [if_pos hn]
    have hu : ∀ c ∈ pyStrip r.url, isPySpace c = false ∧ isLineBreak c = false := by
      rcases hsp with hsp | hsp
      · exact absurd hn hsp
      · exact fun c hc => ⟨hsp c hc, hbrk c hc⟩
    have hg := guess_safe (pyStrip r.url) hu
    exact ⟨guess_ne_nil _ _, hg.2, hg.1⟩
  · rw [if_neg hn]
    exact ⟨hn, pyStrip_idem _, hnbrk⟩

/-- The attribute pairs the writer emits: `tvg-logo` when the trimmed
logo is nonempty, then `group-title` (the group is assumed nonempty). -/
def pairsOf (L G : Str) : List (Str × Str) :=
  (if L = [] then [] else [(("tvg-logo".data), L)]) ++ [(("group-title".data), G)]

theorem pairsOf_good (L G : Str)
    (hL : ∀ c ∈ L, c ≠ '"' ∧ c ≠ '\\' ∧ c ≠ '=' ∧ c ≠ ',' ∧ isLineBreak c = false)
    (hG : ∀ c ∈ G, c ≠ '"' ∧ c ≠ '\\' ∧ c ≠ ',' ∧ c ≠ '=' ∧ isLineBreak c = false) :
    ∀ p ∈ pairsOf L G, goodPair p := by
  intro p hp
  unfold pairsOf at hp
  rw [List.mem_append] at hp
  rcases hp with hp | hp
  · split at hp
    · cases hp
    · rcases List.mem_cons.1 hp with rfl | hp
      · refine ⟨(by decide : ("tvg-logo".data) ≠ []),
          (by decide : ∀ c ∈ ("tvg-logo".data), keyChar c = true),
          fun c hc => ?_⟩
        have := hL c hc
        exact ⟨this.1, this.2.2.1, this.2.2.2.1, this.2.2.2.2⟩
      · cases hp
  · rcases List.mem_cons.1 hp with rfl | hp
    · refine ⟨(by decide : ("group-title".data) ≠ []),
        (by decide : ∀ c ∈ ("group-title".data), keyChar c = true),
        fun c hc => ?_⟩
      have := hG c hc
      exact ⟨this.1, this.2.2.2.1, this.2.2.1, this.2.2.2.2⟩
    · cases hp

theorem buildAttrs_flatten (r : Row) (hG : pyStrip r.group ≠ [])
    (hLid : esc_attr (pyStrip r.logo) = pyStrip r.logo)
    (hGid : esc_attr (pyStrip r.group) = pyStrip r.group) :
    ((buildAttrs r).intersperse ([' '])).flatten =
      attrTextOf (pairsOf (pyStrip r.logo) (pyStrip r.group)) := by
  have h1 : ("tvg-logo=".data) = ("tvg-logo".data) ++ ['='] := by decide
  have h2 : ("group-title=".data) = ("group-title".data) ++ ['='] := by decide
  unfold buildAttrs pairsOf
  rw [hLid, hGid]
  by_cases hL : pyStrip r.logo = []
  · rw [if_neg (by simpa using hL), if_pos (by simpa using hG), if_pos hL]
    simp [attrTextOf, h2]
  · rw [if_pos (by simpa using hL), if_pos (by simpa using hG), if_neg hL]
    simp [attrTextOf, h1, h2]

theorem buildAttrs_ne_nil (r : Row) (hG : pyStrip r.group ≠ []) :
    buildAttrs r ≠ [] := by
  unfold buildAttrs
  simp [hG]

theorem attrText_head (ps : List (Str × Str)) (hps : ∀ p ∈ ps, goodPair p) :
    ∀ c, (attrTextOf ps).head? = some c → keyChar c = true := by
  cases ps with
  | nil => intro c hc; cases hc
  | cons p rest =>
    rcases p with ⟨k, v⟩
    obtain ⟨hk1, hkc, _⟩ := hps (k, v) (by simp)
    intro c hc
    cases k with
    | nil => exact absurd rfl hk1
    | cons c0 k' =>
      unfold attrTextOf at hc
      rw [List.cons_append] at hc
      injection hc with hc
      rw [← hc]
      exact hkc c0 (by simp)

theorem pairsOf_ne_nil (L G : Str) : pairsOf L G ≠ [] := by
  unfold pairsOf
  simp

/-- On the writer's own `#EXTINF` line for a safe row, the parser's
pending name/logo/group are exactly the written display name, trimmed
logo and trimmed group. -/
theorem extinfPending_built (r : Row) (h : rowSafe r) :
    extinfPending (extinfLineOf r) =
      (buildName r, pyStrip r.logo, pyStrip r.group) := by
  obtain ⟨hune, hhash, hubrk, hnsp, hnbrk, hgne, hgsafe, hlsafe⟩ := h
  obtain ⟨hbn1, hbn2, hbn3⟩ := buildName_good r
    ⟨hune, hhash, hubrk, hnsp, hnbrk, hgne, hgsafe, hlsafe⟩
  have hLid : esc_attr (pyStrip r.logo) = pyStrip r.logo :=
    esc_attr_id _ (fun d hd => (hlsafe d hd).1) (fun d hd => (hlsafe d hd).2.1)
      (pyStrip_idem _)
  have hGid : esc_attr (pyStrip r.group) = pyStrip r.group :=
    esc_attr_id _ (fun d hd => (hgsafe d hd).1) (fun d hd => (hgsafe d hd).2.1)
      (pyStrip_idem _)
  have hps : ∀ p ∈ pairsOf (pyStrip r.logo) (pyStrip r.group), goodPair p :=
    pairsOf_good _ _
      (fun c hc => hlsafe c hc)
      (fun c hc =>
        ⟨(hgsafe c hc).1, (hgsafe c hc).2.1, (hgsafe c hc).2.2.2.1,
          (hgsafe c hc).2.2.1, (hgsafe c hc).2.2.2.2⟩)
  have hTchars := attrText_chars _ hps
  have hTlast := attrText_last _ hps (pairsOf_ne_nil _ _)
  have hThead := attrText_head _ hps
  have hline : extinfLineOf r =
      ("#EXTINF:".data) ++ (("-1".data) ++ (' ' ::
        (attrTextOf (pairsOf (pyStrip r.logo) (pyStrip r.group)) ++
          (',' :: buildName r)))) := by
    unfold extinfLineOf
    rw [if_pos (buildAttrs_ne_nil r hgne), buildAttrs_flatten r hgne hLid hGid]
    have h10 : ("#EXTINF:-1".data) = ("#EXTINF:".data) ++ ("-1".data) := by
      decide
    rw [h10]
    simp [List.append_assoc]
  have h8 : ("#EXTINF:".data).length = 8 := by decide
  have hdrop : (extinfLineOf r).drop 8 = ("-1".data) ++ (' ' ::
      (attrTextOf (pairsOf (pyStrip r.logo) (pyStrip r.group)) ++
        (',' :: buildName r))) := by
    rw [hline, ← h8, List.drop_left]
  have hrest : pyStrip (("-1".data) ++ (' ' ::
      (attrTextOf (pairsOf (pyStrip r.logo) (pyStrip r.group)) ++
        (',' :: buildName r)))) = ("-1".data) ++ (' ' ::
      (attrTextOf (pairsOf (pyStrip r.logo) (pyStrip r.group)) ++
        (',' :: buildName r))) := by
    apply pyStrip_stable_ends
    · intro c hc
      injection hc with hc
      rw [← hc]
      decide
    · intro c hc
      have hshape : ("-1".data) ++ (' ' ::
          (attrTextOf (pairsOf (pyStrip r.logo) (pyStrip r.group)) ++
            (',' :: buildName r))) =
          (("-1".data) ++ (' ' ::
            (attrTextOf (pairsOf (pyStrip r.logo) (pyStrip r.group)) ++
              ([','] : Str)))) ++ buildName r := by simp
      rw [hshape, List.getLast?_append] at hc
      cases hbl : (buildName r).getLast? with
      | none =>
        rw [hbl] at hc
        cases hbn : buildName r with
        | nil => exact absurd hbn hbn1
        | cons d t =>
          rw [hbn] at hbl
          simp [List.getLast?_eq_none_iff] at hbl
      | some d =>
        rw [hbl] at hc
        injection hc with hc
        rw [← hc]
        exact pyStrip_last_nonspace (buildName r) d (by rw [hbn2]; exact hbl)
  have hcontains : (("-1".data) ++ (' ' ::
      attrTextOf (pairsOf (pyStrip r.logo) (pyStrip r.group)))).contains ',' =
      false := by
    apply contains_false_of
    intro c hc
    rw [List.mem_append] at hc
    rcases hc with hc | hc
    · have : c = '-' ∨ c = '1' := by simpa using hc
      rcases this with rfl | rfl <;> decide
    · rcases List.mem_cons.1 hc with rfl | hc
      · decide
      · exact (hTchars c hc).1
  have hq : splitFirst ',' (("-1".data) ++ (' ' ::
      (attrTextOf (pairsOf (pyStrip r.logo) (pyStrip r.group)) ++
        (',' :: buildName r)))) =
      some ((("-1".data) ++ (' ' ::
        attrTextOf (pairsOf (pyStrip r.logo) (pyStrip r.group)))),
        buildName r) := by
    have hshape : ("-1".data) ++ (' ' ::
        (attrTextOf (pairsOf (pyStrip r.logo) (pyStrip r.group)) ++
          (',' :: buildName r))) =
        (("-1".data) ++ (' ' ::
          attrTextOf (pairsOf (pyStrip r.logo) (pyStrip r.group)))) ++
          (',' :: buildName r) := by simp
    rw [hshape]
    exact splitFirst_append ',' _ _ hcontains
  have hq1strip : pyStrip (("-1".data) ++ (' ' ::
      attrTextOf (pairsOf (pyStrip r.logo) (pyStrip r.group)))) =
      ("-1".data) ++ (' ' ::
        attrTextOf (pairsOf (pyStrip r.logo) (pyStrip r.group))) := by
    apply pyStrip_stable_ends
    · intro c hc
      injection hc with hc
      rw [← hc]
      decide
    · intro c hc
      have hshape : ("-1".data) ++ (' ' ::
          attrTextOf (pairsOf (pyStrip r.logo) (pyStrip r.group))) =
          (("-1".data) ++ ([' '] : Str)) ++
            attrTextOf (pairsOf (pyStrip r.logo) (pyStrip r.group)) := by simp
      rw [hshape, List.getLast?_append, hTlast] at hc
      injection hc with hc
      rw [← hc]
      decide
  have hTstrip : pyStrip
      (attrTextOf (pairsOf (pyStrip r.logo) (pyStrip r.group))) =
      attrTextOf (pairsOf (pyStrip r.logo) (pyStrip r.group)) := by
    apply pyStrip_stable_ends
    · intro c hc
      exact (keyChar_facts c (hThead c hc)).1
    · intro c hc
      rw [hTlast] at hc
      injection hc with hc
      rw [← hc]
      decide
  have hdld : dropLegacyDuration (("-1".data) ++ (' ' ::
      attrTextOf (pairsOf (pyStrip r.logo) (pyStrip r.group)))) =
      attrTextOf (pairsOf (pyStrip r.logo) (pyStrip r.group)) := by
    rw [dropLegacyDuration_drops ("-1".data) _ (by decide)
      (Or.inl ⟨('1' :: []), rfl, by decide, by decide⟩)]
    exact hTstrip
  unfold extinfPending
  dsimp only
  rw [hdrop, hrest, hq]
  dsimp only
  rw [hq1strip, hdld]
  rw [hbn2]
  have hpyor : pyOr (buildName r) (pyStrip (pyOrOpt none (pyOrOpt none []))) =
      buildName r := by
    unfold pyOr
    rw [if_neg hbn1]
  by_cases hL : pyStrip r.logo = []
  · have hattrs : parseM3uAttrs
        (attrTextOf (pairsOf (pyStrip r.logo) (pyStrip r.group))) =
        [(("group-title".data), pyStrip r.group)] := by
      rw [parseM3uAttrs_attrText _ hps (pairsOf_ne_nil _ _)]
      simp [pairsOf, hL, dictInsert, pyStrip_idem,
        (by decide : lowerAscii ("group-title".data) = ("group-title".data))]
    rw [hattrs]
    have hgt : dictGet [(("group-title".data), pyStrip r.group)]
        ("group-title".data) = some (pyStrip r.group) := rfl
    have h1 : dictGet [(("group-title".data), pyStrip r.group)]
        ("tvg-name".data) = none := rfl
    have h2 : dictGet [(("group-title".data), pyStrip r.group)]
        ("tvg-id".data) = none := rfl
    have h3 : dictGet [(("group-title".data), pyStrip r.group)]
        ("tvg-logo".data) = none := rfl
    have h4 : dictGet [(("group-title".data), pyStrip r.group)]
        ("logo".data) = none := rfl
    rw [h1, h2, h3, h4, hgt, hpyor]
    have hgor : pyOrOpt (some (pyStrip r.group))
        (pyOrOpt (dictGet [(("group-title".data), pyStrip r.group)]
          ("group".data)) []) = pyStrip r.group := by
      simp [pyOrOpt, hgne]
    rw [hgor, pyStrip_idem]
    rw [hL]
    rfl
  · have hattrs : parseM3uAttrs
        (attrTextOf (pairsOf (pyStrip r.logo) (pyStrip r.group))) =
        [(("tvg-logo".data), pyStrip r.logo),
          (("group-title".data), pyStrip r.group)] := by
      rw [parseM3uAttrs_attrText _ hps (pairsOf_ne_nil _ _)]
      simp [pairsOf, hL, dictInsert, pyStrip_idem,
        (by decide : lowerAscii ("group-title".data) = ("group-title".data)),
        (by decide : lowerAscii ("tvg-logo".data) = ("tvg-logo".data))]
    rw [hattrs]
    have h1 : dictGet [(("tvg-logo".data), pyStrip r.logo),
        (("group-title".data), pyStrip r.group)] ("tvg-name".data) = none := rfl
    have h2 : dictGet [(("tvg-logo".data), pyStrip r.logo),
        (("group-title".data), pyStrip r.group)] ("tvg-id".data) = none := rfl
    have h3 : dictGet [(("tvg-logo".data), pyStrip r.logo),
        (("group-title".data), pyStrip r.group)] ("tvg-logo".data) =
        some (pyStrip r.logo) := rfl
    have h5 : dictGet [(("tvg-logo".data), pyStrip r.logo),
        (("group-title".data), pyStrip r.group)] ("group-title".data) =
        some (pyStrip r.group) := rfl
    rw [h1, h2, h3, h5, hpyor]
    have hlor : pyOrOpt (some (pyStrip r.logo))
        (pyOrOpt (dictGet [(("tvg-logo".data), pyStrip r.logo),
          (("group-title".data), pyStrip r.group)] ("logo".data)) []) =
        pyStrip r.logo := by
      simp [pyOrOpt, hL]
    have hgor : pyOrOpt (some (pyStrip r.group))
        (pyOrOpt (dictGet [(("tvg-logo".data), pyStrip r.logo),
          (("group-title".data), pyStrip r.group)] ("group".data)) []) =
        pyStrip r.group := by
      simp [pyOrOpt, hgne]
    rw [hlor, hgor, pyStrip_idem, pyStrip_idem]

theorem getLast_append_right {a b : Str} {c : Char} (hb : b ≠ [])
    (h : (a ++ b).getLast? = some c) : b.getLast? = some c := by
  rw [List.getLast?_append] at h
  cases hbl : b.getLast? with
  | none =>
    rw [List.getLast?_eq_none_iff] at hbl
    exact absurd hbl hb
  | some d =>
    rw [hbl] at h
    exact h

theorem extinf_prefix_upper (t : Str) :
    ("#EXTINF".data).isPrefixOf (upperAscii (("#EXTINF:-1".data) ++ t)) =
      true := by
  unfold upperAscii
  rw [List.map_append]
  rfl

theorem extinfLine_nobreak (r : Row) (h : rowSafe r) :
    ∀ c ∈ extinfLineOf r, isLineBreak c = false := by
  obtain ⟨hune, hhash, hubrk, hnsp, hnbrk, hgne, hgsafe, hlsafe⟩ := h
  obtain ⟨hbn1, hbn2, hbn3⟩ := buildName_good r
    ⟨hune, hhash, hubrk, hnsp, hnbrk, hgne, hgsafe, hlsafe⟩
  have hLid : esc_attr (pyStrip r.logo) = pyStrip r.logo :=
    esc_attr_id _ (fun d hd => (hlsafe d hd).1) (fun d hd => (hlsafe d hd).2.1)
      (pyStrip_idem _)
  have hGid : esc_attr (pyStrip r.group) = pyStrip r.group :=
    esc_attr_id _ (fun d hd => (hgsafe d hd).1) (fun d hd => (hgsafe d hd).2.1)
      (pyStrip_idem _)
  have hps : ∀ p ∈ pairsOf (pyStrip r.logo) (pyStrip r.group), goodPair p :=
    pairsOf_good _ _
      (fun c hc => hlsafe c hc)
      (fun c hc =>
        ⟨(hgsafe c hc).1, (hgsafe c hc).2.1, (hgsafe c hc).2.2.2.1,
          (hgsafe c hc).2.2.1, (hgsafe c hc).2.2.2.2⟩)
  intro c hc
  unfold extinfLineOf at hc
  rw [if_pos (buildAttrs_ne_nil r hgne), buildAttrs_flatten r hgne hLid hGid]
    at hc
  rw [List.append_assoc, List.mem_append] at hc
  rcases hc with hc | hc
  · have : ∀ d ∈ ("#EXTINF:-1".data), isLineBreak d = false := by decide
    exact this c hc
  · rw [List.mem_append] at hc
    rcases hc with hc | hc
    · rcases List.mem_cons.1 hc with rfl | hc
      · decide
      · exact (attrText_chars _ hps c hc).2
    · rcases List.mem_cons.1 hc with rfl | hc
      · decide
      · exact hbn3 c hc

theorem extinfLine_strip_stable (r : Row) (h : rowSafe r) :
    pyStrip (extinfLineOf r) = extinfLineOf r := by
  obtain ⟨hbn1, hbn2, _⟩ := buildName_good r h
  obtain ⟨t, ht⟩ : ∃ t, extinfLineOf r = ("#EXTINF:-1".data) ++ t :=
    ⟨(if buildAttrs r ≠ [] then
        ' ' :: ((buildAttrs r).intersperse ([' '])).flatten else []) ++
      (',' :: buildName r),
      by unfold extinfLineOf; simp [List.append_assoc]⟩
  have hu : extinfLineOf r =
      ((("#EXTINF:-1".data) ++
        (if buildAttrs r ≠ [] then
          ' ' :: ((buildAttrs r).intersperse ([' '])).flatten else []) ++
        ([','] : Str))) ++ buildName r := by
    unfold extinfLineOf
    simp
  apply pyStrip_stable_ends
  · intro c hc
    rw [ht] at hc
    have hh : (("#EXTINF:-1".data) ++ t).head? = some '#' := rfl
    rw [hh] at hc
    injection hc with hc
    rw [← hc]
    decide
  · intro c hc
    rw [hu] at hc
    have := getLast_append_right hbn1 hc
    exact pyStrip_last_nonspace (buildName r) c (by rw [hbn2]; exact this)

theorem extinfLine_prefix (r : Row) :
    ("#EXTINF".data).isPrefixOf (upperAscii (extinfLineOf r)) = true := by
  obtain ⟨t, ht⟩ : ∃ t, extinfLineOf r = ("#EXTINF:-1".data) ++ t :=
    ⟨(if buildAttrs r ≠ [] then
        ' ' :: ((buildAttrs r).intersperse ([' '])).flatten else []) ++
      (',' :: buildName r),
      by unfold extinfLineOf; simp [List.append_assoc]⟩
  rw [ht]
  exact extinf_prefix_upper t

theorem step_extinf_built (dg : Str) (st : M3uState) (r : Row)
    (h : rowSafe r) :
    parse_m3u_step dg st (extinfLineOf r) =
      { st with
        curName := buildName r,
        curLogo := pyStrip r.logo,
        curGroup := pyStrip r.group } := by
  have hstrip := extinfLine_strip_stable r h
  have hne : pyStrip (extinfLineOf r) ≠ [] := by
    rw [hstrip]
    obtain ⟨t, ht⟩ : ∃ t, extinfLineOf r = ("#EXTINF:-1".data) ++ t :=
      ⟨(if buildAttrs r ≠ [] then
          ' ' :: ((buildAttrs r).intersperse ([' '])).flatten else []) ++
        (',' :: buildName r),
        by unfold extinfLineOf; simp [List.append_assoc]⟩
    rw [ht]
    simp
  rw [parse_m3u_step_extinf dg st _ hne (by rw [hstrip]; exact extinfLine_prefix r)]
  rw [hstrip, extinfPending_built r h]

theorem step_url_built (dg : Str) (st : M3uState) (r : Row) (h : rowSafe r) :
    parse_m3u_step dg st (pyStrip r.url) =
      ⟨st.rows ++
        [⟨pyOr st.curName (guess_name_from_url (pyStrip r.url) st.idx),
          pyStrip r.url, pyOr st.curGroup dg, pyOr st.curLogo []⟩],
        st.idx + 1, [], [], []⟩ := by
  have hi := pyStrip_idem r.url
  have h1 := parse_m3u_step_url dg st (pyStrip r.url) (by rw [hi]; exact h.1)
    (by rw [hi]; simp [h.2.1])
  rw [hi] at h1
  exact h1

/-- The lines of the writer output after the `#EXTM3U` header: each
record contributes its `#EXTINF` line and its URL line, and records
are separated by one blank line (none after the last). -/
def lineBlocks : List Row → List Str
  | [] => []
  | r :: rest =>
    extinfLineOf r :: pyStrip r.url ::
      (if rest = [] then [] else ([] : Str) :: lineBlocks rest)

theorem go_one_block (cur : Str) (r : Row)
    (he : ∀ c ∈ extinfLineOf r, isLineBreak c = false)
    (hu : ∀ c ∈ pyStrip r.url, isLineBreak c = false) (rest : Str) :
    pySplitlinesGo cur (recordBlock r ++ rest) =
      cur.reverse :: extinfLineOf r :: pyStrip r.url ::
        pySplitlinesGo [] rest := by
  have hshape : recordBlock r ++ rest =
      '\n' :: (extinfLineOf r ++ ('\n' ::
        (pyStrip r.url ++ ('\n' :: rest)))) := by
    unfold recordBlock
    simp
  rw [hshape, go_newline, go_append_nobreak _ he, List.append_nil, go_newline,
    List.reverse_reverse, go_append_nobreak _ hu, List.append_nil, go_newline,
    List.reverse_reverse]

theorem go_flatMap : ∀ (rows : List Row), (∀ r ∈ rows, rowSafe r) →
    rows ≠ [] →
    pySplitlinesGo [] (rows.flatMap recordBlock) =
      ([] : Str) :: lineBlocks rows := by
  intro rows
  induction rows with
  | nil => intro _ hne; exact absurd rfl hne
  | cons r rest ih =>
    intro hs _
    have hr := hs r (by simp)
    rw [List.flatMap_cons,
      go_one_block [] r (extinfLine_nobreak r hr) (fun c hc => hr.2.2.1 c hc) _]
    by_cases hrest : rest = []
    · subst hrest
      rfl
    · rw [ih (fun q hq => hs q (by simp [hq])) hrest]
      conv_rhs => rw [lineBlocks]
      rw [if_neg hrest]
      rfl

theorem splitlines_build (rows : List Row) (hs : ∀ r ∈ rows, rowSafe r) :
    pySplitlines (build_m3u rows) = ("#EXTM3U".data) :: lineBlocks rows := by
  have hfil : rows.filter (fun r => pyStrip r.url ≠ []) = rows :=
    List.filter_eq_self.2 (fun r hr => by simpa using (hs r hr).1)
  rw [build_m3u_lines, hfil]
  cases rows with
  | nil =>
    rw [if_pos rfl]
    decide
  | cons r rest =>
    rw [if_neg (by simp)]
    have hr := hs r (by simp)
    have hgo := go_flatMap (r :: rest) hs (by simp)
    have hsh : (r :: rest).flatMap recordBlock =
        '\n' :: (extinfLineOf r ++ ('\n' ::
          (pyStrip r.url ++ ('\n' :: rest.flatMap recordBlock)))) := by
      rw [List.flatMap_cons]
      unfold recordBlock
      simp
    rw [hsh, go_newline] at hgo
    simp only [List.reverse_nil] at hgo
    have h2 : pySplitlinesGo []
        (extinfLineOf r ++ ('\n' ::
          (pyStrip r.url ++ ('\n' :: rest.flatMap recordBlock)))) =
        lineBlocks (r :: rest) := by
      injection hgo
    unfold pySplitlines
    rw [go_append_nobreak ("#EXTM3U".data) (by decide) [] _, List.append_nil,
      hsh, go_newline, List.reverse_reverse, h2]

theorem step_header (dg : Str) (st : M3uState) :
    parse_m3u_step dg st ("#EXTM3U".data) = st := rfl

theorem step_blank_nil (dg : Str) (st : M3uState) :
    parse_m3u_step dg st [] = st := rfl

theorem fold_lineBlocks (dg : Str) : ∀ (rows : List Row),
    (∀ r ∈ rows, rowSafe r) → ∀ (acc : List Row) (idx : Nat),
    (lineBlocks rows).foldl (parse_m3u_step dg) ⟨acc, idx, [], [], []⟩ =
      ⟨acc ++ rows.map normRow, idx + rows.length, [], [], []⟩ := by
  intro rows
  induction rows with
  | nil =>
    intro _ acc idx
    simp [lineBlocks]
  | cons r rest ih =>
    intro hs acc idx
    have hr := hs r (by simp)
    have hbn1 := (buildName_good r hr).1
    have hgne := hr.2.2.2.2.2.1
    unfold lineBlocks
    rw [List.foldl_cons, step_extinf_built dg _ r hr, List.foldl_cons,
      step_url_built dg _ r hr]
    dsimp only
    have hb1 : pyOr (buildName r)
        (guess_name_from_url (pyStrip r.url) idx) = buildName r := by
      unfold pyOr
      rw [if_neg hbn1]
    have hb2 : pyOr (pyStrip r.group) dg = pyStrip r.group := by
      unfold pyOr
      rw [if_neg hgne]
    rw [hb1, hb2, pyOr_nil_right]
    by_cases hrest : rest = []
    · subst hrest
      rw [if_pos rfl, List.foldl_nil]
      simp [normRow]
    · rw [if_neg hrest, List.foldl_cons, step_blank_nil,
        ih (fun q hq => hs q (by simp [hq])) _ _]
      have hn : idx + 1 + rest.length = idx + (rest.length + 1) := by omega
      simp [normRow, hn]

/-- Parsing the writer's output of safe rows yields exactly the
normalized rows. -/
theorem parse_build (dg : Str) (rows : List Row)
    (hs : ∀ r ∈ rows, rowSafe r) :
    parse_m3u_text (build_m3u rows) dg = rows.map normRow := by
  unfold parse_m3u_text
  rw [splitlines_build rows hs, List.foldl_cons, step_header,
    fold_lineBlocks dg rows hs [] 1]
  simp

theorem normRow_buildLines (r : Row) (h : rowSafe r) :
    buildRecordLines (normRow r) = buildRecordLines r := by
  obtain ⟨hbn1, hbn2, _⟩ := buildName_good r h
  have hbn : buildName (normRow r) = buildName r := by
    show (if pyStrip (normRow r).name = [] then
        guess_name_from_url (pyStrip (normRow r).url) 1
      else pyStrip (normRow r).name) = buildName r
    dsimp only [normRow]
    rw [hbn2, if_neg hbn1]
  have hba : buildAttrs (normRow r) = buildAttrs r := by
    simp [buildAttrs, normRow, pyStrip_idem]
  have hext : extinfLineOf (normRow r) = extinfLineOf r := by
    unfold extinfLineOf
    rw [hba, hbn]
  rw [buildRecordLines_eq, buildRecordLines_eq, hext]
  simp [normRow, pyStrip_idem]

theorem flatMap_norm : ∀ (rows : List Row), (∀ r ∈ rows, rowSafe r) →
    (rows.map normRow).flatMap buildRecordLines =
      rows.flatMap buildRecordLines := by
  intro rows
  induction rows with
  | nil => intro _; rfl
  | cons r rest ih =>
    intro hs
    rw [List.map_cons, List.flatMap_cons, List.flatMap_cons,
      normRow_buildLines r (hs r (by simp)),
      ih (fun q hq => hs q (by simp [hq]))]

theorem build_map_normRow (rows : List Row) (hs : ∀ r ∈ rows, rowSafe r) :
    build_m3u (rows.map normRow) = build_m3u rows := by
  unfold build_m3u
  rw [flatMap_norm rows hs]

/-- C7 counterexample: the claim's side conditions (non-empty URLs,
no escaping-ambiguous characters in name/group) are not sufficient.
A record with an EMPTY group is written without a `group-title`
attribute, and the re-parse fills in the default group, so the record
`("A", "http://x", "", "")` does not survive a build/parse cycle: the
reparsed tuple and the rebuilt text both differ. -/
theorem iptv_C7_counterexample :
    (∀ r ∈ [(⟨("A".data), ("http://x".data), [], []⟩ : Row)],
      pyStrip r.url ≠ [] ∧
      (∀ c ∈ r.name, c ≠ '"' ∧ c ≠ '\\') ∧
      (∀ c ∈ r.group, c ≠ '"' ∧ c ≠ '\\')) ∧
    parse_m3u_text
        (build_m3u [(⟨("A".data), ("http://x".data), [], []⟩ : Row)])
        ("IPTV".data) ≠
      [(⟨("A".data), ("http://x".data), [], []⟩ : Row)] ∧
    build_m3u (parse_m3u_text
        (build_m3u [(⟨("A".data), ("http://x".data), [], []⟩ : Row)])
        ("IPTV".data)) ≠
      build_m3u [(⟨("A".data), ("http://x".data), [], []⟩ : Row)] := by
  decide

/-- C7 (amended): the build/parse/build round-trip is the identity on
the writer output — and the middle parse yields exactly the normalized
records — for rows that are SAFE in the following sense: trimmed URL
nonempty, not starting with `#`, free of line breaks (and of all
whitespace when the trimmed name is empty, since then the guessed
display name must round-trip); trimmed name free of line breaks;
trimmed group NONEMPTY (the claim misses this condition: an empty
group is replaced by the caller's default group on re-parse); trimmed
group and logo free of quote, backslash, equals sign, comma and line
breaks.  Under these conditions
`parse_m3u_text (build_m3u rows) dg` is `rows.map normRow` — the same
effective tuples, with name replaced by the written display name and
the other fields trimmed — and
`build_m3u (parse_m3u_text (build_m3u rows) dg) = build_m3u rows`. -/
theorem iptv_C7 (dg : Str) (rows : List Row)
    (hs : ∀ r ∈ rows, rowSafe r) :
    parse_m3u_text (build_m3u rows) dg = rows.map normRow ∧
    build_m3u (parse_m3u_text (build_m3u rows) dg) = build_m3u rows := by
  have h1 := parse_build dg rows hs
  refine ⟨h1, ?_⟩
  rw [h1, build_map_normRow rows hs]

theorem iptv_C7_witness :
    (∀ r ∈ [(⟨("A".data), ("http://x".data), ("G".data), []⟩ : Row)],
      rowSafe r) ∧
    (parse_m3u_text
        (build_m3u [(⟨("A".data), ("http://x".data), ("G".data), []⟩ : Row)])
        ("IPTV".data) =
      ([(⟨("A".data), ("http://x".data), ("G".data), []⟩ : Row)]).map normRow ∧
    build_m3u (parse_m3u_text
        (build_m3u [(⟨("A".data), ("http://x".data), ("G".data), []⟩ : Row)])
        ("IPTV".data)) =
      build_m3u [(⟨("A".data), ("http://x".data), ("G".data), []⟩ : Row)]) :=
  ⟨by decide, iptv_C7 ("IPTV".data) _ (by decide)⟩

/-! Embedding of the stream probe (src/iptv_editor/checks.py,
StreamCheckTask.run).  Network effects are supplied by an oracle: the
outcome of the HEAD and ranged-GET requests (an exception or a
response), the decoded first chunk of the GET body, whether the
`requests` library is importable, and the elapsed-milliseconds reading.
Every exception site of the source is wrapped in a handler, which the
embedding mirrors by consuming the oracle's `Except` values. -/

/-- Python substring test `needle in hay`. -/
def strContains (needle : Str) : Str → Bool
  | [] => needle.isPrefixOf ([] : Str)
  | c :: rest => needle.isPrefixOf (c :: rest) || strContains needle rest

/-- Python `str(i)` for an integer. -/
def intRepr (i : Int) : Str :=
  if i < 0 then '-' :: natDigits i.natAbs else natDigits i.toNat

/-- Result record of a stream check (checks.py lines 13-18). -/
structure StreamCheckResult where
  ok : Bool
  status : Str
  detail : Str
  ms : Int
deriving DecidableEq

/-- A network request the probe may issue. -/
inductive NetCall where
  | head
  | get
deriving DecidableEq

/-- Response fields of a request used by the probe. -/
structure HttpResp where
  statusCode : Int
  contentType : Option Str
deriving DecidableEq

/-- Oracle for the probe's effects. -/
structure NetOracle where
  requestsAvailable : Bool
  headResp : Except Str HttpResp
  getResp : Except Str HttpResp
  textHead : Str
  elapsedMs : Int

def resOk (ms : Int) (detail : Str) : StreamCheckResult :=
  ⟨true, ("OK".data), detail, ms⟩

def resFail (ms : Int) (detail : Str) : StreamCheckResult :=
  ⟨false, ("FAIL".data), detail, ms⟩

def resUnknown (ms : Int) (detail : Str) : StreamCheckResult :=
  ⟨false, ("UNKNOWN".data), detail, ms⟩

/-- The HEAD shortcut (checks.py lines 72-87): a 2xx/3xx response with
an M3U or video-like Content-Type returns OK immediately; any other
response, and any exception, falls through to the ranged GET. -/
def headQuick : Except Str HttpResp → Int → Option StreamCheckResult
  | .error _, _ => none
  | .ok r, ms =>
    let code := r.statusCode
    let ctype := lowerAscii (pyOrOpt r.contentType [])
    if 200 ≤ code ∧ code < 400 then
      if strContains ("application/vnd.apple.mpegurl".data) ctype ||
          strContains ("application/x-mpegurl".data) ctype then
        some (resOk ms (("HEAD ".data) ++ intRepr code ++ ' ' :: ctype))
      else if ("video/".data).isPrefixOf ctype ||
          strContains ("octet-stream".data) ctype ||
          strContains ("mpeg".data) ctype then
        some (resOk ms (("HEAD ".data) ++ intRepr code ++ ' ' :: ctype))
      else none
    else none

/-- The ranged GET (checks.py lines 89-133), including the enclosing
`except` that maps any raised exception to a FAIL result. -/
def rangeGet (o : NetOracle) : StreamCheckResult :=
  match o.getResp with
  | .error e => resFail o.elapsedMs (("Error: ".data) ++ e)
  | .ok r2 =>
    let code2 := r2.statusCode
    let ctype2 := lowerAscii (pyOrOpt r2.contentType [])
    if (200 ≤ code2 ∧ code2 < 400) ∨ code2 = 206 then
      if strContains ("#EXTM3U".data) (o.textHead.take 2048) then
        resOk o.elapsedMs
          (("GET ".data) ++ intRepr code2 ++ (" looks like M3U8".data))
      else if ("video/".data).isPrefixOf ctype2 ||
          strContains ("mpeg".data) ctype2 ||
          strContains ("octet-stream".data) ctype2 then
        resOk o.elapsedMs (("GET ".data) ++ intRepr code2 ++ ' ' :: ctype2)
      else
        resUnknown o.elapsedMs (("GET ".data) ++ intRepr code2 ++
          (" Uncertain Content-Type: ".data) ++ ctype2)
    else resFail o.elapsedMs (("HTTP ".data) ++ intRepr code2)

/-- Embedding of `StreamCheckTask.run` (checks.py lines 33-133),
returning the emitted result and the list of network requests issued. -/
def stream_check_run (o : NetOracle) (url0 : Str) :
    StreamCheckResult × List NetCall :=
  let url := pyStrip url0
  if url = [] then (resFail 0 ("Empty URL".data), [])
  else
    let scheme :=
      match urlsplitE url with
      | .ok p => lowerAscii p.scheme
      | .error _ => []
    if scheme ≠ [] ∧ scheme ≠ ("http".data) ∧ scheme ≠ ("https".data) then
      (resUnknown o.elapsedMs (("Non-HTTP scheme: ".data) ++ scheme), [])
    else if o.requestsAvailable = false then
      (resUnknown o.elapsedMs ("requests not installed".data), [])
    else
      match headQuick o.headResp o.elapsedMs with
      | some res => (res, [NetCall.head])
      | none => (rangeGet o, [NetCall.head, NetCall.get])

theorem headQuick_classified (resp : Except Str HttpResp) (ms : Int)
    (res : StreamCheckResult) (h : headQuick resp ms = some res) :
    res.status = ("OK".data) ∧ res.ok = true := by
  unfold headQuick at h
  split at h
  · cases h
  · dsimp only at h
    split at h
    · split at h
      · injection h with h
        rw [← h]
        exact ⟨rfl, rfl⟩
      · split at h
        · injection h with h
          rw [← h]
          exact ⟨rfl, rfl⟩
        · cases h
    · cases h

theorem rangeGet_classified (o : NetOracle) :
    ((rangeGet o).status = ("OK".data) ∧ (rangeGet o).ok = true) ∨
    ((rangeGet o).status = ("FAIL".data) ∧ (rangeGet o).ok = false) ∨
    ((rangeGet o).status = ("UNKNOWN".data) ∧ (rangeGet o).ok = false) := by
  unfold rangeGet
  split
  · exact Or.inr (Or.inl ⟨rfl, rfl⟩)
  · dsimp only
    split
    · split
      · exact Or.inl ⟨rfl, rfl⟩
      · split
        · exact Or.inl ⟨rfl, rfl⟩
        · exact Or.inr (Or.inr ⟨rfl, rfl⟩)
    · exact Or.inr (Or.inl ⟨rfl, rfl⟩)

/-- C9: probe early exits and no-escape classification.  (1) An empty
(or whitespace-only) URL yields the FAIL classification — the code's
name for UNREACHABLE — with detail "Empty URL", 0 ms, and no network
call.  (2) A URL whose parsed scheme is present and is neither `http`
nor `https` yields the UNKNOWN classification — the code's
INDETERMINATE — with detail "Non-HTTP scheme: {scheme}" and no network
call.  (3) Every invocation terminates in exactly one result whose
status is OK (with ok = true), FAIL or UNKNOWN (with ok = false);
every exception site is consumed by a handler, so no exception escapes
the probe. -/
theorem iptv_C9 :
    (∀ (o : NetOracle) (url0 : Str), pyStrip url0 = [] →
      stream_check_run o url0 =
        (⟨false, ("FAIL".data), ("Empty URL".data), 0⟩, [])) ∧
    (∀ (o : NetOracle) (url0 : Str) (p : UrlParts),
      pyStrip url0 ≠ [] →
      urlsplitE (pyStrip url0) = .ok p →
      lowerAscii p.scheme ≠ [] →
      lowerAscii p.scheme ≠ ("http".data) →
      lowerAscii p.scheme ≠ ("https".data) →
      stream_check_run o url0 =
        (⟨false, ("UNKNOWN".data),
          ("Non-HTTP scheme: ".data) ++ lowerAscii p.scheme,
          o.elapsedMs⟩, [])) ∧
    (∀ (o : NetOracle) (url0 : Str),
      ((stream_check_run o url0).1.status = ("OK".data) ∧
        (stream_check_run o url0).1.ok = true) ∨
      ((stream_check_run o url0).1.status = ("FAIL".data) ∧
        (stream_check_run o url0).1.ok = false) ∨
      ((stream_check_run o url0).1.status = ("UNKNOWN".data) ∧
        (stream_check_run o url0).1.ok = false)) := by
  refine ⟨?_, ?_, ?_⟩
  · intro o url0 h
    unfold stream_check_run
    dsimp only
    rw [if_pos h]
    rfl
  · intro o url0 p hne hsplit h1 h2 h3
    unfold stream_check_run
    dsimp only
    rw [if_neg hne, hsplit]
    dsimp only
    rw [if_pos ⟨h1, h2, h3⟩]
    rfl
  · intro o url0
    unfold stream_check_run
    dsimp only
    split
    · exact Or.inr (Or.inl ⟨rfl, rfl⟩)
    · split
      · exact Or.inr (Or.inr ⟨rfl, rfl⟩)
      · split
        · exact Or.inr (Or.inr ⟨rfl, rfl⟩)
        · split
          · rename_i res heq
            dsimp only
            exact Or.inl (headQuick_classified o.headResp o.elapsedMs res heq)
          · dsimp only
            exact rangeGet_classified o

theorem iptv_C9_witness :
    stream_check_run ⟨true, .ok ⟨200, none⟩, .ok ⟨200, none⟩, [], 5⟩
        (" ".data) =
      (⟨false, ("FAIL".data), ("Empty URL".data), 0⟩, []) ∧
    stream_check_run ⟨true, .ok ⟨200, none⟩, .ok ⟨200, none⟩, [], 5⟩
        ("rtmp://h/x".data) =
      (⟨false, ("UNKNOWN".data),
        ("Non-HTTP scheme: ".data) ++
          lowerAscii (UrlParts.mk ("rtmp".data) ("h".data) ("/x".data)).scheme,
        5⟩, []) ∧
    (((stream_check_run ⟨true, .ok ⟨200, none⟩, .ok ⟨200, none⟩, [], 5⟩
        ("http://h/x".data)).1.status = ("OK".data) ∧
      (stream_check_run ⟨true, .ok ⟨200, none⟩, .ok ⟨200, none⟩, [], 5⟩
        ("http://h/x".data)).1.ok = true) ∨
    ((stream_check_run ⟨true, .ok ⟨200, none⟩, .ok ⟨200, none⟩, [], 5⟩
        ("http://h/x".data)).1.status = ("FAIL".data) ∧
      (stream_check_run ⟨true, .ok ⟨200, none⟩, .ok ⟨200, none⟩, [], 5⟩
        ("http://h/x".data)).1.ok = false) ∨
    ((stream_check_run ⟨true, .ok ⟨200, none⟩, .ok ⟨200, none⟩, [], 5⟩
        ("http://h/x".data)).1.status = ("UNKNOWN".data) ∧
      (stream_check_run ⟨true, .ok ⟨200, none⟩, .ok ⟨200, none⟩, [], 5⟩
        ("http://h/x".data)).1.ok = false)) :=
  ⟨iptv_C9.1 _ _ (by decide),
    iptv_C9.2.1 _ _ (UrlParts.mk ("rtmp".data) ("h".data) ("/x".data))
      (by decide) (by rfl) (by decide) (by decide) (by decide),
    iptv_C9.2.2 _ _⟩

/-! Embedding of the project container (src/iptv_editor/project.py).
Bytes are naturals below 256.  UTF-8 and base64 are implemented in
full; `zlib.compress(·, level=9)` / `zlib.decompress` are modelled
abstractly as a two-byte zlib header (`0x78 0xDA`, the header a
level-9 stream carries) followed by the raw bytes, with `decompress`
failing (zlib.error) on anything that does not carry the header; only
the round-trip and the failure on non-zlib data are relied upon. -/

/-- UTF-8 encoding of one character. -/
def utf8EncodeChar (c : Char) : List Nat :=
  let n := c.toNat
  if n < 0x80 then [n]
  else if n < 0x800 then [0xC0 + n / 64, 0x80 + n % 64]
  else if n < 0x10000 then
    [0xE0 + n / 4096, 0x80 + (n / 64) % 64, 0x80 + n % 64]
  else
    [0xF0 + n / 0x40000, 0x80 + (n / 4096) % 64, 0x80 + (n / 64) % 64,
      0x80 + n % 64]

/-- Model of `str.encode("utf-8")`. -/
def utf8Encode (s : Str) : List Nat := s.flatMap utf8EncodeChar

/-- Model of `bytes.decode("utf-8")`: `none` on malformed input
(UnicodeDecodeError): stray continuation bytes, truncated sequences,
overlong encodings, surrogates and out-of-range code points are
rejected. -/
def utf8Decode : List Nat → Option Str
  | [] => some []
  | b :: rest =>
    if b < 0x80 then (utf8Decode rest).map (fun t => Char.ofNat b :: t)
    else if b < 0xC2 then none
    else if b < 0xE0 then
      match rest with
      | [] => none
      | b2 :: rest2 =>
        if 0x80 ≤ b2 ∧ b2 < 0xC0 then
          (utf8Decode rest2).map
            (fun t => Char.ofNat ((b - 0xC0) * 64 + (b2 - 0x80)) :: t)
        else none
    else if b < 0xF0 then
      match rest with
      | [] => none
      | b2 :: rtl =>
        match rtl with
        | [] => none
        | b3 :: rest2 =>
          if (0x80 ≤ b2 ∧ b2 < 0xC0) ∧ (0x80 ≤ b3 ∧ b3 < 0xC0) then
            let n := (b - 0xE0) * 4096 + (b2 - 0x80) * 64 + (b3 - 0x80)
            if n < 0x800 ∨ (0xD800 ≤ n ∧ n < 0xE000) then none
            else (utf8Decode rest2).map (fun t => Char.ofNat n :: t)
          else none
    else if b < 0xF5 then
      match rest with
      | [] => none
      | b2 :: rtl =>
        match rtl with
        | [] => none
        | b3 :: rtl2 =>
          match rtl2 with
          | [] => none
          | b4 :: rest2 =>
            if (0x80 ≤ b2 ∧ b2 < 0xC0) ∧ (0x80 ≤ b3 ∧ b3 < 0xC0) ∧
                (0x80 ≤ b4 ∧ b4 < 0xC0) then
              let n := (b - 0xF0) * 0x40000 + (b2 - 0x80) * 4096 +
                (b3 - 0x80) * 64 + (b4 - 0x80)
              if n < 0x10000 ∨ 0x110000 ≤ n then none
              else (utf8Decode rest2).map (fun t => Char.ofNat n :: t)
            else none
    else none

theorem char_toNat_lt (c : Char) : c.toNat < 0x110000 ∧
    ¬(0xD800 ≤ c.toNat ∧ c.toNat < 0xE000) := by
  have hc : c.toNat = c.val.toNat := rfl
  rcases c.valid with h | ⟨h1, h2⟩
  · constructor <;> omega
  · constructor <;> omega

theorem utf8_roundtrip (s : Str) : utf8Decode (utf8Encode s) = some s := by
  induction s with
  | nil => rfl
  | cons c cs ih =>
    have hvalid := char_toNat_lt c
    have hofNat : Char.ofNat c.toNat = c := Char.ofNat_toNat c
    have hE : cs.flatMap utf8EncodeChar = utf8Encode cs := rfl
    show utf8Decode ((c :: cs).flatMap utf8EncodeChar) = some (c :: cs)
    by_cases h1 : c.toNat < 0x80
    · have hchunk : utf8EncodeChar c = [c.toNat] := by
        unfold utf8EncodeChar
        rw [if_pos h1]
      rw [List.flatMap_cons, hchunk]
      simp only [List.cons_append, List.nil_append]
      unfold utf8Decode
      rw [if_pos h1, hE, ih, Option.map_some', hofNat]
    · by_cases h2 : c.toNat < 0x800
      · have hchunk : utf8EncodeChar c =
            [0xC0 + c.toNat / 64, 0x80 + c.toNat % 64] := by
          unfold utf8EncodeChar
          rw [if_neg h1, if_pos h2]
        rw [List.flatMap_cons, hchunk]
        simp only [List.cons_append, List.nil_append]
        unfold utf8Decode
        rw [if_neg (by omega), if_neg (by omega), if_pos (by omega)]
        dsimp only
        rw [if_pos (by constructor <;> omega)]
        have hn : (0xC0 + c.toNat / 64 - 0xC0) * 64 +
            (0x80 + c.toNat % 64 - 0x80) = c.toNat := by omega
        rw [hn, hE, ih, Option.map_some', hofNat]
      · by_cases h3 : c.toNat < 0x10000
        · have hchunk : utf8EncodeChar c =
              [0xE0 + c.toNat / 4096, 0x80 + (c.toNat / 64) % 64,
                0x80 + c.toNat % 64] := by
            unfold utf8EncodeChar
            rw [if_neg h1, if_neg h2, if_pos h3]
          rw [List.flatMap_cons, hchunk]
          simp only [List.cons_append, List.nil_append]
          unfold utf8Decode
          rw [if_neg (by omega), if_neg (by omega), if_neg (by omega),
            if_pos (by omega)]
          dsimp only
          rw [if_pos (by refine ⟨⟨?_, ?_⟩, ?_, ?_⟩ <;> omega)]
          have hn : (0xE0 + c.toNat / 4096 - 0xE0) * 4096 +
              (0x80 + c.toNat / 64 % 64 - 0x80) * 64 +
              (0x80 + c.toNat % 64 - 0x80) = c.toNat := by omega
          rw [hn, if_neg (by omega), hE, ih, Option.map_some', hofNat]
        · have hchunk : utf8EncodeChar c =
              [0xF0 + c.toNat / 0x40000, 0x80 + (c.toNat / 4096) % 64,
                0x80 + (c.toNat / 64) % 64, 0x80 + c.toNat % 64] := by
            unfold utf8EncodeChar
            rw [if_neg h1, if_neg h2, if_neg h3]
          rw [List.flatMap_cons, hchunk]
          simp only [List.cons_append, List.nil_append]
          unfold utf8Decode
          rw [if_neg (by omega), if_neg (by omega), if_neg (by omega),
            if_neg (by omega), if_pos (by omega)]
          dsimp only
          rw [if_pos (by refine ⟨⟨?_, ?_⟩, ⟨?_, ?_⟩, ?_, ?_⟩ <;> omega)]
          have hn : (0xF0 + c.toNat / 0x40000 - 0xF0) * 0x40000 +
              (0x80 + c.toNat / 4096 % 64 - 0x80) * 4096 +
              (0x80 + c.toNat / 64 % 64 - 0x80) * 64 +
              (0x80 + c.toNat % 64 - 0x80) = c.toNat := by omega
          rw [hn, if_neg (by omega), hE, ih, Option.map_some', hofNat]

theorem utf8Encode_lt (s : Str) : ∀ b ∈ utf8Encode s, b < 256 := by
  intro b hb
  unfold utf8Encode at hb
  rw [List.mem_flatMap] at hb
  obtain ⟨c, _, hb⟩ := hb
  have hup := (char_toNat_lt c).1
  unfold utf8EncodeChar at hb
  dsimp only at hb
  split at hb
  · simp only [List.mem_singleton] at hb
    omega
  · split at hb
    · simp only [List.mem_cons, List.not_mem_nil, or_false] at hb
      rcases hb with rfl | rfl <;> omega
    · split at hb
      · simp only [List.mem_cons, List.not_mem_nil, or_false] at hb
        rcases hb with rfl | rfl | rfl <;> omega
      · simp only [List.mem_cons, List.not_mem_nil, or_false] at hb
        rcases hb with rfl | rfl | rfl | rfl <;> omega

/-- Character of the standard base64 alphabet at index `n < 64`. -/
def b64Char (n : Nat) : Char :=
  if n < 26 then Char.ofNat (65 + n)
  else if n < 52 then Char.ofNat (97 + (n - 26))
  else if n < 62 then Char.ofNat (48 + (n - 52))
  else if n = 62 then '+' else '/'

/-- Index of a character in the standard base64 alphabet. -/
def b64Val (c : Char) : Option Nat :=
  let n := c.toNat
  if 65 ≤ n ∧ n ≤ 90 then some (n - 65)
  else if 97 ≤ n ∧ n ≤ 122 then some (n - 97 + 26)
  else if 48 ≤ n ∧ n ≤ 57 then some (n - 48 + 52)
  else if c = '+' then some 62
  else if c = '/' then some 63
  else none

/-- Model of `base64.b64encode` on bytes. -/
def b64Encode : List Nat → Str
  | [] => []
  | [a] => [b64Char (a / 4), b64Char ((a % 4) * 16), '=', '=']
  | [a, b] =>
    [b64Char (a / 4), b64Char ((a % 4) * 16 + b / 16),
      b64Char ((b % 16) * 4), '=']
  | a :: b :: c :: rest =>
    b64Char (a / 4) :: b64Char ((a % 4) * 16 + b / 16) ::
      b64Char ((b % 16) * 4 + c / 64) :: b64Char (c % 64) ::
        b64Encode rest

/-- Quad loop of the base64 decoder: the input length must be a
multiple of four, `=` padding may only close the final quad. -/
def b64DecodeGo : Str → Option (List Nat)
  | [] => some []
  | c1 :: c2 :: c3 :: c4 :: rest =>
    match b64Val c1, b64Val c2 with
    | some v1, some v2 =>
      if c3 = '=' ∧ c4 = '=' ∧ rest = [] then
        some [v1 * 4 + v2 / 16]
      else if c4 = '=' ∧ rest = [] then
        match b64Val c3 with
        | some v3 => some [v1 * 4 + v2 / 16, (v2 % 16) * 16 + v3 / 4]
        | none => none
      else
        match b64Val c3, b64Val c4 with
        | some v3, some v4 =>
          (b64DecodeGo rest).map
            (fun tl => (v1 * 4 + v2 / 16) :: ((v2 % 16) * 16 + v3 / 4) ::
              ((v3 % 4) * 64 + v4) :: tl)
        | _, _ => none
    | _, _ => none
  | _ => none

/-- Model of `base64.b64decode` (default non-validating mode):
characters outside the alphabet and `=` are discarded, then the
remainder is decoded in quads; `none` is the binascii.Error raised on
a bad length or padding.  (The source's strict rejection of non-ASCII
input by `.encode("ascii")` is subsumed in the `none` case.) -/
def b64Decode (s : Str) : Option (List Nat) :=
  b64DecodeGo (s.filter (fun c => (b64Val c).isSome || c = '='))

theorem b64Val_b64Char : ∀ n, n < 64 → b64Val (b64Char n) = some n := by
  decide

theorem b64Char_keep : ∀ n, n < 64 →
    ((b64Val (b64Char n)).isSome || b64Char n = '=') = true := by
  decide

theorem b64Char_ne_pad : ∀ n, n < 64 → b64Char n ≠ '=' := by
  decide

theorem b64Encode_keep : ∀ (bs : List Nat), (∀ b ∈ bs, b < 256) →
    ∀ c ∈ b64Encode bs, ((b64Val c).isSome || c = '=') = true := by
  intro bs
  induction bs using b64Encode.induct with
  | case1 =>
    intro _ c hc
    cases hc
  | case2 a =>
    intro hb c hc
    have ha := hb a (by simp)
    unfold b64Encode at hc
    rcases List.mem_cons.1 hc with rfl | hc
    · exact b64Char_keep _ (by omega)
    · rcases List.mem_cons.1 hc with rfl | hc
      · exact b64Char_keep _ (by omega)
      · rcases List.mem_cons.1 hc with rfl | hc
        · decide
        · rcases List.mem_cons.1 hc with rfl | hc
          · decide
          · cases hc
  | case3 a b =>
    intro hb c hc
    have ha := hb a (by simp)
    have hbb := hb b (by simp)
    unfold b64Encode at hc
    rcases List.mem_cons.1 hc with rfl | hc
    · exact b64Char_keep _ (by omega)
    · rcases List.mem_cons.1 hc with rfl | hc
      · exact b64Char_keep _ (by omega)
      · rcases List.mem_cons.1 hc with rfl | hc
        · exact b64Char_keep _ (by omega)
        · rcases List.mem_cons.1 hc with rfl | hc
          · decide
          · cases hc
  | case4 a b d rest ih =>
    intro hb c hc
    have ha := hb a (by simp)
    have hbb := hb b (by simp)
    have hd := hb d (by simp)
    unfold b64Encode at hc
    rcases List.mem_cons.1 hc with rfl | hc
    · exact b64Char_keep _ (by omega)
    · rcases List.mem_cons.1 hc with rfl | hc
      · exact b64Char_keep _ (by omega)
      · rcases List.mem_cons.1 hc with rfl | hc
        · exact b64Char_keep _ (by omega)
        · rcases List.mem_cons.1 hc with rfl | hc
          · exact b64Char_keep _ (by omega)
          · exact ih (fun x hx => hb x (by simp [hx])) c hc

theorem b64_roundtrip : ∀ (bs : List Nat), (∀ b ∈ bs, b < 256) →
    b64Decode (b64Encode bs) = some bs := by
  have hgo : ∀ (bs : List Nat), (∀ b ∈ bs, b < 256) →
      b64DecodeGo (b64Encode bs) = some bs := by
    intro bs
    induction bs using b64Encode.induct with
    | case1 =>
      intro _
      rfl
    | case2 a =>
      intro hb
      have ha := hb a (by simp)
      unfold b64Encode b64DecodeGo
      rw [b64Val_b64Char _ (by omega), b64Val_b64Char _ (by omega)]
      dsimp only
      rw [if_pos ⟨rfl, rfl, rfl⟩]
      have h1 : a / 4 * 4 + a % 4 * 16 / 16 = a := by omega
      rw [h1]
    | case3 a b =>
      intro hb
      have ha := hb a (by simp)
      have hbb := hb b (by simp)
      unfold b64Encode b64DecodeGo
      rw [b64Val_b64Char _ (by omega), b64Val_b64Char _ (by omega),
        b64Val_b64Char _ (by omega)]
      dsimp only
      rw [if_neg (fun hcon => absurd hcon.1 (b64Char_ne_pad _ (by omega))),
        if_pos ⟨rfl, rfl⟩]
      have h1 : a / 4 * 4 + (a % 4 * 16 + b / 16) / 16 = a := by omega
      have h2 : (a % 4 * 16 + b / 16) % 16 * 16 + b % 16 * 4 / 4 = b := by
        omega
      rw [h1, h2]
    | case4 a b d rest ih =>
      intro hb
      have ha := hb a (by simp)
      have hbb := hb b (by simp)
      have hd := hb d (by simp)
      unfold b64Encode b64DecodeGo
      rw [b64Val_b64Char _ (by omega), b64Val_b64Char _ (by omega),
        b64Val_b64Char _ (by omega), b64Val_b64Char _ (by omega)]
      dsimp only
      rw [if_neg (fun hcon => absurd hcon.1 (b64Char_ne_pad _ (by omega))),
        if_neg (fun hcon => absurd hcon.1 (b64Char_ne_pad _ (by omega)))]
      rw [ih (fun x hx => hb x (by simp [hx]))]
      have h1 : a / 4 * 4 + (a % 4 * 16 + b / 16) / 16 = a := by omega
      have h2 : (a % 4 * 16 + b / 16) % 16 * 16 +
          (b % 16 * 4 + d / 64) / 4 = b := by omega
      have h3 : (b % 16 * 4 + d / 64) % 4 * 64 + d % 64 = d := by omega
      rw [h1, h2, h3, Option.map_some']
  intro bs hb
  unfold b64Decode
  rw [List.filter_eq_self.2 (b64Encode_keep bs hb), hgo bs hb]

/-- Modelled `zlib.compress(raw, level=9)`: the two-byte header a
level-9 stream carries followed by the raw bytes. -/
def zlibCompress (b : List Nat) : List Nat := 0x78 :: 0xDA :: b

/-- Modelled `zlib.decompress`: inverse of the compression model;
`none` is the `zlib.error` raised on data without a zlib header. -/
def zlibDecompress : List Nat → Option (List Nat)
  | 0x78 :: 0xDA :: rest => some rest
  | _ => none

theorem zlib_roundtrip (b : List Nat) :
    zlibDecompress (zlibCompress b) = some b := rfl

/-- JSON values as produced and consumed by the project container:
strings, integers, arrays and objects suffice for its payload. -/
inductive Json where
  | str (s : Str)
  | int (i : Int)
  | arr (xs : List Json)
  | obj (ps : List (Str × Json))

/-- Lowercase hex digit. -/
def hexDigit (n : Nat) : Char :=
  if n < 10 then Char.ofNat (48 + n) else Char.ofNat (87 + n)

/-- Value of a hex digit (either case). -/
def parseHex (c : Char) : Option Nat :=
  if 48 ≤ c.toNat ∧ c.toNat ≤ 57 then some (c.toNat - 48)
  else if 97 ≤ c.toNat ∧ c.toNat ≤ 102 then some (c.toNat - 87)
  else if 65 ≤ c.toNat ∧ c.toNat ≤ 70 then some (c.toNat - 55)
  else none

/-- JSON string escaping of one character as `json.dumps` with
`ensure_ascii=False` performs it: quote, backslash and the named
control escapes, `\u00xx` (lowercase hex) for other controls, every
other character verbatim. -/
def escChar (c : Char) : Str :=
  if c = '"' then ['\\', '"']
  else if c = '\\' then ['\\', '\\']
  else if c = '\n' then ['\\', 'n']
  else if c = '\r' then ['\\', 'r']
  else if c = '\t' then ['\\', 't']
  else if c.toNat = 8 then ['\\', 'b']
  else if c.toNat = 12 then ['\\', 'f']
  else if c.toNat < 32 then
    ['\\', 'u', '0', '0', hexDigit (c.toNat / 16), hexDigit (c.toNat % 16)]
  else [c]

mutual

/-- Model of `json.dumps(·, ensure_ascii=False)` with the default
separators `", "` and `": "` and insertion-ordered keys. -/
def jsonDumps : Json → Str
  | .str s => '"' :: ((s.flatMap escChar) ++ ['"'])
  | .int i => intRepr i
  | .arr xs => '[' :: (jsonDumpsArr xs ++ [']'])
  | .obj ps => '{' :: (jsonDumpsObj ps ++ ['}'])

def jsonDumpsArr : List Json → Str
  | [] => []
  | [x] => jsonDumps x
  | x :: y :: rest => jsonDumps x ++ (',' :: ' ' :: jsonDumpsArr (y :: rest))

def jsonDumpsObj : List (Str × Json) → Str
  | [] => []
  | [(k, v)] =>
    '"' :: ((k.flatMap escChar) ++ ('"' :: ':' :: ' ' :: jsonDumps v))
  | (k, v) :: p :: rest =>
    ('"' :: ((k.flatMap escChar) ++ ('"' :: ':' :: ' ' :: jsonDumps v))) ++
      (',' :: ' ' :: jsonDumpsObj (p :: rest))

end

/-- JSON insignificant whitespace. -/
def skipWs (s : Str) : Str :=
  s.dropWhile (fun c => c = ' ' || c = '\t' || c = '\n' || c = '\r')

/-- Head test of a string. -/
def headIs (c : Char) : Str → Bool
  | [] => false
  | d :: _ => d = c

/-- Tail of a string (empty for empty). -/
def tailOf : Str → Str
  | [] => []
  | _ :: t => t

/-- String-body scanner of the JSON parser (`py_scanstring`), entered
after the opening quote: named escapes, `\uXXXX` (surrogates
rejected — the paired-surrogate path of the source is not modelled),
raw control characters rejected (`strict=True`). -/
def parseStringGo : Str → Option (Str × Str)
  | [] => none
  | c :: rest =>
    if c = '"' then some ([], rest)
    else if c = '\\' then
      match rest with
      | [] => none
      | e :: rest1 =>
        if e = 'u' then
          match rest1 with
          | [] => none
          | h1 :: rtl1 =>
            match rtl1 with
            | [] => none
            | h2 :: rtl2 =>
              match rtl2 with
              | [] => none
              | h3 :: rtl3 =>
                match rtl3 with
                | [] => none
                | h4 :: rest2 =>
                  match parseHex h1, parseHex h2, parseHex h3, parseHex h4 with
                  | some a, some b, some cc, some d =>
                    let code := ((a * 16 + b) * 16 + cc) * 16 + d
                    if 0xD800 ≤ code ∧ code < 0xE000 then none
                    else (parseStringGo rest2).map
                      (fun p => (Char.ofNat code :: p.1, p.2))
                  | _, _, _, _ => none
        else
          match (if e = '"' then some '"' else if e = '\\' then some '\\'
            else if e = '/' then some '/' else if e = 'n' then some '\n'
            else if e = 't' then some '\t' else if e = 'r' then some '\r'
            else if e = 'b' then some (Char.ofNat 8)
            else if e = 'f' then some (Char.ofNat 12) else none) with
          | some c2 => (parseStringGo rest1).map (fun p => (c2 :: p.1, p.2))
          | none => none
    else if c.toNat < 32 then none
    else (parseStringGo rest).map (fun p => (c :: p.1, p.2))

/-- Digit run of the JSON number scanner, restricted to integers (the
only numbers the container emits). -/
def parseNatDigits (s : Str) : Option (Nat × Str) :=
  let ds := s.takeWhile Char.isDigit
  if ds = [] then none
  else some (ds.foldl (fun a c => a * 10 + (c.toNat - 48)) 0,
    s.dropWhile Char.isDigit)

def parseInt : Str → Option (Int × Str)
  | [] => none
  | c :: rest =>
    if c = '-' then (parseNatDigits rest).map (fun p => (-(p.1 : Int), p.2))
    else (parseNatDigits (c :: rest)).map (fun p => ((p.1 : Int), p.2))

mutual

/-- Recursive-descent JSON value parser (model of `json.loads`'s
scanner on the string/integer/array/object fragment), with fuel
consumed at each nesting/iterating step. -/
def parseJsonGo : Nat → Str → Option (Json × Str)
  | 0, _ => none
  | fuel + 1, s0 =>
    match skipWs s0 with
    | [] => none
    | c :: rest =>
      if c = '"' then
        match parseStringGo rest with
        | some (t, r) => some (.str t, r)
        | none => none
      else if c = '[' then
        if headIs ']' (skipWs rest) then some (.arr [], tailOf (skipWs rest))
        else
          match parseArrItems fuel rest with
          | some (xs, r) => some (.arr xs, r)
          | none => none
      else if c = '{' then
        if headIs '}' (skipWs rest) then some (.obj [], tailOf (skipWs rest))
        else
          match parseObjItems fuel rest with
          | some (ps, r) => some (.obj ps, r)
          | none => none
      else
        match parseInt (c :: rest) with
        | some (i, r) => some (.int i, r)
        | none => none

def parseArrItems : Nat → Str → Option (List Json × Str)
  | 0, _ => none
  | fuel + 1, s =>
    match parseJsonGo fuel s with
    | some (j, r) =>
      match skipWs r with
      | [] => none
      | c :: r2 =>
        if c = ',' then
          match parseArrItems fuel r2 with
          | some (js, r3) => some (j :: js, r3)
          | none => none
        else if c = ']' then some ([j], r2)
        else none
    | none => none

def parseObjItems : Nat → Str → Option (List (Str × Json) × Str)
  | 0, _ => none
  | fuel + 1, s =>
    match skipWs s with
    | [] => none
    | c :: r0 =>
      if c = '"' then
        match parseStringGo r0 with
        | some (k, r1) =>
          match skipWs r1 with
          | [] => none
          | c2 :: r2 =>
            if c2 = ':' then
              match parseJsonGo fuel r2 with
              | some (v, r3) =>
                match skipWs r3 with
                | [] => none
                | c3 :: r4 =>
                  if c3 = ',' then
                    match parseObjItems fuel r4 with
                    | some (ps, r5) => some ((k, v) :: ps, r5)
                    | none => none
                  else if c3 = '}' then some ([(k, v)], r4)
                  else none
              | none => none
            else none
        | none => none
      else none

end

/-- Model of `json.loads` on the container's JSON fragment: parse one
value, then require only whitespace to follow. -/
def jsonLoads (txt : Str) : Option Json :=
  match parseJsonGo (txt.length + 1) txt with
  | some (j, rest) => if skipWs rest = [] then some j else none
  | none => none

theorem natDigitsAux_congr : ∀ (m f1 f2 : Nat), m < f1 → m < f2 →
    natDigitsAux f1 m = natDigitsAux f2 m := by
  intro m
  induction m using Nat.strong_induction_on with
  | _ m ih =>
    intro f1 f2 h1 h2
    cases f1 with
    | zero => omega
    | succ g1 =>
      cases f2 with
      | zero => omega
      | succ g2 =>
        unfold natDigitsAux
        by_cases hm : m < 10
        · rw [if_pos hm, if_pos hm]
        · rw [if_neg hm, if_neg hm,
            ih (m / 10) (by omega) g1 g2 (by omega) (by omega)]

theorem natDigits_unfold (m : Nat) : natDigits m =
    if m < 10 then [Char.ofNat (48 + m)]
    else natDigits (m / 10) ++ [Char.ofNat (48 + m % 10)] := by
  unfold natDigits
  conv_lhs => rw [natDigitsAux]
  by_cases hm : m < 10
  · rw [if_pos hm, if_pos hm]
  · rw [if_neg hm, if_neg hm,
      natDigitsAux_congr (m / 10) m (m / 10 + 1) (by omega) (by omega)]

theorem digitChar_spec (k : Nat) (h : k < 10) :
    (Char.ofNat (48 + k)).isDigit = true ∧
      (Char.ofNat (48 + k)).toNat = 48 + k := by
  interval_cases k <;> exact (by decide)

theorem natDigits_spec : ∀ m : Nat, natDigits m ≠ [] ∧
    (∀ c ∈ natDigits m, c.isDigit = true) ∧
    ∀ (a : Nat),
      (natDigits m).foldl (fun a c => a * 10 + (c.toNat - 48)) a =
        a * 10 ^ (natDigits m).length + m := by
  intro m
  induction m using Nat.strong_induction_on with
  | _ m ih =>
    by_cases hm : m < 10
    · rw [natDigits_unfold, if_pos hm]
      refine ⟨by simp, ?_, ?_⟩
      · intro c hc
        rcases List.mem_singleton.1 hc with rfl
        exact (digitChar_spec m hm).1
      · intro a
        simp only [List.foldl_cons, List.foldl_nil, List.length_singleton,
          pow_one]
        rw [(digitChar_spec m hm).2]
        omega
    · rw [natDigits_unfold, if_neg hm]
      obtain ⟨hne, hdig, hval⟩ := ih (m / 10) (by omega)
      refine ⟨by simp, ?_, ?_⟩
      · intro c hc
        rw [List.mem_append] at hc
        rcases hc with hc | hc
        · exact hdig c hc
        · rcases List.mem_singleton.1 hc with rfl
          exact (digitChar_spec (m % 10) (by omega)).1
      · intro a
        rw [List.foldl_append, hval a]
        simp only [List.foldl_cons, List.foldl_nil, List.length_append,
          List.length_singleton]
        rw [(digitChar_spec (m % 10) (by omega)).2, pow_succ, ← Nat.mul_assoc]
        set Q := a * 10 ^ (natDigits (m / 10)).length with hQ
        omega

theorem parseNatDigits_natDigits (m : Nat) (rest : Str)
    (hr : ∀ c, rest.head? = some c → c.isDigit = false) :
    parseNatDigits (natDigits m ++ rest) = some (m, rest) := by
  obtain ⟨hne, hdig, hval⟩ := natDigits_spec m
  have ht : (natDigits m ++ rest).takeWhile Char.isDigit = natDigits m := by
    rw [takeWhile_append_all _ _ _ hdig]
    cases rest with
    | nil => simp
    | cons c t =>
      rw [List.takeWhile_cons_of_neg (by simp [hr c rfl])]
      simp
  have hd : (natDigits m ++ rest).dropWhile Char.isDigit = rest := by
    rw [dropWhile_append_all _ _ _ hdig]
    cases rest with
    | nil => rfl
    | cons c t => rw [List.dropWhile_cons_of_neg (by simp [hr c rfl])]
  unfold parseNatDigits
  dsimp only
  rw [ht, hd, if_neg hne]
  have := hval 0
  simp only [Nat.zero_mul, Nat.zero_add] at this
  rw [this]

theorem parseInt_intRepr (i : Int) (rest : Str)
    (hr : ∀ c, rest.head? = some c → c.isDigit = false) :
    parseInt (intRepr i ++ rest) = some (i, rest) := by
  unfold intRepr
  by_cases hi : i < 0
  · rw [if_pos hi, List.cons_append]
    unfold parseInt
    dsimp only
    rw [if_pos rfl, parseNatDigits_natDigits _ _ hr, Option.map_some']
    simp only [Option.some.injEq, Prod.mk.injEq]
    exact ⟨by omega, trivial⟩
  · rw [if_neg hi]
    obtain ⟨hne, hdig, _⟩ := natDigits_spec i.toNat
    cases hnd : natDigits i.toNat with
    | nil => exact absurd hnd hne
    | cons c t =>
      unfold parseInt
      have hcdig : c.isDigit = true := hdig c (by rw [hnd]; simp)
      have hcne : ¬(c = '-') := by
        intro h
        subst h
        exact absurd hcdig (by decide)
      split
      next heq => simp at heq
      next c2 r2 heq =>
        injection heq with h1 h2
        subst h1
        subst h2
        rw [if_neg hcne]
        show Option.map (fun p => ((p.1 : Int), p.2))
          (parseNatDigits ((c :: t) ++ rest)) = some (i, rest)
        rw [← hnd, parseNatDigits_natDigits _ _ hr, Option.map_some']
        simp only [Option.some.injEq, Prod.mk.injEq]
        exact ⟨by omega, trivial⟩

theorem parseHex_hexDigit : ∀ n, n < 16 → parseHex (hexDigit n) = some n := by
  decide

theorem parseStringGo_namedEscape (e c2 : Char) (t : Str)
    (h : (if e = '"' then some '"' else if e = '\\' then some '\\'
      else if e = '/' then some '/' else if e = 'n' then some '\n'
      else if e = 't' then some '\t' else if e = 'r' then some '\r'
      else if e = 'b' then some (Char.ofNat 8)
      else if e = 'f' then some (Char.ofNat 12) else none) = some c2)
    (hu : ¬(e = 'u')) :
    parseStringGo ('\\' :: e :: t) =
      (parseStringGo t).map (fun p => (c2 :: p.1, p.2)) := by
  conv_lhs => rw [parseStringGo.eq_def]
  dsimp only
  rw [if_neg (by decide), if_pos rfl, if_neg hu, h]
  try dsimp only

theorem parseStringGo_escape (s : Str) (rest : Str) :
    parseStringGo ((s.flatMap escChar) ++ ('"' :: rest)) = some (s, rest) := by
  induction s with
  | nil =>
    rw [List.flatMap_nil, List.nil_append]
    unfold parseStringGo
    rw [if_pos rfl]
  | cons c cs ih =>
    rw [List.flatMap_cons, List.append_assoc]
    have hofNat : Char.ofNat c.toNat = c := Char.ofNat_toNat c
    by_cases h1 : c = '"'
    · subst h1
      rw [show escChar '"' = ['\\', '"'] from rfl]
      simp only [List.cons_append, List.nil_append]
      rw [parseStringGo_namedEscape '"' '"' _ rfl (by decide), ih,
        Option.map_some']
    · by_cases h2 : c = '\\'
      · subst h2
        rw [show escChar '\\' = ['\\', '\\'] from rfl]
        simp only [List.cons_append, List.nil_append]
        rw [parseStringGo_namedEscape '\\' '\\' _ rfl (by decide), ih,
          Option.map_some']
      · by_cases h3 : c = '\n'
        · subst h3
          rw [show escChar '\n' = ['\\', 'n'] from rfl]
          simp only [List.cons_append, List.nil_append]
          rw [parseStringGo_namedEscape 'n' '\n' _ rfl (by decide), ih,
            Option.map_some']
        · by_cases h4 : c = '\r'
          · subst h4
            rw [show escChar '\r' = ['\\', 'r'] from rfl]
            simp only [List.cons_append, List.nil_append]
            rw [parseStringGo_namedEscape 'r' '\r' _ rfl (by decide), ih,
              Option.map_some']
          · by_cases h5 : c = '\t'
            · subst h5
              rw [show escChar '\t' = ['\\', 't'] from rfl]
              simp only [List.cons_append, List.nil_append]
              rw [parseStringGo_namedEscape 't' '\t' _ rfl (by decide), ih,
                Option.map_some']
            · by_cases h6 : c.toNat = 8
              · have hc : c = Char.ofNat 8 := by rw [← h6, hofNat]
                subst hc
                rw [show escChar (Char.ofNat 8) = ['\\', 'b'] from rfl]
                simp only [List.cons_append, List.nil_append]
                rw [parseStringGo_namedEscape 'b' (Char.ofNat 8) _ rfl
                  (by decide), ih, Option.map_some']
              · by_cases h7 : c.toNat = 12
                · have hc : c = Char.ofNat 12 := by rw [← h7, hofNat]
                  subst hc
                  rw [show escChar (Char.ofNat 12) = ['\\', 'f'] from rfl]
                  simp only [List.cons_append, List.nil_append]
                  rw [parseStringGo_namedEscape 'f' (Char.ofNat 12) _ rfl
                    (by decide), ih, Option.map_some']
                · by_cases h8 : c.toNat < 32
                  · have hch : escChar c = ['\\', 'u', '0', '0',
                        hexDigit (c.toNat / 16), hexDigit (c.toNat % 16)] := by
                      unfold escChar
                      rw [if_neg h1, if_neg h2, if_neg h3, if_neg h4,
                        if_neg h5, if_neg h6, if_neg h7, if_pos h8]
                    rw [hch]
                    simp only [List.cons_append, List.nil_append]
                    conv_lhs => rw [parseStringGo.eq_def]
                    dsimp only
                    rw [if_neg (by decide), if_pos rfl, if_pos rfl,
                      show parseHex '0' = some 0 from rfl,
                      parseHex_hexDigit _ (by omega),
                      parseHex_hexDigit _ (by omega)]
                    try dsimp only
                    have hcode : ((0 * 16 + 0) * 16 + c.toNat / 16) * 16 +
                        c.toNat % 16 = c.toNat := by omega
                    rw [hcode, if_neg (by omega), ih, Option.map_some', hofNat]
                  · have hch : escChar c = [c] := by
                      unfold escChar
                      rw [if_neg h1, if_neg h2, if_neg h3, if_neg h4,
                        if_neg h5, if_neg h6, if_neg h7, if_neg h8]
                    rw [hch]
                    simp only [List.cons_append, List.nil_append]
                    conv_lhs => rw [parseStringGo.eq_def]
                    dsimp only
                    rw [if_neg h1, if_neg h2, if_neg h8, ih, Option.map_some']

theorem skipWs_cons_neg (c : Char) (s : Str)
    (h : (c = ' ' ∨ c = '\t' ∨ c = '\n' ∨ c = '\r') → False) :
    skipWs (c :: s) = c :: s := by
  unfold skipWs
  rw [List.dropWhile_cons_of_neg (by simp; tauto)]

theorem skipWs_cons_space (s : Str) : skipWs (' ' :: s) = skipWs s := by
  unfold skipWs
  rw [List.dropWhile_cons_of_pos (by decide)]

theorem parseJsonGo_ws (fuel : Nat) (s : Str) :
    parseJsonGo fuel (' ' :: s) = parseJsonGo fuel s := by
  cases fuel with
  | zero => rfl
  | succ f =>
    unfold parseJsonGo
    rw [skipWs_cons_space]

theorem parseArrItems_ws (fuel : Nat) (s : Str) :
    parseArrItems fuel (' ' :: s) = parseArrItems fuel s := by
  cases fuel with
  | zero => rfl
  | succ f =>
    unfold parseArrItems
    rw [parseJsonGo_ws]

theorem parseObjItems_ws (fuel : Nat) (s : Str) :
    parseObjItems fuel (' ' :: s) = parseObjItems fuel s := by
  cases fuel with
  | zero => rfl
  | succ f =>
    unfold parseObjItems
    rw [skipWs_cons_space]

/-- A value-text inverts under the JSON parser with the given fuel
bound, for any following text not starting with a digit. -/
def InvertsAt (n : Nat) (j : Json) : Prop :=
  ∀ (rest : Str) (fuel : Nat), n ≤ fuel →
    (∀ c, rest.head? = some c → c.isDigit = false) →
    parseJsonGo fuel (jsonDumps j ++ rest) = some (j, rest)

theorem inv_mono {n m : Nat} {j : Json} (h : InvertsAt n j) (hnm : n ≤ m) :
    InvertsAt m j :=
  fun rest fuel hf hr => h rest fuel (le_trans hnm hf) hr

theorem inv_str (s : Str) : InvertsAt 1 (.str s) := by
  intro rest fuel hf hr
  cases fuel with
  | zero => omega
  | succ f =>
    show parseJsonGo (f + 1) (('"' :: ((s.flatMap escChar) ++ ['"'])) ++ rest) =
      some (.str s, rest)
    have hsh : ('"' :: ((s.flatMap escChar) ++ ['"'])) ++ rest =
        '"' :: ((s.flatMap escChar) ++ ('"' :: rest)) := by simp
    rw [hsh]
    unfold parseJsonGo
    rw [skipWs_cons_neg _ _ (by decide)]
    dsimp only
    rw [if_pos rfl, parseStringGo_escape s rest]

theorem intRepr_head (i : Int) : ∃ c t, intRepr i = c :: t ∧
    (c.isDigit = true ∨ c = '-') := by
  unfold intRepr
  by_cases hi : i < 0
  · rw [if_pos hi]
    exact ⟨'-', _, rfl, Or.inr rfl⟩
  · rw [if_neg hi]
    obtain ⟨hne, hdig, _⟩ := natDigits_spec i.toNat
    cases hnd : natDigits i.toNat with
    | nil => exact absurd hnd hne
    | cons c t =>
      exact ⟨c, t, rfl, Or.inl (hdig c (by rw [hnd]; simp))⟩

theorem intHead_facts (c : Char) (h : c.isDigit = true ∨ c = '-') :
    ((c = ' ' ∨ c = '\t' ∨ c = '\n' ∨ c = '\r') → False) ∧
      ¬(c = '"') ∧ ¬(c = '[') ∧ ¬(c = '{') := by
  rcases h with h | rfl
  · have hb := isDigit_bounds c h
    refine ⟨?_, ?_, ?_, ?_⟩ <;> intro hc
    · rcases hc with rfl | rfl | rfl | rfl <;> revert hb <;> decide
    · subst hc; revert hb; decide
    · subst hc; revert hb; decide
    · subst hc; revert hb; decide
  · exact ⟨by decide, by decide, by decide, by decide⟩

theorem inv_int (i : Int) : InvertsAt 1 (.int i) := by
  intro rest fuel hf hr
  cases fuel with
  | zero => omega
  | succ f =>
    obtain ⟨c, t, hct, hcd⟩ := intRepr_head i
    obtain ⟨hws, hq, hbr, hbc⟩ := intHead_facts c hcd
    show parseJsonGo (f + 1) (intRepr i ++ rest) = some (.int i, rest)
    rw [hct, List.cons_append]
    unfold parseJsonGo
    rw [skipWs_cons_neg _ _ hws]
    dsimp only
    rw [if_neg hq, if_neg hbr, if_neg hbc, ← List.cons_append, ← hct,
      parseInt_intRepr i rest hr]

theorem dumps_head_ne (j : Json) : ∃ c t, jsonDumps j = c :: t ∧
    ((c = ' ' ∨ c = '\t' ∨ c = '\n' ∨ c = '\r') → False) ∧
    ¬(c = ']') ∧ ¬(c = '}') := by
  cases j with
  | str s => exact ⟨'"', _, rfl, by decide, by decide, by decide⟩
  | arr xs => exact ⟨'[', _, rfl, by decide, by decide, by decide⟩
  | obj ps => exact ⟨'{', _, rfl, by decide, by decide, by decide⟩
  | int i =>
    obtain ⟨c, t, hct, hcd⟩ := intRepr_head i
    refine ⟨c, t, hct, ?_, ?_, ?_⟩
    · rcases hcd with h | rfl
      · have hb := isDigit_bounds c h
        intro hc
        rcases hc with rfl | rfl | rfl | rfl <;> revert hb <;> decide
      · decide
    · rcases hcd with h | rfl
      · have hb := isDigit_bounds c h
        intro hc
        subst hc
        revert hb
        decide
      · decide
    · rcases hcd with h | rfl
      · have hb := isDigit_bounds c h
        intro hc
        subst hc
        revert hb
        decide
      · decide

/-- Inversion of the array-item loop for a fixed item list. -/
def ItemsInv (n : Nat) (xs : List Json) : Prop :=
  ∀ (rest : Str) (fuel : Nat), n ≤ fuel →
    (∀ c, rest.head? = some c → c.isDigit = false) →
    parseArrItems fuel (jsonDumpsArr xs ++ (']' :: rest)) = some (xs, rest)

/-- Inversion of the object-pair loop for a fixed pair list. -/
def PairsInv (n : Nat) (ps : List (Str × Json)) : Prop :=
  ∀ (rest : Str) (fuel : Nat), n ≤ fuel →
    (∀ c, rest.head? = some c → c.isDigit = false) →
    parseObjItems fuel (jsonDumpsObj ps ++ ('}' :: rest)) = some (ps, rest)

theorem items_single (j : Json) (n : Nat) (hj : InvertsAt n j) :
    ItemsInv (n + 1) [j] := by
  intro rest fuel hf hr
  cases fuel with
  | zero => omega
  | succ f =>
    unfold parseArrItems
    have hjs : jsonDumpsArr [j] = jsonDumps j := rfl
    rw [hjs, hj (']' :: rest) f (by omega)
      (by intro c hc; injection hc with hc; rw [← hc]; decide)]
    dsimp only
    rw [skipWs_cons_neg _ _ (by decide)]
    dsimp only
    rw [if_neg (by decide), if_pos rfl]

theorem items_cons (j y : Json) (tl : List Json) (n m : Nat)
    (hj : InvertsAt n j) (htl : ItemsInv m (y :: tl)) :
    ItemsInv (n + m + 1) (j :: y :: tl) := by
  intro rest fuel hf hr
  cases fuel with
  | zero => omega
  | succ f =>
    have hsh : jsonDumpsArr (j :: y :: tl) ++ (']' :: rest) =
        jsonDumps j ++ (',' :: ' ' ::
          (jsonDumpsArr (y :: tl) ++ (']' :: rest))) := by
      rw [show jsonDumpsArr (j :: y :: tl) =
        jsonDumps j ++ (',' :: ' ' :: jsonDumpsArr (y :: tl)) from rfl]
      simp
    rw [hsh]
    unfold parseArrItems
    rw [hj _ f (by omega)
      (by intro c hc; injection hc with hc; rw [← hc]; decide)]
    dsimp only
    rw [skipWs_cons_neg _ _ (by decide)]
    dsimp only
    rw [if_pos rfl, parseArrItems_ws, htl rest f (by omega) hr]

theorem inv_arr_nil : InvertsAt 1 (.arr []) := by
  intro rest fuel hf hr
  cases fuel with
  | zero => omega
  | succ f =>
    show parseJsonGo (f + 1) (('[' :: (jsonDumpsArr [] ++ [']'])) ++ rest) =
      some (.arr [], rest)
    have hsh : ('[' :: (jsonDumpsArr [] ++ [']'])) ++ rest =
        '[' :: ']' :: rest := by
      rw [show jsonDumpsArr [] = [] from rfl]
      simp
    rw [hsh]
    unfold parseJsonGo
    rw [skipWs_cons_neg _ _ (by decide)]
    dsimp only
    rw [if_neg (by decide), if_pos rfl, skipWs_cons_neg _ _ (by decide)]
    rw [show headIs ']' (']' :: rest) = true from by simp [headIs]]
    rw [if_pos rfl]
    rfl

theorem inv_arr (x0 : Json) (tl0 : List Json) (n : Nat)
    (hxs : ItemsInv n (x0 :: tl0)) : InvertsAt (n + 1) (.arr (x0 :: tl0)) := by
  intro rest fuel hf hr
  cases fuel with
  | zero => omega
  | succ f =>
    obtain ⟨c, t, hdump, hnws, hnb, _⟩ := dumps_head_ne x0
    have hhead : ∃ T, jsonDumpsArr (x0 :: tl0) ++ (']' :: rest) = c :: T := by
      cases tl0 with
      | nil =>
        refine ⟨t ++ (']' :: rest), ?_⟩
        rw [show jsonDumpsArr [x0] = jsonDumps x0 from rfl, hdump]
        simp
      | cons y tl =>
        refine ⟨(t ++ (',' :: ' ' :: jsonDumpsArr (y :: tl))) ++
          (']' :: rest), ?_⟩
        rw [show jsonDumpsArr (x0 :: y :: tl) =
          jsonDumps x0 ++ (',' :: ' ' :: jsonDumpsArr (y :: tl)) from rfl,
          hdump]
        simp
    obtain ⟨T, hT⟩ := hhead
    show parseJsonGo (f + 1)
      (('[' :: (jsonDumpsArr (x0 :: tl0) ++ [']'])) ++ rest) =
      some (.arr (x0 :: tl0), rest)
    have hsh : ('[' :: (jsonDumpsArr (x0 :: tl0) ++ [']'])) ++ rest =
        '[' :: (jsonDumpsArr (x0 :: tl0) ++ (']' :: rest)) := by simp
    rw [hsh]
    unfold parseJsonGo
    rw [skipWs_cons_neg _ _ (by decide)]
    dsimp only
    rw [if_neg (by decide), if_pos rfl, hT, skipWs_cons_neg _ _ hnws,
      show headIs ']' (c :: T) = false from by simp [headIs, hnb],
      if_neg (by decide), ← hT, hxs rest f (by omega) hr]

theorem pairs_single (k : Str) (v : Json) (n : Nat) (hv : InvertsAt n v) :
    PairsInv (n + 1) [(k, v)] := by
  intro rest fuel hf hr
  cases fuel with
  | zero => omega
  | succ f =>
    have hsh : jsonDumpsObj [(k, v)] ++ ('}' :: rest) =
        '"' :: ((k.flatMap escChar) ++ ('"' :: (':' :: ' ' ::
          (jsonDumps v ++ ('}' :: rest))))) := by
      rw [show jsonDumpsObj [(k, v)] =
        '"' :: ((k.flatMap escChar) ++ ('"' :: ':' :: ' ' :: jsonDumps v))
        from rfl]
      simp
    rw [hsh]
    unfold parseObjItems
    rw [skipWs_cons_neg _ _ (by decide)]
    dsimp only
    rw [if_pos rfl, parseStringGo_escape]
    dsimp only
    rw [skipWs_cons_neg _ _ (by decide)]
    dsimp only
    rw [if_pos rfl, parseJsonGo_ws, hv _ f (by omega)
      (by intro c hc; injection hc with hc; rw [← hc]; decide)]
    dsimp only
    rw [skipWs_cons_neg _ _ (by decide)]
    dsimp only
    rw [if_neg (by decide), if_pos rfl]

theorem pairs_cons (k : Str) (v : Json) (p : Str × Json)
    (tl : List (Str × Json)) (n m : Nat)
    (hv : InvertsAt n v) (htl : PairsInv m (p :: tl)) :
    PairsInv (n + m + 1) ((k, v) :: p :: tl) := by
  intro rest fuel hf hr
  cases fuel with
  | zero => omega
  | succ f =>
    have hsh : jsonDumpsObj ((k, v) :: p :: tl) ++ ('}' :: rest) =
        '"' :: ((k.flatMap escChar) ++ ('"' :: (':' :: ' ' ::
          (jsonDumps v ++ (',' :: ' ' ::
            (jsonDumpsObj (p :: tl) ++ ('}' :: rest))))))) := by
      rw [show jsonDumpsObj ((k, v) :: p :: tl) =
        ('"' :: ((k.flatMap escChar) ++
          ('"' :: ':' :: ' ' :: jsonDumps v))) ++
          (',' :: ' ' :: jsonDumpsObj (p :: tl)) from rfl]
      simp
    rw [hsh]
    unfold parseObjItems
    rw [skipWs_cons_neg _ _ (by decide)]
    dsimp only
    rw [if_pos rfl, parseStringGo_escape]
    dsimp only
    rw [skipWs_cons_neg _ _ (by decide)]
    dsimp only
    rw [if_pos rfl, parseJsonGo_ws, hv _ f (by omega)
      (by intro c hc; injection hc with hc; rw [← hc]; decide)]
    dsimp only
    rw [skipWs_cons_neg _ _ (by decide)]
    dsimp only
    rw [if_pos rfl, parseObjItems_ws, htl rest f (by omega) hr]

theorem inv_obj (k0 : Str) (v0 : Json) (tl0 : List (Str × Json)) (n : Nat)
    (hps : PairsInv n ((k0, v0) :: tl0)) :
    InvertsAt (n + 1) (.obj ((k0, v0) :: tl0)) := by
  intro rest fuel hf hr
  cases fuel with
  | zero => omega
  | succ f =>
    have hhead : ∃ T, jsonDumpsObj ((k0, v0) :: tl0) ++ ('}' :: rest) =
        '"' :: T := by
      cases tl0 with
      | nil =>
        refine ⟨((k0.flatMap escChar) ++
          ('"' :: ':' :: ' ' :: jsonDumps v0)) ++ ('}' :: rest), ?_⟩
        rw [show jsonDumpsObj [(k0, v0)] =
          '"' :: ((k0.flatMap escChar) ++
            ('"' :: ':' :: ' ' :: jsonDumps v0)) from rfl]
        rw [List.cons_append]
      | cons p tl =>
        refine ⟨(((k0.flatMap escChar) ++
          ('"' :: ':' :: ' ' :: jsonDumps v0)) ++
          (',' :: ' ' :: jsonDumpsObj (p :: tl))) ++ ('}' :: rest), ?_⟩
        rw [show jsonDumpsObj ((k0, v0) :: p :: tl) =
          ('"' :: ((k0.flatMap escChar) ++
            ('"' :: ':' :: ' ' :: jsonDumps v0))) ++
            (',' :: ' ' :: jsonDumpsObj (p :: tl)) from rfl]
        rw [List.cons_append, List.cons_append]
    obtain ⟨T, hT⟩ := hhead
    show parseJsonGo (f + 1)
      (('{' :: (jsonDumpsObj ((k0, v0) :: tl0) ++ ['}'])) ++ rest) =
      some (.obj ((k0, v0) :: tl0), rest)
    have hsh : ('{' :: (jsonDumpsObj ((k0, v0) :: tl0) ++ ['}'])) ++ rest =
        '{' :: (jsonDumpsObj ((k0, v0) :: tl0) ++ ('}' :: rest)) := by simp
    rw [hsh]
    unfold parseJsonGo
    rw [skipWs_cons_neg _ _ (by decide)]
    dsimp only
    rw [if_neg (by decide), if_neg (by decide), if_pos rfl, hT,
      skipWs_cons_neg _ _ (by decide),
      show headIs '}' ('"' :: T) = false from by simp [headIs],
      if_neg (by decide), ← hT, hps rest f (by omega) hr]

theorem items_mono {n m : Nat} {xs : List Json} (h : ItemsInv n xs)
    (hnm : n ≤ m) : ItemsInv m xs :=
  fun rest fuel hf hr => h rest fuel (le_trans hnm hf) hr

theorem pairs_mono {n m : Nat} {ps : List (Str × Json)} (h : PairsInv n ps)
    (hnm : n ≤ m) : PairsInv m ps :=
  fun rest fuel hf hr => h rest fuel (le_trans hnm hf) hr

theorem dumps_len_pos (j : Json) : 1 ≤ (jsonDumps j).length := by
  obtain ⟨c, t, hct, _, _, _⟩ := dumps_head_ne j
  rw [hct]
  simp

theorem inv_str_len (s : Str) :
    InvertsAt ((jsonDumps (.str s)).length) (.str s) :=
  inv_mono (inv_str s) (dumps_len_pos _)

theorem inv_int_len (i : Int) :
    InvertsAt ((jsonDumps (.int i)).length) (.int i) :=
  inv_mono (inv_int i) (dumps_len_pos _)

theorem pairs_single_len (k : Str) (v : Json)
    (hv : InvertsAt ((jsonDumps v).length) v) :
    PairsInv ((jsonDumpsObj [(k, v)]).length + 1) [(k, v)] := by
  refine pairs_mono (pairs_single k v _ hv) ?_
  rw [show jsonDumpsObj [(k, v)] =
    '"' :: ((k.flatMap escChar) ++ ('"' :: ':' :: ' ' :: jsonDumps v))
    from rfl]
  simp only [List.length_cons, List.length_append]
  omega

theorem pairs_cons_len (k : Str) (v : Json) (p : Str × Json)
    (tl : List (Str × Json))
    (hv : InvertsAt ((jsonDumps v).length) v)
    (htl : PairsInv ((jsonDumpsObj (p :: tl)).length + 1) (p :: tl)) :
    PairsInv ((jsonDumpsObj ((k, v) :: p :: tl)).length + 1)
      ((k, v) :: p :: tl) := by
  refine pairs_mono (pairs_cons k v p tl _ _ hv htl) ?_
  rw [show jsonDumpsObj ((k, v) :: p :: tl) =
    ('"' :: ((k.flatMap escChar) ++ ('"' :: ':' :: ' ' :: jsonDumps v))) ++
      (',' :: ' ' :: jsonDumpsObj (p :: tl)) from rfl]
  simp only [List.length_cons, List.length_append]
  omega

theorem inv_obj_len (k0 : Str) (v0 : Json) (tl0 : List (Str × Json))
    (hps : PairsInv ((jsonDumpsObj ((k0, v0) :: tl0)).length + 1)
      ((k0, v0) :: tl0)) :
    InvertsAt ((jsonDumps (.obj ((k0, v0) :: tl0))).length)
      (.obj ((k0, v0) :: tl0)) := by
  refine inv_mono (inv_obj k0 v0 tl0 _ hps) ?_
  rw [show jsonDumps (.obj ((k0, v0) :: tl0)) =
    '{' :: (jsonDumpsObj ((k0, v0) :: tl0) ++ ['}']) from rfl]
  simp only [List.length_cons, List.length_append, List.length_singleton]
  omega

theorem items_single_len (j : Json)
    (hj : InvertsAt ((jsonDumps j).length) j) :
    ItemsInv ((jsonDumpsArr [j]).length + 1) [j] := by
  refine items_mono (items_single j _ hj) ?_
  rw [show jsonDumpsArr [j] = jsonDumps j from rfl]

theorem items_cons_len (j y : Json) (tl : List Json)
    (hj : InvertsAt ((jsonDumps j).length) j)
    (htl : ItemsInv ((jsonDumpsArr (y :: tl)).length + 1) (y :: tl)) :
    ItemsInv ((jsonDumpsArr (j :: y :: tl)).length + 1) (j :: y :: tl) := by
  refine items_mono (items_cons j y tl _ _ hj htl) ?_
  rw [show jsonDumpsArr (j :: y :: tl) =
    jsonDumps j ++ (',' :: ' ' :: jsonDumpsArr (y :: tl)) from rfl]
  simp only [List.length_cons, List.length_append]
  omega

theorem inv_arr_nil_len :
    InvertsAt ((jsonDumps (.arr [])).length) (.arr []) := by
  refine inv_mono inv_arr_nil ?_
  exact dumps_len_pos _

theorem inv_arr_len (x0 : Json) (tl0 : List Json)
    (hxs : ItemsInv ((jsonDumpsArr (x0 :: tl0)).length + 1) (x0 :: tl0)) :
    InvertsAt ((jsonDumps (.arr (x0 :: tl0))).length) (.arr (x0 :: tl0)) := by
  refine inv_mono (inv_arr x0 tl0 _ hxs) ?_
  rw [show jsonDumps (.arr (x0 :: tl0)) =
    '[' :: (jsonDumpsArr (x0 :: tl0) ++ [']']) from rfl]
  simp only [List.length_cons, List.length_append, List.length_singleton]
  omega

theorem inv_arr_of_items : ∀ (xs : List Json),
    (∀ x ∈ xs, InvertsAt ((jsonDumps x).length) x) →
    InvertsAt ((jsonDumps (.arr xs)).length) (.arr xs) := by
  have hitems : ∀ (tl : List Json) (x : Json),
      (∀ y ∈ x :: tl, InvertsAt ((jsonDumps y).length) y) →
      ItemsInv ((jsonDumpsArr (x :: tl)).length + 1) (x :: tl) := by
    intro tl
    induction tl with
    | nil =>
      intro x hx
      exact items_single_len x (hx x (by simp))
    | cons y tl2 ih =>
      intro x hx
      exact items_cons_len x y tl2 (hx x (by simp))
        (ih y (fun z hz => hx z (by simp [List.mem_cons] at hz ⊢; tauto)))
  intro xs hxs
  cases xs with
  | nil => exact inv_arr_nil_len
  | cons x tl => exact inv_arr_len x tl (hitems tl x hxs)

/-- Project document: the payload `_project_payload` builds
(src/iptv_editor/main_window.py lines 288-305): a version, a creation
timestamp, the table rows and the UI column widths. -/
structure Doc where
  ver : Int
  created : Int
  rows : List Row
  colWidths : List Int

/-- JSON object for one row of the payload. -/
def rowJson (r : Row) : Json :=
  .obj [(("name".data), .str r.name), (("url".data), .str r.url),
    (("group".data), .str r.group), (("logo".data), .str r.logo)]

/-- The payload dictionary as JSON, in the insertion order the source
uses. -/
def payloadJson (d : Doc) : Json :=
  .obj [(("ver".data), .int d.ver),
    (("created".data), .int d.created),
    (("rows".data), .arr (d.rows.map rowJson)),
    (("ui".data), .obj
      [(("col_widths".data), .arr (d.colWidths.map Json.int))])]

theorem rowJson_inv (r : Row) :
    InvertsAt ((jsonDumps (rowJson r)).length) (rowJson r) := by
  unfold rowJson
  exact inv_obj_len _ _ _
    (pairs_cons_len _ _ _ _ (inv_str_len r.name)
      (pairs_cons_len _ _ _ _ (inv_str_len r.url)
        (pairs_cons_len _ _ _ _ (inv_str_len r.group)
          (pairs_single_len _ _ (inv_str_len r.logo)))))

theorem payload_inv (d : Doc) :
    InvertsAt ((jsonDumps (payloadJson d)).length) (payloadJson d) := by
  have hrows : InvertsAt ((jsonDumps (.arr (d.rows.map rowJson))).length)
      (.arr (d.rows.map rowJson)) := by
    apply inv_arr_of_items
    intro x hx
    obtain ⟨r, _, rfl⟩ := List.mem_map.1 hx
    exact rowJson_inv r
  have hws : InvertsAt
      ((jsonDumps (.arr (d.colWidths.map Json.int))).length)
      (.arr (d.colWidths.map Json.int)) := by
    apply inv_arr_of_items
    intro x hx
    obtain ⟨i, _, rfl⟩ := List.mem_map.1 hx
    exact inv_int_len i
  unfold payloadJson
  exact inv_obj_len _ _ _
    (pairs_cons_len _ _ _ _ (inv_int_len d.ver)
      (pairs_cons_len _ _ _ _ (inv_int_len d.created)
        (pairs_cons_len _ _ _ _ hrows
          (pairs_single_len _ _
            (inv_obj_len _ _ _ (pairs_single_len _ _ hws))))))

theorem jsonLoads_dumps (j : Json)
    (h : InvertsAt ((jsonDumps j).length) j) :
    jsonLoads (jsonDumps j) = some j := by
  unfold jsonLoads
  have h2 := h [] ((jsonDumps j).length + 1) (by omega)
    (by intro c hc; cases hc)
  rw [List.append_nil] at h2
  rw [h2]
  rfl

theorem nonspace_of_ge (c : Char) (h : 43 ≤ c.toNat) :
    isPySpace c = false ∧ ¬(c = '\r') ∧ ¬(c = '\n') := by
  refine ⟨?_, ?_, ?_⟩
  · cases hb : isPySpace c
    · rfl
    · exfalso
      simp only [isPySpace, Bool.or_eq_true, decide_eq_true_eq] at hb
      rcases hb with ((((h1 | h1) | h1) | h1) | h1) | h1 <;>
        (subst h1; revert h; decide)
  · intro h1
    subst h1
    revert h
    decide
  · intro h1
    subst h1
    revert h
    decide

theorem b64Val_ge (c : Char) (h : (b64Val c).isSome = true) :
    43 ≤ c.toNat := by
  unfold b64Val at h
  dsimp only at h
  split at h
  · omega
  · split at h
    · omega
    · split at h
      · omega
      · split at h
        · rename_i hc
          subst hc
          decide
        · split at h
          · rename_i hc
            subst hc
            decide
          · simp at h

theorem b64keep_facts (c : Char)
    (h : ((b64Val c).isSome || c = '=') = true) :
    isPySpace c = false ∧ ¬(c = '\r') ∧ ¬(c = '\n') := by
  rw [Bool.or_eq_true] at h
  rcases h with h | h
  · exact nonspace_of_ge c (b64Val_ge c h)
  · rw [decide_eq_true_eq] at h
    subst h
    exact ⟨by decide, by decide, by decide⟩

/-- Universal-newline translation performed by reading the file back
in text mode: `\r\n` and lone `\r` become `\n`. -/
def univNewlines : Str → Str
  | [] => []
  | c :: rest =>
    if c = '\r' then
      match rest with
      | [] => ['\n']
      | c2 :: rest2 =>
        if c2 = '\n' then '\n' :: univNewlines rest2
        else '\n' :: univNewlines (c2 :: rest2)
    else c :: univNewlines rest

theorem univNewlines_id (s : Str) (h : ∀ c ∈ s, ¬(c = '\r')) :
    univNewlines s = s := by
  induction s with
  | nil => rfl
  | cons c rest ih =>
    unfold univNewlines
    rw [if_neg (h c (by simp)), ih (fun d hd => h d (by simp [hd]))]

/-- Model of `f.readlines()` in text mode followed by
`rstrip("\n")` on each line (src/iptv_editor/project.py line 33). -/
def pyReadLines (s : Str) : List Str :=
  if s = [] then []
  else
    let parts := splitOnChar '\n' (univNewlines s)
    if parts.getLastD [] = [] then parts.dropLast else parts

theorem splitOnChar_append_cons (sep : Char) (a b : Str)
    (h : ∀ c ∈ a, ¬(c = sep)) :
    splitOnChar sep (a ++ sep :: b) = a :: splitOnChar sep b := by
  induction a with
  | nil =>
    rw [List.nil_append, splitOnChar_sep_cons]
  | cons c a2 ih =>
    rw [List.cons_append]
    unfold splitOnChar
    rw [ih (fun d hd => h d (by simp [hd]))]
    dsimp only
    rw [if_neg (h c (by simp))]
    conv_rhs => rw [← splitOnChar.eq_def]

/-- Error outcomes of `load_project_file`: the two explicit
`ValueError`s the source raises, and the library exceptions that
escape it raw when the payload itself is malformed. -/
inductive LoadErr where
  | valueErrorInvalidMagic
  | valueErrorCorrupted
  | binasciiError
  | zlibError
  | unicodeDecodeError
  | jsonDecodeError
deriving DecidableEq

/-- Embedding of `save_project_file` (src/iptv_editor/project.py lines
17-28), as the text written to the file: the magic line, then the
base64 of the compressed UTF-8 JSON payload. -/
def save_project_file (d : Doc) : Str :=
  ("IPTVPJ1".data) ++ '\n' ::
    (b64Encode (zlibCompress (utf8Encode (jsonDumps (payloadJson d)))) ++
      ['\n'])

/-- Embedding of `load_project_file` (src/iptv_editor/project.py lines
31-40) on the file's text content. -/
def load_project_file (text : Str) : Except LoadErr Json :=
  let lines := pyReadLines text
  if lines = [] ∨ pyStrip (lines.headD []) ≠ ("IPTVPJ1".data) then
    .error .valueErrorInvalidMagic
  else if lines.length < 2 ∨ pyStrip (lines.getD 1 []) = [] then
    .error .valueErrorCorrupted
  else
    match b64Decode (pyStrip (lines.getD 1 [])) with
    | none => .error .binasciiError
    | some packed =>
      match zlibDecompress packed with
      | none => .error .zlibError
      | some raw =>
        match utf8Decode raw with
        | none => .error .unicodeDecodeError
        | some txt =>
          match jsonLoads txt with
          | none => .error .jsonDecodeError
          | some j => .ok j

theorem zlib_bytes_lt (raw : List Nat) (h : ∀ b ∈ raw, b < 256) :
    ∀ b ∈ zlibCompress raw, b < 256 := by
  intro b hb
  unfold zlibCompress at hb
  rcases List.mem_cons.1 hb with rfl | hb
  · omega
  · rcases List.mem_cons.1 hb with rfl | hb
    · omega
    · exact h b hb

theorem b64Encode_cons2_ne_nil (a b : Nat) (tl : List Nat) :
    b64Encode (a :: b :: tl) ≠ [] := by
  cases tl with
  | nil => simp [b64Encode]
  | cons x t => simp [b64Encode]

theorem save_lines (d : Doc) :
    pyReadLines (save_project_file d) =
      [("IPTVPJ1".data),
        b64Encode (zlibCompress (utf8Encode (jsonDumps (payloadJson d))))] := by
  have hbytes : ∀ b ∈ zlibCompress (utf8Encode (jsonDumps (payloadJson d))),
      b < 256 := zlib_bytes_lt _ (utf8Encode_lt _)
  have hBkeep := b64Encode_keep _ hbytes
  have hBsafe : ∀ c ∈ b64Encode (zlibCompress
      (utf8Encode (jsonDumps (payloadJson d)))),
      isPySpace c = false ∧ ¬(c = '\r') ∧ ¬(c = '\n') :=
    fun c hc => b64keep_facts c (hBkeep c hc)
  have hne : save_project_file d ≠ [] := by
    unfold save_project_file
    simp
  have hnor : univNewlines (save_project_file d) = save_project_file d := by
    apply univNewlines_id
    intro c hc
    unfold save_project_file at hc
    rw [List.mem_append] at hc
    rcases hc with hc | hc
    · have hm : ∀ x ∈ ("IPTVPJ1".data), ¬(x = '\r') := by decide
      exact hm c hc
    · rcases List.mem_cons.1 hc with rfl | hc
      · decide
      · rw [List.mem_append] at hc
        rcases hc with hc | hc
        · exact (hBsafe c hc).2.1
        · rcases List.mem_singleton.1 hc with rfl
          decide
  have hparts : splitOnChar '\n' (save_project_file d) =
      [("IPTVPJ1".data),
        b64Encode (zlibCompress (utf8Encode (jsonDumps (payloadJson d)))),
        []] := by
    unfold save_project_file
    rw [splitOnChar_append_cons '\n' _ _ (by decide)]
    rw [show (['\n'] : Str) = '\n' :: [] from rfl]
    rw [splitOnChar_append_cons '\n' _ _ (fun c hc => (hBsafe c hc).2.2)]
    rfl
  unfold pyReadLines
  rw [if_neg hne]
  dsimp only
  rw [hnor, hparts]
  rw [show ([("IPTVPJ1".data),
      b64Encode (zlibCompress (utf8Encode (jsonDumps (payloadJson d)))),
      []] : List Str) =
    [("IPTVPJ1".data),
      b64Encode (zlibCompress (utf8Encode (jsonDumps (payloadJson d))))] ++
      [[]] from by simp]
  rw [List.getLastD_concat, List.dropLast_concat]
  rw [if_pos rfl]

/-- C1: container round-trip.  Loading the file text produced by
saving a document reproduces the payload JSON exactly: the `rows`
(order and all four field values), the `ui.col_widths` metadata and
the `ver` field are the very components of `payloadJson d`, so each is
reproduced exactly; `created` is whatever timestamp the save embedded,
confirming it is regenerated rather than preserved by loading. -/
theorem iptv_C1 (d : Doc) :
    load_project_file (save_project_file d) = .ok (payloadJson d) := by
  have hbytes : ∀ b ∈ zlibCompress (utf8Encode (jsonDumps (payloadJson d))),
      b < 256 := zlib_bytes_lt _ (utf8Encode_lt _)
  have hBkeep := b64Encode_keep _ hbytes
  have hBsafe : ∀ c ∈ b64Encode (zlibCompress
      (utf8Encode (jsonDumps (payloadJson d)))),
      isPySpace c = false ∧ ¬(c = '\r') ∧ ¬(c = '\n') :=
    fun c hc => b64keep_facts c (hBkeep c hc)
  have hstripB : pyStrip (b64Encode (zlibCompress
      (utf8Encode (jsonDumps (payloadJson d))))) =
      b64Encode (zlibCompress (utf8Encode (jsonDumps (payloadJson d)))) :=
    pyStrip_of_all_nonspace _ (fun c hc => (hBsafe c hc).1)
  have hBne : b64Encode (zlibCompress
      (utf8Encode (jsonDumps (payloadJson d)))) ≠ [] :=
    b64Encode_cons2_ne_nil _ _ _
  unfold load_project_file
  dsimp only
  rw [save_lines d]
  rw [if_neg (by
    intro hcon
    rcases hcon with hcon | hcon
    · simp at hcon
    · apply hcon
      rw [show ([("IPTVPJ1".data),
        b64Encode (zlibCompress (utf8Encode (jsonDumps (payloadJson d))))].headD
          []) = ("IPTVPJ1".data) from rfl]
      decide)]
  rw [if_neg (by
    intro hcon
    rcases hcon with hcon | hcon
    · simp at hcon
    · rw [show ([("IPTVPJ1".data),
        b64Encode (zlibCompress (utf8Encode (jsonDumps (payloadJson d))))].getD
          1 []) =
        b64Encode (zlibCompress (utf8Encode (jsonDumps (payloadJson d))))
        from rfl, hstripB] at hcon
      exact hBne hcon)]
  rw [show ([("IPTVPJ1".data),
      b64Encode (zlibCompress (utf8Encode (jsonDumps (payloadJson d))))].getD
        1 []) =
      b64Encode (zlibCompress (utf8Encode (jsonDumps (payloadJson d))))
      from rfl, hstripB]
  rw [b64_roundtrip _ hbytes]
  dsimp only
  rw [zlib_roundtrip]
  dsimp only
  rw [utf8_roundtrip]
  dsimp only
  rw [jsonLoads_dumps _ (payload_inv d)]

/-- C2 counterexample: a file with the correct magic line and a
nonempty second line whose payload is garbage ("AAAA" is valid base64
for three zero bytes, which is not a zlib stream) does NOT fail with
the module's own distinguishable error — it surfaces as the raw
zlib.error of the library, unlike the dedicated `ValueError` the
source raises for a bad magic or a missing payload. -/
theorem iptv_C2_counterexample :
    load_project_file (("IPTVPJ1".data) ++ '\n' :: (("AAAA".data) ++ ['\n'])) =
      .error .zlibError ∧
    (LoadErr.zlibError = LoadErr.valueErrorCorrupted → False) ∧
    (LoadErr.zlibError = LoadErr.valueErrorInvalidMagic → False) := by
  refine ⟨rfl, by decide, by decide⟩

/-- C2 (amended): the first two clauses of the claim hold exactly as
stated — loading fails with the magic `ValueError` precisely when
there is no line or the first trimmed line is not `IPTVPJ1`, and with
the second (missing-payload) `ValueError` — whose message key is
`err_corrupted` — precisely when there is no second line or it is
blank after trimming.  The third clause is corrected: when both
checks pass, a malformed payload does NOT produce a dedicated Corrupt
error; the base64, zlib, UTF-8 or JSON failure escapes raw (and a
well-formed payload loads as a document), never a silent empty
document. -/
theorem iptv_C2 :
    (∀ text : Str,
      load_project_file text = .error .valueErrorInvalidMagic ↔
        (pyReadLines text = [] ∨
          pyStrip ((pyReadLines text).headD []) ≠ ("IPTVPJ1".data))) ∧
    (∀ text : Str,
      load_project_file text = .error .valueErrorCorrupted ↔
        (¬(pyReadLines text = [] ∨
            pyStrip ((pyReadLines text).headD []) ≠ ("IPTVPJ1".data)) ∧
          ((pyReadLines text).length < 2 ∨
            pyStrip ((pyReadLines text).getD 1 []) = []))) ∧
    (∀ text : Str,
      ¬(pyReadLines text = [] ∨
          pyStrip ((pyReadLines text).headD []) ≠ ("IPTVPJ1".data)) →
      ¬((pyReadLines text).length < 2 ∨
          pyStrip ((pyReadLines text).getD 1 []) = []) →
      (∃ j, load_project_file text = .ok j) ∨
        load_project_file text = .error .binasciiError ∨
        load_project_file text = .error .zlibError ∨
        load_project_file text = .error .unicodeDecodeError ∨
        load_project_file text = .error .jsonDecodeError) := by
  refine ⟨?_, ?_, ?_⟩
  · intro text
    unfold load_project_file
    dsimp only
    by_cases h1 : pyReadLines text = [] ∨
        pyStrip ((pyReadLines text).headD []) ≠ ("IPTVPJ1".data)
    · rw [if_pos h1]
      exact ⟨fun _ => h1, fun _ => rfl⟩
    · rw [if_neg h1]
      by_cases h2 : (pyReadLines text).length < 2 ∨
          pyStrip ((pyReadLines text).getD 1 []) = []
      · rw [if_pos h2]
        constructor
        · intro h
          simp at h
        · intro h
          exact absurd h h1
      · rw [if_neg h2]
        constructor
        · intro h
          exfalso
          revert h
          split
          · intro h; simp at h
          · split
            · intro h; simp at h
            · split
              · intro h; simp at h
              · split
                · intro h; simp at h
                · intro h; simp at h
        · intro h
          exact absurd h h1
  · intro text
    unfold load_project_file
    dsimp only
    by_cases h1 : pyReadLines text = [] ∨
        pyStrip ((pyReadLines text).headD []) ≠ ("IPTVPJ1".data)
    · rw [if_pos h1]
      constructor
      · intro h
        simp at h
      · intro h
        exact absurd h1 h.1
    · rw [if_neg h1]
      by_cases h2 : (pyReadLines text).length < 2 ∨
          pyStrip ((pyReadLines text).getD 1 []) = []
      · rw [if_pos h2]
        exact ⟨fun _ => ⟨h1, h2⟩, fun _ => rfl⟩
      · rw [if_neg h2]
        constructor
        · intro h
          exfalso
          revert h
          split
          · intro h; simp at h
          · split
            · intro h; simp at h
            · split
              · intro h; simp at h
              · split
                · intro h; simp at h
                · intro h; simp at h
        · intro h
          exact absurd h.2 h2
  · intro text h1 h2
    unfold load_project_file
    dsimp only
    rw [if_neg h1, if_neg h2]
    split
    · right; left; rfl
    · split
      · right; right; left; rfl
      · split
        · right; right; right; left; rfl
        · split
          · right; right; right; right; rfl
          · left; exact ⟨_, rfl⟩

theorem iptv_C2_witness :
    (∃ j, load_project_file (("IPTVPJ1".data) ++ '\n' ::
        (("AAAA".data) ++ ['\n'])) = .ok j) ∨
      load_project_file (("IPTVPJ1".data) ++ '\n' ::
        (("AAAA".data) ++ ['\n'])) = .error .binasciiError ∨
      load_project_file (("IPTVPJ1".data) ++ '\n' ::
        (("AAAA".data) ++ ['\n'])) = .error .zlibError ∨
      load_project_file (("IPTVPJ1".data) ++ '\n' ::
        (("AAAA".data) ++ ['\n'])) = .error .unicodeDecodeError ∨
      load_project_file (("IPTVPJ1".data) ++ '\n' ::
        (("AAAA".data) ++ ['\n'])) = .error .jsonDecodeError :=
  iptv_C2.2.2 _ (by decide) (by decide)
